import Mathlib

/-!
# termline: a shallow embedding of `RenderTimeline`

The Go function `RenderTimeline` (src/termline.go) is embedded section by section.

* A `time.Time` is an `Int`: nanoseconds since the zero time (January 1, year 1, UTC), the
  reference from which `Truncate` measures; the range of `time.Time` is not bounded here. A
  `time.Duration` is an `Int` too: nanoseconds in a 64-bit signed integer, at whose bounds
  `Time.Sub` saturates.
* `float64` values are exact fractions; every conversion, division and multiplication rounds to
  the nearest 53-bit significand, ties to even (`Float64.ofRatio`).
* A run-time panic is `none`: a negative repeat count, an index out of range, an allocation
  beyond the largest one the runtime accepts. Running out of memory below that limit is not
  modelled.
* The library routines `sort.Slice` and `Time.Format` are parameters (`Lib`); the location of
  the times is fixed, so that a formatted time depends on the layout and the instant only.
* Go strings are restricted to valid UTF-8: `String`, with `len` the number of bytes.

The definitions come first, the properties after them.
-/

set_option maxRecDepth 100000

namespace Termline

/-! ## Time -/

/-- The least `time.Duration`. -/
def minDuration : Int := -(2 ^ 63)

/-- The greatest `time.Duration`. -/
def maxDuration : Int := 2 ^ 63 - 1

/-- The constant `time.Hour`. -/
def Hour : Int := 3600000000000

/-- The method `t.Before(u)`. -/
def Before (t u : Int) : Bool := decide (t < u)

/-- The method `t.After(u)`. -/
def After (t u : Int) : Bool := decide (u < t)

/-- The method `t.Sub(u)`: the difference, saturated to the range of `Duration`. -/
def Sub (t u : Int) : Int :=
  if t - u < minDuration then minDuration
  else if maxDuration < t - u then maxDuration
  else t - u

/-- The method `t.Add(d)`. -/
def Add (t : Int) (d : Int) : Int := t + d

/-- The method `t.Truncate(d)`: `t` rounded down to a multiple of `d` since the zero time;
`t` itself when `d ≤ 0`. -/
def Truncate (t : Int) (d : Int) : Int :=
  if d ≤ 0 then t else t - t % d

/-! ## Binary64 arithmetic -/

/-- Loop computing the position of the leading bit. -/
def log2Loop : Nat → Nat → Nat
  | 0, _ => 0
  | fuel + 1, n => if n < 2 then 0 else log2Loop fuel (n / 2) + 1

/-- Position of the leading bit of `n` (0 for `n ≤ 1`). -/
def ilog2 (n : Nat) : Nat := log2Loop n n

/-- The quotient `n / d` rounded to the nearest natural number, a tie going to the even
neighbour. -/
def roundEven (n d : Nat) : Nat :=
  if 2 * (n % d) < d then n / d
  else if d < 2 * (n % d) then n / d + 1
  else if (n / d) % 2 = 0 then n / d
  else n / d + 1

/-- A finite `float64` value, held as the exact fraction `num / den`. -/
structure Float64 where
  num : Int
  den : Nat
  deriving DecidableEq, Repr

namespace Float64

/-- The exact value. -/
def toRat (f : Float64) : ℚ := (f.num : ℚ) / (f.den : ℚ)

/-- The power of two `k` for which `2^52 ≤ (n / d) * 2^(ilog2 d + 53 - k) < 2^53`. -/
def scale (n d : Nat) : Nat :=
  if n * 2 ^ (ilog2 d + 53) < d * 2 ^ (ilog2 n + 53) then ilog2 n else ilog2 n + 1

/-- The `float64` nearest to `± n / d` (round to nearest, ties to even, 53-bit significand):
the significand `m` lies in `[2^52, 2^53]` and the value is `m * 2^k / 2^(ilog2 d + 53)`.
Exponent range is not modelled: the magnitudes that arise lie between `2^(-63)` and `2^63`. -/
def ofRatio (neg : Bool) (n d : Nat) : Float64 :=
  if n = 0 then ⟨0, 1⟩
  else
    let k := scale n d
    let e := ilog2 d + 53
    let m := roundEven (n * 2 ^ e) (d * 2 ^ k)
    let v : Nat := m * 2 ^ (k - e)
    ⟨if neg then -(v : Int) else (v : Int), 2 ^ (e - k)⟩

/-- The conversion `float64(i)` of an integer. -/
def ofInt (i : Int) : Float64 := ofRatio (decide (i < 0)) i.natAbs 1

/-- The quotient `a / b` of two `float64` values (`b` not zero). -/
def div (a b : Float64) : Float64 :=
  ofRatio (decide (a.num < 0) != decide (b.num < 0)) (a.num.natAbs * b.den) (a.den * b.num.natAbs)

/-- The product `a * b` of two `float64` values. -/
def mul (a b : Float64) : Float64 :=
  ofRatio (decide (a.num < 0) != decide (b.num < 0)) (a.num.natAbs * b.num.natAbs) (a.den * b.den)

/-- The conversion `int(math.Round(f))`: the nearest integer, halves away from zero. -/
def roundToInt (f : Float64) : Int :=
  if f.num < 0 then -(((2 * f.num.natAbs + f.den) / (2 * f.den) : Nat) : Int)
  else (((2 * f.num.natAbs + f.den) / (2 * f.den) : Nat) : Int)

end Float64

/-! ## The column mapper -/

/-- The closure `toX` of `RenderTimeline`; `span` is `end.Sub(start)` and `Width` is
`opt.Width`. -/
def toX (start end_ : Int) (span : Int) (Width : Int) (t : Int) : Int :=
  if Before t start then 0
  else if After t end_ then Width
  else
    let ratio := Float64.div (Float64.ofInt (Sub t start)) (Float64.ofInt span)
    Float64.roundToInt (Float64.mul ratio (Float64.ofInt Width))

/-! ## Strings, buffers and allocation -/

/-- The built-in `len` of a string: its number of bytes. -/
def len (s : String) : Nat := s.utf8ByteSize

/-- The largest allocation the Go runtime accepts (`maxAlloc`, 64-bit platforms); a larger
`make` panics. -/
def maxAlloc : Nat := 2 ^ 48

/-- The function `strings.Repeat`: `none` is its panic on a negative count or on a result
beyond the largest allocation. -/
def Repeat (s : String) (count : Int) : Option String :=
  if count < 0 then none
  else if maxAlloc < len s * count.toNat then none
  else some (String.join (List.replicate count.toNat s))

/-- The call `make([]rune, n)` followed by the loop filling the slice with `c`: `none` is the
panic of `make` on a negative length or on more than the largest allocation (a rune is 4
bytes). -/
def makeRunes (n : Int) (c : Char) : Option (List Char) :=
  if n < 0 then none
  else if maxAlloc < 4 * n.toNat then none
  else some (List.replicate n.toNat c)

/-- The assignment `buf[i] = r`: `none` is the index-out-of-range panic. -/
def setRune (buf : List Char) (i : Int) (r : Char) : Option (List Char) :=
  if 0 ≤ i ∧ i < buf.length then some (buf.set i.toNat r) else none

/-- The pairs `(i, r)` of `for i, r := range s`: each rune with the byte offset at which it
starts, counted from `i`. -/
def rangeRunes : Nat → List Char → List (Nat × Char)
  | _, [] => []
  | i, c :: cs => (i, c) :: rangeRunes (i + c.utf8Size) cs

/-! ## Data model -/

/-- The type `Event`: a label, an instant and a depth. -/
structure Event where
  Label : String
  At : Int
  Depth : Int
  deriving DecidableEq, Repr

/-- The type `Options`. -/
structure Options where
  Width : Int
  LeftMargin : Int
  TickEvery : Int
  TimeFormat : String
  deriving DecidableEq, Repr

/-- The local type `slot` of the packing loop. -/
structure slot where
  e : Event
  x : Int
  w : Int
  deriving DecidableEq, Repr

/-- The library routines `RenderTimeline` calls, which are not part of the repository:
`sortSlice α l less` is the slice `l` after `sort.Slice(l, less)`, and `format layout t` is
`t.Format(layout)`. -/
structure Lib where
  sortSlice : (α : Type) → List α → (α → α → Bool) → List α
  format : String → Int → String

/-- What `sort.Slice` guarantees whatever the comparison: the slice is rearranged. -/
def Lib.Permutes (lib : Lib) : Prop :=
  ∀ (α : Type) (l : List α) (less : α → α → Bool), (lib.sortSlice α l less).Perm l

/-! ## Option defaults and the event order -/

/-- The three defaulting statements at the head of `RenderTimeline`. -/
def withDefaults (opt : Options) : Options :=
  let opt := if opt.Width ≤ 0 then { opt with Width := 100 } else opt
  let opt := if opt.TickEvery ≤ 0 then { opt with TickEvery := Hour } else opt
  if opt.TimeFormat = "" then { opt with TimeFormat := "15:04" } else opt

/-- The comparison passed to `sort.Slice` for the events: depth, then time. -/
def eventLess (a b : Event) : Bool :=
  if a.Depth ≠ b.Depth then decide (a.Depth < b.Depth) else Before a.At b.At

/-! ## Ticks -/

/-- The first tick: `start` truncated to the period, advanced by one period when that is
before `start`. -/
def firstTick (start : Int) (TickEvery : Int) : Int :=
  let ft := Truncate start TickEvery
  if Before ft start then Add ft TickEvery else ft

/-- The loop `for t := firstTick; !t.After(end); t = t.Add(opt.TickEvery)` run with a bound
`fuel` on the number of times its condition is tested: the values of `t` in the loop body, in
order, or `none` when the bound is reached before the loop ends. -/
def tickLoop (end_ : Int) (TickEvery : Int) : Nat → Int → Option (List Int)
  | 0, _ => none
  | fuel + 1, t =>
    if After t end_ then some []
    else (tickLoop end_ TickEvery fuel (Add t TickEvery)).map (t :: ·)

/-- The ticks of a render: the loop from the first tick, bounded by two more than the number
of nanoseconds from the first tick to `end`, a bound the loop does not reach when the period
is positive (`tickLoop_of_fuel`). -/
def ticks (start end_ : Int) (TickEvery : Int) : List Int :=
  (tickLoop end_ TickEvery ((end_ - firstTick start TickEvery).toNat + 2)
    (firstTick start TickEvery)).getD []

/-! ## The tick-label line -/

/-- The start position of a tick label: centred on column `x`, then the two clamps of
`RenderTimeline`, in the order of the source. -/
def labelPos (x : Int) (lblLen bufLen : Nat) : Int :=
  let pos := x - ((lblLen / 2 : Nat) : Int)
  let pos := if pos < 0 then 0 else pos
  if (bufLen : Int) < pos + (lblLen : Int) then (bufLen : Int) - (lblLen : Int) else pos

/-- The loop `for i, r := range lbl { tickLine[pos+i] = r }`. -/
def writeLabel (pos : Int) : List (Nat × Char) → List Char → Option (List Char)
  | [], buf => some buf
  | (i, r) :: rest, buf => (setRune buf (pos + (i : Int)) r).bind (writeLabel pos rest)

/-- The body of the tick-label loop for the tick `t`. -/
def writeTick (lib : Lib) (start end_ : Int) (span : Int) (opt : Options)
    (tickLine : List Char) (t : Int) : Option (List Char) :=
  let x := toX start end_ span opt.Width t
  let lbl := lib.format opt.TimeFormat t
  let pos := labelPos x (len lbl) tickLine.length
  writeLabel pos (rangeRunes 0 lbl.data) tickLine

/-- The tick-label loop over the ticks `ts`. -/
def writeTicks (lib : Lib) (start end_ : Int) (span : Int) (opt : Options) :
    List Int → List Char → Option (List Char)
  | [], tickLine => some tickLine
  | t :: ts, tickLine =>
    (writeTick lib start end_ span opt tickLine t).bind (writeTicks lib start end_ span opt ts)

/-- The tick-label line (section "Tick labels"), before the margin is put in front. -/
def tickLabelLine (lib : Lib) (start end_ : Int) (span : Int) (opt : Options) :
    Option (List Char) :=
  (makeRunes (opt.Width + 1) ' ').bind
    (writeTicks lib start end_ span opt (ticks start end_ opt.TickEvery))

/-! ## The axis line -/

/-- The loop `axis[toX(t)] = '|'` over the ticks `ts`. -/
def markTicks (start end_ : Int) (span : Int) (Width : Int) :
    List Int → List Char → Option (List Char)
  | [], axis => some axis
  | t :: ts, axis =>
    (setRune axis (toX start end_ span Width t) '|').bind (markTicks start end_ span Width ts)

/-- The axis line (section "Axis"), before the margin is put in front. -/
def axisLine (start end_ : Int) (span : Int) (opt : Options) : Option (List Char) :=
  (makeRunes (opt.Width + 1) '-').bind fun axis =>
  (setRune axis 0 '|').bind fun axis =>
  (setRune axis opt.Width '|').bind
    (markTicks start end_ span opt.Width (ticks start end_ opt.TickEvery))

/-! ## Greedy row packing -/

/-- The text of a marker. -/
def markerText (lib : Lib) (layout : String) (e : Event) : String :=
  "^ " ++ e.Label ++ " (" ++ lib.format layout e.At ++ ")"

/-- The slot built for the event `e`: its column and the byte length of its marker. -/
def mkSlot (lib : Lib) (start end_ : Int) (span : Int) (opt : Options) (e : Event) :
    slot :=
  { e := e
    x := toX start end_ span opt.Width e.At
    w := (len (markerText lib opt.TimeFormat e) : Int) }

/-- The collision test of the packing loop between a marker `(x, w)` and a placed slot. -/
def collides (x w : Int) (s : slot) : Bool :=
  decide (x < s.x + s.w + 1) && decide (s.x < x + w + 1)

/-- The inner loop over a row: `fit` stays true when no placed slot collides. -/
def fits (x w : Int) (row : List slot) : Bool :=
  row.all fun s => !collides x w s

/-- The loop over `rows` that sets `target`: the index of the first row that fits, `none`
standing for `-1`. -/
def findTarget (x w : Int) : List (List slot) → Option Nat
  | [] => none
  | row :: rest => if fits x w row then some 0 else (findTarget x w rest).map (· + 1)

/-- The assignment `rows[target] = append(rows[target], p)`. -/
def appendAt (p : slot) : Nat → List (List slot) → List (List slot)
  | _, [] => []
  | 0, row :: rest => (row ++ [p]) :: rest
  | r + 1, row :: rest => row :: appendAt p r rest

/-- One iteration of the packing loop, for the slot `p`. -/
def place (rows : List (List slot)) (p : slot) : List (List slot) :=
  match findTarget p.x p.w rows with
  | none => rows ++ [[p]]
  | some r => appendAt p r rows

/-- The packing loop over the slots, from no row at all. -/
def packRows (slots : List slot) : List (List slot) :=
  slots.foldl place []

/-! ## Rendering the rows -/

/-- The loop over the slots of a sorted row, from the position `pos`. -/
def writeRow (lib : Lib) (layout : String) : List slot → Int → Option String
  | [], _ => some ""
  | s :: rest, pos =>
    (if pos < s.x then Repeat " " (s.x - pos) else some "").bind fun gap =>
    (writeRow lib layout rest (s.x + s.w)).bind fun tail =>
    some (gap ++ "^ " ++ s.e.Label ++ " (" ++ lib.format layout s.e.At ++ ")" ++ tail)

/-- The body line of one row: the row sorted by column, the margin, the markers, a newline. -/
def renderRow (lib : Lib) (layout margin : String) (row : List slot) : Option String :=
  (writeRow lib layout (lib.sortSlice slot row fun a b => decide (a.x < b.x)) 0).bind
    fun body => some (margin ++ body ++ "\n")

/-- The loop over the rows. -/
def renderRows (lib : Lib) (layout margin : String) : List (List slot) → Option String
  | [] => some ""
  | row :: rest =>
    (renderRow lib layout margin row).bind fun line =>
    (renderRows lib layout margin rest).bind fun tail => some (line ++ tail)

/-! ## The renderer -/

/-- The caller's slice after `sort.Slice(events, ...)`. -/
def sortedEvents (lib : Lib) (events : List Event) : List Event :=
  lib.sortSlice Event events eventLess

/-- The packing rows of a render: the sorted events, each turned into a slot, packed. -/
def rowsOf (lib : Lib) (events : List Event) (start end_ : Int) (opt : Options) :
    List (List slot) :=
  packRows ((sortedEvents lib events).map
    (mkSlot lib start end_ (Sub end_ start) (withDefaults opt)))

/-- Everything after the test `span <= 0`, for defaulted options and sorted events. -/
def renderBody (lib : Lib) (events : List Event) (start end_ : Int) (opt : Options) :
    Option String :=
  let span := Sub end_ start
  (Repeat " " opt.LeftMargin).bind fun margin =>
  (tickLabelLine lib start end_ span opt).bind fun tickLine =>
  (axisLine start end_ span opt).bind fun axis =>
  (renderRows lib opt.TimeFormat margin
    (packRows (events.map (mkSlot lib start end_ span opt)))).bind fun body =>
  some (margin ++ String.mk tickLine ++ "\n" ++ margin ++ String.mk axis ++ "\n\n" ++ body)

/-- The function `RenderTimeline`. The first component is the caller's event slice as the
call leaves it, the second the returned text, `none` when the call panics. -/
def RenderTimeline (lib : Lib) (events : List Event) (start end_ : Int) (opt : Options) :
    List Event × Option String :=
  let opt := withDefaults opt
  let events := sortedEvents lib events
  if Sub end_ start ≤ 0 then (events, some "")
  else (events, renderBody lib events start end_ opt)

/-! ## An instance of the library -/

/-- Two decimal digits. -/
def twoDigits (n : Nat) : String :=
  String.mk [Nat.digitChar (n / 10 % 10), Nat.digitChar (n % 10)]

/-- An instance of `Time.Format` for times in UTC: the layout `15:04` gives the hour and the
minute; any other layout is taken to hold no verb and is returned as it is. -/
def clockFormat (layout : String) (t : Int) : String :=
  if layout = "15:04" then
    twoDigits (t / 3600000000000 % 24).toNat ++ ":" ++ twoDigits (t / 60000000000 % 60).toNat
  else layout

/-- An instance of the library: a stable insertion sort and the clock format. -/
def stdLib : Lib where
  sortSlice := fun _ l less => l.insertionSort fun a b => less b a = false
  format := clockFormat

/-- Another sort routine within what the documentation of `sort.Slice` promises (the slice
ends in order; the sort is not guaranteed to be stable): it puts equal elements in the
reverse of the order in which it finds them. -/
def revLib : Lib where
  sortSlice := fun _ l less => List.insertionSort (fun a b => less b a = false) l.reverse
  format := clockFormat

/-! ## The column of the specification -/

/-- The column as the specification words it: the exact quotient
`(t - start) * width / (end - start)` rounded to the nearest integer, halves away from zero,
that is `floor((2 * (t - start) * width + (end - start)) / (2 * (end - start)))`. -/
def exactColumn (start end_ Width t : Int) : Int :=
  (2 * (t - start) * Width + (end_ - start)) / (2 * (end_ - start))

/-! ## A sample render -/

/-- The instant 2025-06-10T08:00:00Z. -/
def sampleStart : Int := 63885139200000000000

/-- The instant 2025-06-10T10:00:00Z. -/
def sampleEnd : Int := 63885146400000000000

/-- Width 20, no margin, hourly ticks, hours and minutes. -/
def sampleOptions : Options := ⟨20, 0, 3600000000000, "15:04"⟩

/-- One event, at 08:30. -/
def sampleEvents : List Event := [⟨"A", 63885141000000000000, 0⟩]

/-- The text of the sample render. -/
def sampleText : String :=
  "08:00   09:00   10:00\n|---------|---------|\n\n     ^ A (08:30)\n"

/-! ## What the sort routine guarantees -/

/-- What `sort.Slice` guarantees for a comparison that is a strict weak ordering (it is
asymmetric and its negation is transitive): the slice ends in order. -/
def Lib.Sorts (lib : Lib) : Prop :=
  ∀ (α : Type) (l : List α) (less : α → α → Bool),
    (∀ a b, less a b = true → less b a = false) →
    (∀ a b c, less b a = false → less c b = false → less c a = false) →
    (lib.sortSlice α l less).Pairwise fun a b => less b a = false

/-- A property of the implementation of `sort.Slice` that its documentation does not promise
(an insertion sort up to 12 elements; beyond, a pattern-defeating quicksort that first checks
whether the slice is in order): a slice that is already in order is left as it is. -/
def Lib.KeepsSorted (lib : Lib) : Prop :=
  ∀ (α : Type) (l : List α) (less : α → α → Bool),
    (l.Pairwise fun a b => less b a = false) → lib.sortSlice α l less = l

/-! ## The slots of a render and the write ranges of the tick labels -/

/-- The slots of a render, in the order in which the packing loop takes them. -/
def slotsOf (lib : Lib) (events : List Event) (start end_ : Int) (opt : Options) : List slot :=
  (sortedEvents lib events).map (mkSlot lib start end_ (Sub end_ start) (withDefaults opt))

/-- The start position of the label of the tick `t` in the tick-label line of a render with
the options `opt`. -/
def tickLabelPos (lib : Lib) (start end_ : Int) (opt : Options) (t : Int) : Int :=
  labelPos (toX start end_ (Sub end_ start) opt.Width t) (len (lib.format opt.TimeFormat t))
    (opt.Width + 1).toNat

/-- The write range of the label of the tick `t` holds the position `i`. -/
def coversTick (lib : Lib) (start end_ : Int) (opt : Options) (t : Int) (i : Nat) : Prop :=
  tickLabelPos lib start end_ opt t ≤ (i : Int) ∧
    (i : Int) < tickLabelPos lib start end_ opt t + (len (lib.format opt.TimeFormat t) : Int)

/-! ## Further sample renders -/

/-- Three events of 10 June 2025: A at 08:05, B at 09:40 and C at 08:10. -/
def threeEvents : List Event :=
  [⟨"A", 63885139500000000000, 0⟩, ⟨"B", 63885145200000000000, 0⟩,
    ⟨"C", 63885139800000000000, 0⟩]

/-- Options with 60 columns for the two hours of the sample window. -/
def wideOptions : Options := ⟨60, 0, 3600000000000, "15:04"⟩

/-- The slot of the first of the three events: column 3, 11 bytes. -/
def slotA : slot := ⟨⟨"A", 63885139500000000000, 0⟩, 3, 11⟩

/-- The slot of the second of the three events: column 50, 11 bytes. -/
def slotB : slot := ⟨⟨"B", 63885145200000000000, 0⟩, 50, 11⟩

/-- The slot of the third of the three events: column 5, 11 bytes. -/
def slotC : slot := ⟨⟨"C", 63885139800000000000, 0⟩, 5, 11⟩

/-- The text of the render of the three events in 60 columns. -/
def threeText : String :=
  "08:00                       09:00                       10:00\n" ++
  "|-----------------------------|-----------------------------|\n\n" ++
  "   ^ A (08:05)                                    ^ B (09:40)\n" ++
  "     ^ C (08:10)\n"

/-- Four events of 10 June 2025 on two depths: a at 08:00 and d at 08:24 with depth 0, b at
08:08 and c at 08:16 with depth 1. -/
def fourEvents : List Event :=
  [⟨"a", 63885139200000000000, 0⟩, ⟨"b", 63885139680000000000, 1⟩,
    ⟨"c", 63885140160000000000, 1⟩, ⟨"d", 63885140640000000000, 0⟩]

/-- 09:00 UTC on 10 June 2025. -/
def nineOClock : Int := 63885142800000000000

/-- The text of the render of the four events from 08:00 to 09:00 in 60 columns. -/
def fourText : String :=
  "08:00                                                   09:00\n" ++
  "|-----------------------------------------------------------|\n\n" ++
  "^ a (08:00)             ^ d (08:24)\n" ++
  "        ^ b (08:08)\n" ++
  "                ^ c (08:16)\n"

/-- Two events at the same instant and depth, B before A. -/
def tiedEvents : List Event :=
  [⟨"B", 63885141000000000000, 0⟩, ⟨"A", 63885141000000000000, 0⟩]

/-! # Properties -/

/-! ## The degenerate window -/

theorem Sub_nonpos_iff (t u : Int) : Sub t u ≤ 0 ↔ t ≤ u := by
  unfold Sub minDuration maxDuration
  split_ifs <;> omega

theorem Sub_pos_iff (t u : Int) : 0 < Sub t u ↔ u < t := by
  have h := Sub_nonpos_iff t u
  omega

/-- C2: when `end` is not after `start`, `RenderTimeline` returns the empty string, whatever
the events, the options and the library routines. -/
theorem RenderTimeline_empty_of_end_le_start (lib : Lib) (events : List Event)
    (start end_ : Int) (opt : Options) (h : end_ ≤ start) :
    (RenderTimeline lib events start end_ opt).2 = some "" := by
  have hs : Sub end_ start ≤ 0 := (Sub_nonpos_iff end_ start).2 h
  simp [RenderTimeline, hs]

/-! ## The packing loop -/

theorem place_nil (p : slot) : place [] p = [[p]] := rfl

theorem place_cons (row : List slot) (rest : List (List slot)) (p : slot) :
    place (row :: rest) p =
      if fits p.x p.w row then (row ++ [p]) :: rest else row :: place rest p := by
  unfold place
  simp only [findTarget]
  by_cases hf : fits p.x p.w row = true
  · simp [hf, appendAt]
  · simp only [hf]
    cases hft : findTarget p.x p.w rest with
    | none => simp
    | some r => simp [appendAt]

/-- Where the rows of `place rows p` come from. -/
theorem mem_place {rows : List (List slot)} {p : slot} {row : List slot}
    (h : row ∈ place rows p) :
    row ∈ rows ∨ row = [p] ∨ ∃ r ∈ rows, fits p.x p.w r = true ∧ row = r ++ [p] := by
  induction rows with
  | nil =>
    rw [place_nil] at h
    simp only [List.mem_singleton] at h
    exact Or.inr (Or.inl h)
  | cons r rest ih =>
    rw [place_cons] at h
    by_cases hf : fits p.x p.w r = true
    · rw [if_pos hf] at h
      rcases List.mem_cons.1 h with h | h
      · exact Or.inr (Or.inr ⟨r, List.mem_cons_self _ _, hf, h⟩)
      · exact Or.inl (List.mem_cons_of_mem _ h)
    · rw [if_neg hf] at h
      rcases List.mem_cons.1 h with h | h
      · exact Or.inl (h ▸ List.mem_cons_self _ _)
      · rcases ih h with h1 | h1 | ⟨r1, hr1, hf1, h1⟩
        · exact Or.inl (List.mem_cons_of_mem _ h1)
        · exact Or.inr (Or.inl h1)
        · exact Or.inr (Or.inr ⟨r1, List.mem_cons_of_mem _ hr1, hf1, h1⟩)

/-- Two slots are apart when the collision test of the packing loop fails for them. -/
theorem fits_iff (x w : Int) (row : List slot) :
    fits x w row = true ↔ ∀ s ∈ row, ¬ (x < s.x + s.w + 1 ∧ s.x < x + w + 1) := by
  unfold fits
  rw [List.all_eq_true]
  refine forall_congr' fun s => forall_congr' fun _ => ?_
  simp only [collides, Bool.not_eq_true', Bool.and_eq_false_iff, decide_eq_false_iff_not]
  tauto

/-- An invariant of the packing loop: a property of pairs of slots that holds between a
slot and every slot of a row that fits it holds pairwise in every row. -/
theorem pairwise_foldl_place (R : slot → slot → Prop)
    (hR : ∀ (p : slot) (row : List slot), fits p.x p.w row = true → ∀ s ∈ row, R s p)
    (slots : List slot) (rows : List (List slot))
    (hrows : ∀ row ∈ rows, row.Pairwise R) :
    ∀ row ∈ slots.foldl place rows, row.Pairwise R := by
  induction slots generalizing rows with
  | nil => simpa using hrows
  | cons p ps ih =>
    rw [List.foldl_cons]
    apply ih
    intro row hrow
    rcases mem_place hrow with h | h | ⟨r, hr, hf, h⟩
    · exact hrows row h
    · subst h
      exact List.pairwise_singleton R p
    · subst h
      rw [List.pairwise_append]
      refine ⟨hrows r hr, List.pairwise_singleton R p, ?_⟩
      intro a ha b hb
      rw [List.mem_singleton] at hb
      subst hb
      exact hR b r hf a ha

/-- The collision test fails between any two slots of a packing row. -/
theorem packing_rows_never_collide_aux (lib : Lib) (events : List Event) (start end_ : Int)
    (opt : Options) :
    ∀ row ∈ rowsOf lib events start end_ opt,
      row.Pairwise fun a b => ¬ (a.x < b.x + b.w + 1 ∧ b.x < a.x + a.w + 1) := by
  unfold rowsOf packRows
  apply pairwise_foldl_place
  · intro p row hf s hs
    have h := (fits_iff p.x p.w row).1 hf s hs
    intro hc
    exact h ⟨hc.2, hc.1⟩
  · intro row hrow
    simp at hrow

/-- C1: in every packing row of a render, any two markers are non-colliding: the collision
test `x1 < x2+w2+1 AND x2 < x1+w1+1` is false for them, that is, one of them ends at least one
column before the other begins. -/
theorem packing_rows_never_collide (lib : Lib) (events : List Event) (start end_ : Int)
    (opt : Options) :
    ∀ row ∈ rowsOf lib events start end_ opt,
      row.Pairwise fun a b =>
        ¬ (a.x < b.x + b.w + 1 ∧ b.x < a.x + a.w + 1) ∧
        (a.x + a.w + 1 ≤ b.x ∨ b.x + b.w + 1 ≤ a.x) := by
  unfold rowsOf packRows
  apply pairwise_foldl_place
  · intro p row hf s hs
    have h := (fits_iff p.x p.w row).1 hf s hs
    constructor
    · intro hc
      exact h ⟨hc.2, hc.1⟩
    · by_contra hcon
      apply h
      constructor <;> omega
  · intro row hrow
    simp at hrow

/-- A witness of C1: three events in a width of 60; the first packing row holds the markers
of A, at column 3, and of B, at column 50. -/
theorem packing_rows_never_collide_witness :
    ([⟨⟨"A", 63885139500000000000, 0⟩, 3, 11⟩,
        ⟨⟨"B", 63885145200000000000, 0⟩, 50, 11⟩] : List slot) ∈
      rowsOf stdLib [⟨"A", 63885139500000000000, 0⟩, ⟨"B", 63885145200000000000, 0⟩,
        ⟨"C", 63885139800000000000, 0⟩] sampleStart sampleEnd
        ⟨60, 0, 3600000000000, "15:04"⟩ ∧
    ([⟨⟨"A", 63885139500000000000, 0⟩, 3, 11⟩,
        ⟨⟨"B", 63885145200000000000, 0⟩, 50, 11⟩] : List slot).Pairwise fun a b =>
      ¬ (a.x < b.x + b.w + 1 ∧ b.x < a.x + a.w + 1) ∧
      (a.x + a.w + 1 ≤ b.x ∨ b.x + b.w + 1 ≤ a.x) :=
  ⟨by decide,
    packing_rows_never_collide stdLib [⟨"A", 63885139500000000000, 0⟩,
      ⟨"B", 63885145200000000000, 0⟩, ⟨"C", 63885139800000000000, 0⟩] sampleStart sampleEnd
      ⟨60, 0, 3600000000000, "15:04"⟩ _ (by decide)⟩

/-- A witness of C2: a window that ends when it starts. -/
theorem RenderTimeline_empty_of_end_le_start_witness :
    (63885139200000000000 : Int) ≤ 63885139200000000000 ∧
    (RenderTimeline stdLib [⟨"A", 63885139200000000000, 0⟩] 63885139200000000000
      63885139200000000000 ⟨20, 0, 3600000000000, ""⟩).2 = some "" :=
  ⟨by decide, RenderTimeline_empty_of_end_le_start stdLib _ _ _ _ (by decide)⟩

/-- The packing loop keeps every slot: one iteration adds the slot to the rows. -/
theorem flatten_place_perm (rows : List (List slot)) (p : slot) :
    (place rows p).flatten.Perm (p :: rows.flatten) := by
  induction rows with
  | nil => simp [place_nil]
  | cons r rest ih =>
    rw [place_cons]
    by_cases hf : fits p.x p.w r = true
    · rw [if_pos hf]
      simp only [List.flatten_cons, List.append_assoc, List.singleton_append]
      exact (List.perm_middle).trans (List.Perm.refl _)
    · rw [if_neg hf]
      simp only [List.flatten_cons]
      exact (List.Perm.append_left r ih).trans List.perm_middle

theorem flatten_foldl_place_perm (slots : List slot) (rows : List (List slot)) :
    (slots.foldl place rows).flatten.Perm (rows.flatten ++ slots) := by
  induction slots generalizing rows with
  | nil => simp
  | cons p ps ih =>
    rw [List.foldl_cons]
    refine (ih (place rows p)).trans ?_
    refine ((flatten_place_perm rows p).append_right ps).trans ?_
    simpa using (List.perm_middle : (rows.flatten ++ p :: ps).Perm (p :: (rows.flatten ++ ps))).symm

/-- The rows of the packing loop hold the slots it was given, each once. -/
theorem flatten_packRows_perm (slots : List slot) : (packRows slots).flatten.Perm slots := by
  simpa [packRows] using flatten_foldl_place_perm slots []

theorem mem_of_mem_packRows {slots : List slot} {row : List slot} {s : slot}
    (hrow : row ∈ packRows slots) (hs : s ∈ row) : s ∈ slots :=
  (flatten_packRows_perm slots).subset (List.mem_flatten.2 ⟨row, hrow, hs⟩)

theorem len_nonneg (s : String) : (0 : Int) ≤ (len s : Int) := Int.natCast_nonneg _

/-- C10: the packing rows hold the events of the list, each placed once, and no row holds
two of them that have the same timestamp and the same depth: two distinct events at the
same instant and depth are in two different rows. -/
theorem same_instant_events_in_different_rows (lib : Lib) (hlib : lib.Permutes)
    (events : List Event) (start end_ : Int) (opt : Options) :
    ((rowsOf lib events start end_ opt).flatten.map slot.e).Perm events ∧
    ∀ row ∈ rowsOf lib events start end_ opt,
      row.Pairwise fun a b => ¬ (a.e.At = b.e.At ∧ a.e.Depth = b.e.Depth) := by
  constructor
  · unfold rowsOf
    refine ((flatten_packRows_perm _).map slot.e).trans ?_
    rw [List.map_map]
    have hid : slot.e ∘ mkSlot lib start end_ (Sub end_ start) (withDefaults opt) = id := by
      funext e
      rfl
    rw [hid, List.map_id]
    exact hlib Event events eventLess
  · intro row hrow
    have hpw := packing_rows_never_collide_aux lib events start end_ opt row hrow
    refine List.Pairwise.imp_of_mem ?_ hpw
    intro a b ha hb hab hsame
    have hma : ∀ s ∈ row, s.x = toX start end_ (Sub end_ start) (withDefaults opt).Width s.e.At
        ∧ 0 ≤ s.w := by
      intro s hs
      have hmem := mem_of_mem_packRows hrow hs
      rcases List.mem_map.1 hmem with ⟨e, _, rfl⟩
      exact ⟨rfl, len_nonneg _⟩
    have h1 := hma a ha
    have h2 := hma b hb
    apply hab
    rw [h1.1, h2.1, hsame.1]
    constructor <;> omega

/-- The library instance rearranges the slices it sorts. -/
theorem stdLib_permutes : stdLib.Permutes := by
  intro α l less
  exact List.perm_insertionSort _ l

/-- A witness of C10: three events, two of them at the same instant and depth. -/
theorem same_instant_events_in_different_rows_witness :
    stdLib.Permutes ∧
    ((rowsOf stdLib [⟨"A", 5, 0⟩, ⟨"B", 5, 0⟩, ⟨"C", 90, 1⟩] 0 100
        ⟨20, 0, 50, ""⟩).flatten.map slot.e).Perm
      [⟨"A", 5, 0⟩, ⟨"B", 5, 0⟩, ⟨"C", 90, 1⟩] ∧
    ∀ row ∈ rowsOf stdLib [⟨"A", 5, 0⟩, ⟨"B", 5, 0⟩, ⟨"C", 90, 1⟩] 0 100
        ⟨20, 0, 50, ""⟩,
      row.Pairwise fun a b => ¬ (a.e.At = b.e.At ∧ a.e.Depth = b.e.Depth) :=
  ⟨stdLib_permutes, same_instant_events_in_different_rows stdLib stdLib_permutes _ 0 100 _⟩

/-! ## The ticks -/

theorem firstTick_spec (start d : Int) (hd : 0 < d) :
    d ∣ firstTick start d ∧ start ≤ firstTick start d ∧ firstTick start d < start + d := by
  have h0 : 0 ≤ start % d := Int.emod_nonneg _ (by omega)
  have h1 : start % d < d := Int.emod_lt_of_pos _ hd
  have hdvd : d ∣ start - start % d := Int.dvd_sub_of_emod_eq rfl
  unfold firstTick Truncate Before Add
  rw [if_neg (not_le.2 hd)]
  by_cases h : start - start % d < start
  · simp only [h, decide_True, if_true]
    exact ⟨Dvd.dvd.add hdvd (dvd_refl d), by omega, by omega⟩
  · simp only [h, decide_False, Bool.false_eq_true, if_false]
    exact ⟨hdvd, by omega, by omega⟩

theorem dvd_gap {d x t : Int} (hx : d ∣ x) (ht : d ∣ t) (h : t < x) :
    t + d ≤ x := by
  have h1 : d ∣ x - t := Dvd.dvd.sub hx ht
  have h2 := Int.le_of_dvd (by omega) h1
  omega

/-- With enough fuel the tick loop ends by its condition, and it visits the multiples of the
period from `t` to `end`, in ascending order. -/
theorem tickLoop_of_fuel (end_ d : Int) (hd : 0 < d) :
    ∀ (fuel : Nat) (t : Int), (end_ - t + 1).toNat < fuel → d ∣ t →
      ∃ l, tickLoop end_ d fuel t = some l ∧ l.Sorted (· < ·) ∧
        ∀ x, x ∈ l ↔ d ∣ x ∧ t ≤ x ∧ x ≤ end_ := by
  intro fuel
  induction fuel with
  | zero => intro t h; omega
  | succ n ih =>
    intro t hfuel ht
    unfold tickLoop After Add
    by_cases hlt : end_ < t
    · refine ⟨[], by simp [hlt], List.sorted_nil, ?_⟩
      intro x
      simp only [List.not_mem_nil, false_iff]
      omega
    · have hfuel2 : (end_ - (t + d) + 1).toNat < n := by omega
      obtain ⟨l, hl, hs, hm⟩ := ih (t + d) hfuel2 (Dvd.dvd.add ht (dvd_refl d))
      refine ⟨t :: l, by simp [hlt, hl], ?_, ?_⟩
      · refine List.sorted_cons.2 ⟨?_, hs⟩
        intro b hb
        have := (hm b).1 hb
        omega
      · intro x
        rw [List.mem_cons, hm x]
        constructor
        · rintro (rfl | ⟨h1, h2, h3⟩)
          · exact ⟨ht, le_refl _, by omega⟩
          · exact ⟨h1, by omega, h3⟩
        · rintro ⟨h1, h2, h3⟩
          by_cases hxt : x = t
          · exact Or.inl hxt
          · exact Or.inr ⟨h1, dvd_gap h1 ht (by omega), h3⟩

/-- More fuel does not change the result of a tick loop that ended. -/
theorem tickLoop_add_fuel (end_ d : Int) :
    ∀ (fuel : Nat) (t : Int) (l : List Int), tickLoop end_ d fuel t = some l →
      ∀ k : Nat, tickLoop end_ d (fuel + k) t = some l := by
  intro fuel
  induction fuel with
  | zero => intro t l h; simp [tickLoop] at h
  | succ n ih =>
    intro t l h k
    rw [Nat.succ_add]
    unfold tickLoop at h ⊢
    by_cases ha : After t end_ = true
    · simpa [ha] using h
    · simp only [ha, Bool.false_eq_true, if_false, Option.map_eq_some'] at h ⊢
      obtain ⟨l1, hl1, rfl⟩ := h
      exact ⟨l1, ih _ _ hl1 k, rfl⟩

/-- The ticks of a render are what the tick loop returns for any sufficient fuel. -/
theorem ticks_spec (start end_ d : Int) (hd : 0 < d) :
    (∀ fuel : Nat, (end_ - firstTick start d + 1).toNat < fuel →
      tickLoop end_ d fuel (firstTick start d) = some (ticks start end_ d)) ∧
    (ticks start end_ d).Sorted (· < ·) ∧
    ∀ x, x ∈ ticks start end_ d ↔ d ∣ x ∧ firstTick start d ≤ x ∧ x ≤ end_ := by
  have hft := firstTick_spec start d hd
  obtain ⟨l, hl, hs, hm⟩ := tickLoop_of_fuel end_ d hd
    ((end_ - firstTick start d + 1).toNat + 1) (firstTick start d) (by omega) hft.1
  have hall : ∀ fuel : Nat, (end_ - firstTick start d + 1).toNat < fuel →
      tickLoop end_ d fuel (firstTick start d) = some l := by
    intro fuel hfuel
    have := tickLoop_add_fuel end_ d _ _ l hl (fuel - ((end_ - firstTick start d + 1).toNat + 1))
    rwa [Nat.add_sub_cancel' (by omega)] at this
  have ht : ticks start end_ d = l := by
    unfold ticks
    rw [hall _ (by omega)]
    rfl
  rw [ht]
  exact ⟨hall, hs, hm⟩

/-- C7: for a positive period, the tick loop ends (any fuel above the distance from the
first tick to `end` gives the same list), and the ticks it visits are, in ascending order,
exactly the multiples of the period between `start` and `end`, both included; the first tick
is the least multiple of the period that is at least `start`, it heads the list when it is
not after `end`, and the list is empty when no multiple lies in the window. -/
theorem ticks_exactly_multiples_in_window (start end_ d : Int) (hd : 0 < d) :
    (∀ fuel : Nat, (end_ - firstTick start d + 1).toNat < fuel →
      tickLoop end_ d fuel (firstTick start d) = some (ticks start end_ d)) ∧
    (ticks start end_ d).Sorted (· < ·) ∧
    (∀ t, t ∈ ticks start end_ d ↔ d ∣ t ∧ start ≤ t ∧ t ≤ end_) ∧
    (d ∣ firstTick start d ∧ start ≤ firstTick start d ∧
      ∀ m, d ∣ m → start ≤ m → firstTick start d ≤ m) ∧
    ((ticks start end_ d).head? =
      if firstTick start d ≤ end_ then some (firstTick start d) else none) ∧
    ((¬ ∃ m, d ∣ m ∧ start ≤ m ∧ m ≤ end_) → ticks start end_ d = []) := by
  have hft := firstTick_spec start d hd
  obtain ⟨hfuel, hs, hm⟩ := ticks_spec start end_ d hd
  have hleast : ∀ m, d ∣ m → start ≤ m → firstTick start d ≤ m := by
    intro m hdm hsm
    by_contra hlt
    have := dvd_gap hft.1 hdm (not_le.1 hlt)
    omega
  have hmem : ∀ t, t ∈ ticks start end_ d ↔ d ∣ t ∧ start ≤ t ∧ t ≤ end_ := by
    intro t
    rw [hm t]
    constructor
    · rintro ⟨h1, h2, h3⟩
      exact ⟨h1, by omega, h3⟩
    · rintro ⟨h1, h2, h3⟩
      exact ⟨h1, hleast t h1 h2, h3⟩
  refine ⟨hfuel, hs, hmem, ⟨hft.1, hft.2.1, hleast⟩, ?_, ?_⟩
  · by_cases hle : firstTick start d ≤ end_
    · rw [if_pos hle]
      have hin : firstTick start d ∈ ticks start end_ d :=
        (hm _).2 ⟨hft.1, le_refl _, hle⟩
      cases hl : ticks start end_ d with
      | nil => rw [hl] at hin; simp at hin
      | cons a l =>
        rw [hl] at hin hs
        simp only [List.head?_cons, Option.some.injEq]
        rcases List.mem_cons.1 hin with h | h
        · exact h.symm
        · have h1 := (List.sorted_cons.1 hs).1 _ h
          have h2 : a ∈ ticks start end_ d := by rw [hl]; exact List.mem_cons_self _ _
          have h3 := ((hm a).1 h2).2.1
          omega
    · rw [if_neg hle]
      cases hl : ticks start end_ d with
      | nil => rfl
      | cons a l =>
        have h2 : a ∈ ticks start end_ d := by rw [hl]; exact List.mem_cons_self _ _
        have h3 := (hm a).1 h2
        omega
  · intro hnone
    cases hl : ticks start end_ d with
    | nil => rfl
    | cons a l =>
      have h2 : a ∈ ticks start end_ d := by rw [hl]; exact List.mem_cons_self _ _
      exact absurd ⟨a, (hmem a).1 h2⟩ hnone

/-- A witness of C7: the hourly ticks of the window from 08:00 to 10:00 on 2025-06-10. -/
theorem ticks_exactly_multiples_in_window_witness :
    (0 : Int) < 3600000000000 ∧
    (∀ t, t ∈ ticks 63885139200000000000 63885146400000000000 3600000000000 ↔
      (3600000000000 : Int) ∣ t ∧ 63885139200000000000 ≤ t ∧ t ≤ 63885146400000000000) :=
  ⟨by decide, (ticks_exactly_multiples_in_window _ _ _ (by decide)).2.2.1⟩

/-! ## Panics of the renderer -/

/-- C3, at the failing inputs: for the window from 08:00 to 10:00 on 2025-06-10 with hourly
ticks, `RenderTimeline` panics when the width is 3 (the five bytes of the label `08:00` do not
fit the four positions of the tick-label line, and the write at index -1 is out of range), and
it panics when the left margin is -1 (negative repeat count). -/
theorem RenderTimeline_panics :
    (RenderTimeline stdLib [] 63885139200000000000 63885146400000000000
      ⟨3, 0, 3600000000000, "15:04"⟩).2 = none ∧
    (RenderTimeline stdLib [] 63885139200000000000 63885146400000000000
      ⟨20, -1, 3600000000000, "15:04"⟩).2 = none := by
  decide

/-! ## The position of a tick label -/

/-- A label that is no longer than the tick-label line is written inside it. -/
theorem labelPos_range (x : Int) (lblLen bufLen : Nat) (h : lblLen ≤ bufLen) :
    0 ≤ labelPos x lblLen bufLen ∧
      labelPos x lblLen bufLen + (lblLen : Int) ≤ (bufLen : Int) := by
  unfold labelPos
  simp only
  split_ifs <;> omega

/-- A label longer than the tick-label line gets a negative start position. -/
theorem labelPos_neg (x : Int) (lblLen bufLen : Nat) (h : bufLen < lblLen) :
    labelPos x lblLen bufLen < 0 := by
  unfold labelPos
  simp only
  split_ifs <;> omega

/-- C4, at the failing input: with width 3, the window from 08:00 to 10:00 on 2025-06-10 and
hourly ticks, 08:00 is a tick, its label `08:00` has 5 bytes, and its start position in the
tick-label line of 4 positions is -1: neither `0 ≤ p` nor a write inside `[0, width]`. -/
theorem labelPos_negative_at_width_3 :
    (63885139200000000000 : Int) ∈
      ticks 63885139200000000000 63885146400000000000 3600000000000 ∧
    len (stdLib.format "15:04" 63885139200000000000) = 5 ∧
    labelPos (toX 63885139200000000000 63885146400000000000
        (Sub 63885146400000000000 63885139200000000000) 3 63885139200000000000)
      (len (stdLib.format "15:04" 63885139200000000000)) (3 + 1) = -1 ∧
    writeTick stdLib 63885139200000000000 63885146400000000000
      (Sub 63885146400000000000 63885139200000000000) ⟨3, 0, 3600000000000, "15:04"⟩
      [' ', ' ', ' ', ' '] 63885139200000000000 = none := by
  decide

/-! ## Buffers -/

theorem setRune_eq_some {buf b : List Char} {i : Int} {r : Char}
    (h : setRune buf i r = some b) :
    0 ≤ i ∧ i < (buf.length : Int) ∧ b = buf.set i.toNat r := by
  unfold setRune at h
  split_ifs at h with hi
  exact ⟨hi.1, hi.2, (Option.some.inj h).symm⟩

theorem makeRunes_eq_some {n : Int} {c : Char} {b : List Char}
    (h : makeRunes n c = some b) :
    0 ≤ n ∧ 4 * n.toNat ≤ maxAlloc ∧ b = List.replicate n.toNat c := by
  unfold makeRunes at h
  split_ifs at h with h1 h2
  exact ⟨by omega, by omega, (Option.some.inj h).symm⟩

theorem withDefaults_spec (opt : Options) :
    0 < (withDefaults opt).Width ∧ 0 < (withDefaults opt).TickEvery ∧
    (withDefaults opt).TimeFormat ≠ "" ∧ (withDefaults opt).LeftMargin = opt.LeftMargin := by
  unfold withDefaults Hour
  simp only
  split_ifs <;> simp_all

/-! ## The axis line -/

/-- What the loop marking the ticks on the axis does when it does not panic. -/
theorem markTicks_spec (start end_ span W : Int) :
    ∀ (ts : List Int) (axis a : List Char), markTicks start end_ span W ts axis = some a →
      a.length = axis.length ∧
      ∀ j : Nat,
        ((∃ t ∈ ts, toX start end_ span W t = (j : Int)) → a[j]? = some '|') ∧
        ((¬ ∃ t ∈ ts, toX start end_ span W t = (j : Int)) → a[j]? = axis[j]?) := by
  intro ts
  induction ts with
  | nil =>
    intro axis a h
    simp only [markTicks, Option.some.injEq] at h
    subst h
    simp
  | cons t ts ih =>
    intro axis a h
    simp only [markTicks, Option.bind_eq_some] at h
    obtain ⟨ax1, h1, h2⟩ := h
    obtain ⟨hx0, hx1, rfl⟩ := setRune_eq_some h1
    obtain ⟨hlen, hj⟩ := ih _ _ h2
    rw [List.length_set] at hlen
    refine ⟨hlen, fun j => ⟨?_, ?_⟩⟩
    · rintro ⟨u, hu, hux⟩
      by_cases hex : ∃ t ∈ ts, toX start end_ span W t = (j : Int)
      · exact (hj j).1 hex
      · rw [(hj j).2 hex]
        rcases List.mem_cons.1 hu with rfl | hu
        · have hjeq : (toX start end_ span W u).toNat = j := by omega
          rw [hjeq, List.getElem?_set]
          simp only [if_true]
          rw [if_pos (by omega)]
        · exact absurd ⟨u, hu, hux⟩ hex
    · intro hne
      have hne1 : ¬ ∃ t ∈ ts, toX start end_ span W t = (j : Int) := by
        rintro ⟨u, hu, hux⟩
        exact hne ⟨u, List.mem_cons_of_mem _ hu, hux⟩
      have hne2 : toX start end_ span W t ≠ (j : Int) := by
        intro hux
        exact hne ⟨t, List.mem_cons_self _ _, hux⟩
      rw [(hj j).2 hne1, List.getElem?_set]
      rw [if_neg (by omega)]

/-- The axis line of a render that does not panic: `W + 1` runes, a bar at both ends and at
the column of every tick, a dash elsewhere. -/
theorem axisLine_spec (start end_ span : Int) (opt : Options) (hW : 0 < opt.Width)
    (axis : List Char) (h : axisLine start end_ span opt = some axis) :
    axis.length = opt.Width.toNat + 1 ∧
    ∀ i : Nat, i ≤ opt.Width.toNat →
      ((i = 0 ∨ i = opt.Width.toNat ∨
          ∃ t ∈ ticks start end_ opt.TickEvery, toX start end_ span opt.Width t = (i : Int)) →
        axis[i]? = some '|') ∧
      ((¬ (i = 0 ∨ i = opt.Width.toNat ∨
          ∃ t ∈ ticks start end_ opt.TickEvery, toX start end_ span opt.Width t = (i : Int))) →
        axis[i]? = some '-') := by
  simp only [axisLine, Option.bind_eq_some] at h
  obtain ⟨a0, h0, a1, h1, a2, h2, h3⟩ := h
  obtain ⟨hn, _, rfl⟩ := makeRunes_eq_some h0
  obtain ⟨_, _, rfl⟩ := setRune_eq_some h1
  obtain ⟨_, _, rfl⟩ := setRune_eq_some h2
  obtain ⟨hlen, hj⟩ := markTicks_spec _ _ _ _ _ _ _ h3
  simp only [List.length_set, List.length_replicate] at hlen
  have hlen2 : axis.length = opt.Width.toNat + 1 := by omega
  refine ⟨hlen2, fun i hi => ?_⟩
  have hbase : (((List.replicate (opt.Width + 1).toNat '-').set (0 : Int).toNat '|').set
      opt.Width.toNat '|')[i]? =
      some (if i = 0 ∨ i = opt.Width.toNat then '|' else '-') := by
    simp only [List.getElem?_set, List.length_set, List.length_replicate,
      List.getElem?_replicate, Int.toNat_zero]
    by_cases hi1 : opt.Width.toNat = i
    · rw [if_pos hi1, if_pos (by omega), if_pos (Or.inr hi1.symm)]
    · rw [if_neg hi1]
      by_cases hi0 : 0 = i
      · rw [if_pos hi0, if_pos (by omega), if_pos (Or.inl hi0.symm)]
      · rw [if_neg hi0, if_pos (by omega), if_neg (by omega)]
  by_cases hex : ∃ t ∈ ticks start end_ opt.TickEvery,
      toX start end_ span opt.Width t = (i : Int)
  · refine ⟨fun _ => (hj i).1 hex, fun hn => absurd (Or.inr (Or.inr hex)) hn⟩
  · rw [(hj i).2 hex, hbase]
    constructor
    · rintro (h | h | h)
      · rw [if_pos (Or.inl h)]
      · rw [if_pos (Or.inr h)]
      · exact absurd h hex
    · intro hn
      rw [if_neg (fun hc => hn (hc.elim Or.inl fun h => Or.inr (Or.inl h)))]

/-! ## The tick-label line -/

theorem mem_rangeRunes {cs : List Char} {i j : Nat} {c : Char}
    (h : (j, c) ∈ rangeRunes i cs) : c ∈ cs := by
  induction cs generalizing i with
  | nil => simp [rangeRunes] at h
  | cons a as ih =>
    simp only [rangeRunes, List.mem_cons, Prod.mk.injEq] at h
    rcases h with ⟨_, rfl⟩ | h
    · exact List.mem_cons_self _ _
    · exact List.mem_cons_of_mem _ (ih h)

/-- Writing a label keeps the length of the line and brings in runes of the label only. -/
theorem writeLabel_spec (pos : Int) :
    ∀ (prs : List (Nat × Char)) (buf b : List Char), writeLabel pos prs buf = some b →
      b.length = buf.length ∧ ∀ c ∈ b, c ∈ buf ∨ ∃ j, (j, c) ∈ prs := by
  intro prs
  induction prs with
  | nil =>
    intro buf b h
    simp only [writeLabel, Option.some.injEq] at h
    subst h
    exact ⟨rfl, fun c hc => Or.inl hc⟩
  | cons pr prs ih =>
    intro buf b h
    obtain ⟨i, r⟩ := pr
    simp only [writeLabel, Option.bind_eq_some] at h
    obtain ⟨b1, h1, h2⟩ := h
    obtain ⟨_, _, rfl⟩ := setRune_eq_some h1
    obtain ⟨hlen, hmem⟩ := ih _ _ h2
    rw [List.length_set] at hlen
    refine ⟨hlen, fun c hc => ?_⟩
    rcases hmem c hc with h | ⟨j, hj⟩
    · rcases List.mem_or_eq_of_mem_set h with h | rfl
      · exact Or.inl h
      · exact Or.inr ⟨i, List.mem_cons_self _ _⟩
    · exact Or.inr ⟨j, List.mem_cons_of_mem _ hj⟩

/-- The tick-label loop keeps the length of the line and brings in runes of tick labels
only. -/
theorem writeTicks_spec (lib : Lib) (start end_ span : Int) (opt : Options) :
    ∀ (ts : List Int) (buf b : List Char), writeTicks lib start end_ span opt ts buf = some b →
      b.length = buf.length ∧
      ∀ c ∈ b, c ∈ buf ∨ ∃ t ∈ ts, c ∈ (lib.format opt.TimeFormat t).data := by
  intro ts
  induction ts with
  | nil =>
    intro buf b h
    simp only [writeTicks, Option.some.injEq] at h
    subst h
    exact ⟨rfl, fun c hc => Or.inl hc⟩
  | cons t ts ih =>
    intro buf b h
    simp only [writeTicks, Option.bind_eq_some] at h
    obtain ⟨b1, h1, h2⟩ := h
    obtain ⟨hlen1, hmem1⟩ := writeLabel_spec _ _ _ _ h1
    obtain ⟨hlen, hmem⟩ := ih _ _ h2
    refine ⟨hlen.trans hlen1, fun c hc => ?_⟩
    rcases hmem c hc with h | ⟨u, hu, hcu⟩
    · rcases hmem1 c h with h | ⟨j, hj⟩
      · exact Or.inl h
      · exact Or.inr ⟨t, List.mem_cons_self _ _, mem_rangeRunes hj⟩
    · exact Or.inr ⟨u, List.mem_cons_of_mem _ hu, hcu⟩

/-- The tick-label line of a render that does not panic: `W + 1` runes, each a space or a
rune of a tick label. -/
theorem tickLabelLine_spec (lib : Lib) (start end_ span : Int) (opt : Options)
    (tickLine : List Char) (h : tickLabelLine lib start end_ span opt = some tickLine) :
    tickLine.length = (opt.Width + 1).toNat ∧
    ∀ c ∈ tickLine, c = ' ' ∨
      ∃ t ∈ ticks start end_ opt.TickEvery, c ∈ (lib.format opt.TimeFormat t).data := by
  simp only [tickLabelLine, Option.bind_eq_some] at h
  obtain ⟨b0, h0, h1⟩ := h
  obtain ⟨_, _, rfl⟩ := makeRunes_eq_some h0
  obtain ⟨hlen, hmem⟩ := writeTicks_spec _ _ _ _ _ _ _ _ h1
  rw [List.length_replicate] at hlen
  refine ⟨hlen, fun c hc => ?_⟩
  rcases hmem c hc with h | h
  · exact Or.inl (List.eq_of_mem_replicate h)
  · exact Or.inr h

/-! ## The shape of the returned text -/

/-- The text of a render with `end` after `start` that does not panic: the margin, the
tick-label line, a newline, the margin, the axis line, two newlines, the body rows. -/
theorem RenderTimeline_eq_some (lib : Lib) (events : List Event) (start end_ : Int)
    (opt : Options) (out : String) (hwin : start < end_)
    (hout : (RenderTimeline lib events start end_ opt).2 = some out) :
    ∃ (margin body : String) (tickLine axis : List Char),
      Repeat " " (withDefaults opt).LeftMargin = some margin ∧
      tickLabelLine lib start end_ (Sub end_ start) (withDefaults opt) = some tickLine ∧
      axisLine start end_ (Sub end_ start) (withDefaults opt) = some axis ∧
      renderRows lib (withDefaults opt).TimeFormat margin
        (rowsOf lib events start end_ opt) = some body ∧
      out = margin ++ String.mk tickLine ++ "\n" ++ margin ++ String.mk axis ++ "\n\n" ++ body := by
  have hs : ¬ Sub end_ start ≤ 0 := by
    rw [Sub_nonpos_iff]
    omega
  simp only [RenderTimeline, hs, if_false, renderBody, Option.bind_eq_some,
    Option.some.injEq] at hout
  obtain ⟨margin, hm, tickLine, ht, axis, ha, body, hb, rfl⟩ := hout
  exact ⟨margin, body, tickLine, axis, hm, ht, ha, hb, rfl⟩

theorem foldl_append_data (l : List String) (acc : String) :
    (l.foldl (fun r s => r ++ s) acc).data = acc.data ++ (l.map String.data).flatten := by
  induction l generalizing acc with
  | nil => simp
  | cons a l ih => simp [ih, String.data_append, List.append_assoc]

/-- The margin is made of spaces. -/
theorem Repeat_space_eq_some {count : Int} {margin : String}
    (h : Repeat " " count = some margin) :
    0 ≤ count ∧ margin.data = List.replicate count.toNat ' ' := by
  unfold Repeat at h
  split_ifs at h with h1 h2
  have hm := (Option.some.inj h).symm
  subst hm
  refine ⟨by omega, ?_⟩
  unfold String.join
  rw [foldl_append_data]
  generalize count.toNat = n
  induction n with
  | zero => rfl
  | succ n ih =>
    rw [List.replicate_succ, List.map_cons, List.flatten_cons, List.replicate_succ]
    simp only [List.nil_append] at ih ⊢
    rw [ih]
    rfl

theorem bare_axis_getElem? (k i : Nat) :
    (('|' :: (List.replicate k '-' ++ ['|']))[i]? : Option Char) =
      if i = 0 ∨ i = k + 1 then some '|' else if i ≤ k then some '-' else none := by
  cases i with
  | zero => simp
  | succ j =>
    simp only [List.getElem?_cons_succ, Nat.add_eq_zero, one_ne_zero, and_false, false_or,
      Nat.add_right_cancel_iff]
    by_cases hj : j < k
    · rw [List.getElem?_append_left (by simpa using hj), List.getElem?_replicate, if_pos hj,
        if_neg (by omega), if_pos (by omega)]
    · rw [List.getElem?_append_right (by simpa using hj), List.length_replicate]
      by_cases hjk : j = k
      · subst hjk
        simp
      · rw [if_neg hjk, if_neg (by omega)]
        have : j - k = (j - k - 1) + 1 := by omega
        rw [this]
        simp

/-- C8: in the text of a render with `end` after `start`, the axis line, which follows the
margin on the second line, has `width + 1` runes; the rune at a position `i` of `[0, width]`
is a bar exactly when `i` is 0, or `width`, or the column of a tick, and a dash otherwise; its
first and its last rune are bars; without any tick it is a bar, `width - 1` dashes, a bar. -/
theorem axis_line_shape (lib : Lib) (events : List Event) (start end_ : Int)
    (opt : Options) (out : String) (hwin : start < end_)
    (hout : (RenderTimeline lib events start end_ opt).2 = some out) :
    ∃ (margin body : String) (tickLine axis : List Char),
      out = margin ++ String.mk tickLine ++ "\n" ++ margin ++ String.mk axis ++ "\n\n" ++ body ∧
      margin.data = List.replicate opt.LeftMargin.toNat ' ' ∧
      tickLine.length = (withDefaults opt).Width.toNat + 1 ∧
      axis.length = (withDefaults opt).Width.toNat + 1 ∧
      (∀ i : Nat, i ≤ (withDefaults opt).Width.toNat →
        (axis[i]? = some '|' ↔
          (i = 0 ∨ i = (withDefaults opt).Width.toNat ∨
            ∃ t ∈ ticks start end_ (withDefaults opt).TickEvery,
              toX start end_ (Sub end_ start) (withDefaults opt).Width t = (i : Int))) ∧
        (axis[i]? = some '|' ∨ axis[i]? = some '-')) ∧
      axis[0]? = some '|' ∧ axis[(withDefaults opt).Width.toNat]? = some '|' ∧
      (ticks start end_ (withDefaults opt).TickEvery = [] →
        axis = '|' :: (List.replicate ((withDefaults opt).Width.toNat - 1) '-' ++ ['|'])) := by
  obtain ⟨margin, body, tickLine, axis, hm, ht, ha, _, hout⟩ :=
    RenderTimeline_eq_some lib events start end_ opt out hwin hout
  obtain ⟨hW, _, _, hL⟩ := withDefaults_spec opt
  obtain ⟨hlen, hax⟩ := axisLine_spec _ _ _ _ hW axis ha
  obtain ⟨htl, _⟩ := tickLabelLine_spec _ _ _ _ _ _ ht
  have hmd := (Repeat_space_eq_some hm).2
  rw [hL] at hmd
  have hpt : ∀ i : Nat, i ≤ (withDefaults opt).Width.toNat →
      (axis[i]? = some '|' ↔
        (i = 0 ∨ i = (withDefaults opt).Width.toNat ∨
          ∃ t ∈ ticks start end_ (withDefaults opt).TickEvery,
            toX start end_ (Sub end_ start) (withDefaults opt).Width t = (i : Int))) ∧
      (axis[i]? = some '|' ∨ axis[i]? = some '-') := by
    intro i hi
    by_cases hc : (i = 0 ∨ i = (withDefaults opt).Width.toNat ∨
        ∃ t ∈ ticks start end_ (withDefaults opt).TickEvery,
          toX start end_ (Sub end_ start) (withDefaults opt).Width t = (i : Int))
    · have h1 := (hax i hi).1 hc
      exact ⟨⟨fun _ => hc, fun _ => h1⟩, Or.inl h1⟩
    · have h1 := (hax i hi).2 hc
      refine ⟨⟨fun h => ?_, fun h => absurd h hc⟩, Or.inr h1⟩
      rw [h1] at h
      exact absurd (Option.some.inj h) (by decide)
  refine ⟨margin, body, tickLine, axis, hout, hmd, by omega, hlen, hpt,
    ((hpt 0 (Nat.zero_le _)).1).2 (Or.inl rfl),
    ((hpt _ (le_refl _)).1).2 (Or.inr (Or.inl rfl)), ?_⟩
  intro hnil
  apply List.ext_getElem?
  intro i
  rw [bare_axis_getElem?]
  have hk : (withDefaults opt).Width.toNat - 1 + 1 = (withDefaults opt).Width.toNat := by omega
  rw [hk]
  by_cases hi : i ≤ (withDefaults opt).Width.toNat
  · by_cases hc : i = 0 ∨ i = (withDefaults opt).Width.toNat
    · rw [if_pos hc]
      exact ((hpt i hi).1).2 (hc.elim Or.inl fun h => Or.inr (Or.inl h))
    · rw [if_neg hc, if_pos (by omega)]
      apply (hax i hi).2
      rw [hnil]
      rintro (h | h | ⟨t, ht, _⟩)
      · exact hc (Or.inl h)
      · exact hc (Or.inr h)
      · simp at ht
  · rw [if_neg (by omega), if_neg (by omega)]
    exact List.getElem?_eq_none (by omega)

/-! ## The lines of the returned text -/

/-- The markers of a row hold no newline when the labels and the formatted times hold
none. -/
theorem writeRow_no_newline (lib : Lib) (layout : String) :
    ∀ (row : List slot) (pos : Int) (body : String), writeRow lib layout row pos = some body →
      (∀ s ∈ row, '\n' ∉ s.e.Label.data ∧ '\n' ∉ (lib.format layout s.e.At).data) →
      '\n' ∉ body.data := by
  intro row
  induction row with
  | nil =>
    intro pos body h _
    simp only [writeRow, Option.some.injEq] at h
    subst h
    simp
  | cons s rest ih =>
    intro pos body h hs
    simp only [writeRow, Option.bind_eq_some, Option.some.injEq] at h
    obtain ⟨gap, hgap, tail, htail, rfl⟩ := h
    have htl := ih _ _ htail fun t ht => hs t (List.mem_cons_of_mem _ ht)
    have hg : '\n' ∉ gap.data := by
      split_ifs at hgap
      · rw [(Repeat_space_eq_some hgap).2]
        intro hc
        exact absurd (List.eq_of_mem_replicate hc) (by decide)
      · rw [← Option.some.inj hgap]
        simp
    have hss := hs s (List.mem_cons_self _ _)
    simp only [String.data_append, List.mem_append, not_or]
    refine ⟨⟨⟨⟨⟨⟨hg, ?_⟩, hss.1⟩, ?_⟩, hss.2⟩, ?_⟩, htl⟩ <;> decide

/-- The body of a render is one newline-ended line for each row. -/
theorem renderRows_lines (lib : Lib) (hlib : lib.Permutes) (layout margin : String)
    (hmargin : '\n' ∉ margin.data) :
    ∀ (rows : List (List slot)) (body : String), renderRows lib layout margin rows = some body →
      (∀ row ∈ rows, ∀ s ∈ row,
        '\n' ∉ s.e.Label.data ∧ '\n' ∉ (lib.format layout s.e.At).data) →
      ∃ lines : List String, lines.length = rows.length ∧
        (∀ l ∈ lines, '\n' ∉ l.data) ∧
        body.data = (lines.map fun l => l.data ++ ['\n']).flatten := by
  intro rows
  induction rows with
  | nil =>
    intro body h _
    simp only [renderRows, Option.some.injEq] at h
    subst h
    exact ⟨[], rfl, by simp, rfl⟩
  | cons row rest ih =>
    intro body h hs
    simp only [renderRows, renderRow, Option.bind_eq_some, Option.some.injEq] at h
    obtain ⟨line, ⟨rowText, hrow, rfl⟩, tail, htail, rfl⟩ := h
    obtain ⟨lines, hlen, hfree, hdata⟩ :=
      ih _ htail fun r hr => hs r (List.mem_cons_of_mem _ hr)
    have hrt : '\n' ∉ rowText.data := by
      apply writeRow_no_newline lib layout _ _ _ hrow
      intro t ht
      exact hs row (List.mem_cons_self _ _) t ((hlib slot row _).subset ht)
    refine ⟨(margin ++ rowText) :: lines, by simp [hlen], ?_, ?_⟩
    · intro l hl
      rcases List.mem_cons.1 hl with rfl | hl
      · simp only [String.data_append, List.mem_append, not_or]
        exact ⟨hmargin, hrt⟩
      · exact hfree l hl
    · simp only [String.data_append, List.map_cons, List.flatten_cons, hdata]

/-- The newlines of a text made of newline-ended lines that hold none. -/
theorem count_newline_lines (lines : List String) (h : ∀ l ∈ lines, '\n' ∉ l.data) :
    ((lines.map fun l => l.data ++ ['\n']).flatten).count '\n' = lines.length := by
  induction lines with
  | nil => rfl
  | cons l ls ih =>
    rw [List.map_cons, List.flatten_cons, List.count_append, List.count_append,
      ih fun m hm => h m (List.mem_cons_of_mem _ hm),
      List.count_eq_zero.2 (h l (List.mem_cons_self _ _))]
    simp
    omega

/-- C9, as amended: when `sort.Slice` rearranges its slice and no event label, no tick label
and no formatted event time holds a newline, the text of a render with `end` after `start` is
made of exactly `3 + R` lines, each ended by a newline and holding none, `R` being the number
of packing rows; the third line is blank, and the text holds exactly `3 + R` newlines. -/
theorem RenderTimeline_line_count (lib : Lib) (hlib : lib.Permutes) (events : List Event)
    (start end_ : Int) (opt : Options) (out : String) (hwin : start < end_)
    (hlabels : ∀ e ∈ events, '\n' ∉ e.Label.data)
    (htimes : ∀ e ∈ events, '\n' ∉ (lib.format (withDefaults opt).TimeFormat e.At).data)
    (hticks : ∀ t ∈ ticks start end_ (withDefaults opt).TickEvery,
      '\n' ∉ (lib.format (withDefaults opt).TimeFormat t).data)
    (hout : (RenderTimeline lib events start end_ opt).2 = some out) :
    (∃ lines : List String,
      lines.length = 3 + (rowsOf lib events start end_ opt).length ∧
      (∀ l ∈ lines, '\n' ∉ l.data) ∧ lines[2]? = some "" ∧
      out.data = (lines.map fun l => l.data ++ ['\n']).flatten) ∧
    out.data.count '\n' = 3 + (rowsOf lib events start end_ opt).length := by
  obtain ⟨margin, body, tickLine, axis, hm, ht, ha, hb, hout⟩ :=
    RenderTimeline_eq_some lib events start end_ opt out hwin hout
  obtain ⟨hW, _, _, _⟩ := withDefaults_spec opt
  obtain ⟨hlen, hax⟩ := axisLine_spec _ _ _ _ hW axis ha
  obtain ⟨_, htl⟩ := tickLabelLine_spec _ _ _ _ _ _ ht
  have hmd := (Repeat_space_eq_some hm).2
  have hmargin : '\n' ∉ margin.data := by
    rw [hmd]
    intro hc
    exact absurd (List.eq_of_mem_replicate hc) (by decide)
  have htick : '\n' ∉ tickLine := by
    intro hc
    rcases htl _ hc with h | ⟨t, htt, hct⟩
    · exact absurd h (by decide)
    · exact hticks t htt hct
  have haxis : '\n' ∉ axis := by
    intro hc
    obtain ⟨i, hi, hget⟩ := List.getElem_of_mem hc
    have hi2 : i ≤ (withDefaults opt).Width.toNat := by omega
    have hsome : axis[i]? = some '\n' := by
      rw [List.getElem?_eq_getElem hi, hget]
    by_cases hc2 : (i = 0 ∨ i = (withDefaults opt).Width.toNat ∨
        ∃ t ∈ ticks start end_ (withDefaults opt).TickEvery,
          toX start end_ (Sub end_ start) (withDefaults opt).Width t = (i : Int))
    · rw [(hax i hi2).1 hc2] at hsome
      exact absurd (Option.some.inj hsome) (by decide)
    · rw [(hax i hi2).2 hc2] at hsome
      exact absurd (Option.some.inj hsome) (by decide)
  have hslots : ∀ row ∈ rowsOf lib events start end_ opt, ∀ s ∈ row,
      '\n' ∉ s.e.Label.data ∧
      '\n' ∉ (lib.format (withDefaults opt).TimeFormat s.e.At).data := by
    intro row hrow s hs
    have hmem := mem_of_mem_packRows hrow hs
    rcases List.mem_map.1 hmem with ⟨e, he, rfl⟩
    have he2 : e ∈ events := (hlib Event events eventLess).subset he
    exact ⟨hlabels e he2, htimes e he2⟩
  obtain ⟨lines, hll, hfree, hdata⟩ :=
    renderRows_lines lib hlib _ margin hmargin _ body hb hslots
  have hall : ∀ l ∈ (margin ++ String.mk tickLine) :: (margin ++ String.mk axis) :: "" :: lines,
      '\n' ∉ l.data := by
    intro l hl
    simp only [List.mem_cons] at hl
    rcases hl with rfl | rfl | rfl | hl
    · simp only [String.data_append, List.mem_append, not_or]
      exact ⟨hmargin, htick⟩
    · simp only [String.data_append, List.mem_append, not_or]
      exact ⟨hmargin, haxis⟩
    · simp
    · exact hfree l hl
  have hdec : out.data = (((margin ++ String.mk tickLine) :: (margin ++ String.mk axis) ::
      "" :: lines).map fun l => l.data ++ ['\n']).flatten := by
    rw [hout]
    simp only [String.data_append, List.map_cons, List.flatten_cons, hdata, List.append_assoc]
    rfl
  refine ⟨⟨_, ?_, hall, by simp, hdec⟩, ?_⟩
  · simp only [List.length_cons, hll]
    omega
  · rw [hdec, count_newline_lines _ hall]
    simp only [List.length_cons, hll]
    omega

/-- The sample render returns the sample text. -/
theorem sample_render :
    (RenderTimeline stdLib sampleEvents sampleStart sampleEnd sampleOptions).2 =
      some sampleText := by
  decide

/-- A witness of C8: the axis line of the sample render. -/
theorem axis_line_shape_witness :
    sampleStart < sampleEnd ∧
    ∃ (margin body : String) (tickLine axis : List Char),
      sampleText =
        margin ++ String.mk tickLine ++ "\n" ++ margin ++ String.mk axis ++ "\n\n" ++ body ∧
      margin.data = List.replicate sampleOptions.LeftMargin.toNat ' ' ∧
      tickLine.length = (withDefaults sampleOptions).Width.toNat + 1 ∧
      axis.length = (withDefaults sampleOptions).Width.toNat + 1 ∧
      (∀ i : Nat, i ≤ (withDefaults sampleOptions).Width.toNat →
        (axis[i]? = some '|' ↔
          (i = 0 ∨ i = (withDefaults sampleOptions).Width.toNat ∨
            ∃ t ∈ ticks sampleStart sampleEnd (withDefaults sampleOptions).TickEvery,
              toX sampleStart sampleEnd (Sub sampleEnd sampleStart)
                (withDefaults sampleOptions).Width t = (i : Int))) ∧
        (axis[i]? = some '|' ∨ axis[i]? = some '-')) ∧
      axis[0]? = some '|' ∧ axis[(withDefaults sampleOptions).Width.toNat]? = some '|' ∧
      (ticks sampleStart sampleEnd (withDefaults sampleOptions).TickEvery = [] →
        axis = '|' ::
          (List.replicate ((withDefaults sampleOptions).Width.toNat - 1) '-' ++ ['|'])) :=
  ⟨by decide,
    axis_line_shape stdLib sampleEvents sampleStart sampleEnd sampleOptions sampleText
      (by decide) (by decide)⟩

/-- C9 fails as stated: an event whose label holds a newline. The render has one packing
row, and its text holds 5 newlines, not 3 + 1. -/
theorem newline_in_label_counterexample :
    (RenderTimeline stdLib [⟨"a\nb", 63885141000000000000, 0⟩] sampleStart sampleEnd
      sampleOptions).2 =
      some "08:00   09:00   10:00\n|---------|---------|\n\n     ^ a\nb (08:30)\n" ∧
    (rowsOf stdLib [⟨"a\nb", 63885141000000000000, 0⟩] sampleStart sampleEnd
      sampleOptions).length = 1 ∧
    ("08:00   09:00   10:00\n|---------|---------|\n\n     ^ a\nb (08:30)\n".data.count
      '\n') = 5 ∧
    ¬ (∀ out, (RenderTimeline stdLib [⟨"a\nb", 63885141000000000000, 0⟩] sampleStart sampleEnd
        sampleOptions).2 = some out →
      out.data.count '\n' = 3 + (rowsOf stdLib [⟨"a\nb", 63885141000000000000, 0⟩]
        sampleStart sampleEnd sampleOptions).length) := by
  refine ⟨by decide, by decide, by decide, ?_⟩
  intro h
  have := h _ (by decide :
    (RenderTimeline stdLib [⟨"a\nb", 63885141000000000000, 0⟩] sampleStart sampleEnd
      sampleOptions).2 =
      some "08:00   09:00   10:00\n|---------|---------|\n\n     ^ a\nb (08:30)\n")
  revert this
  decide

/-- A witness of C9 as amended: the sample render, of 4 lines. -/
theorem RenderTimeline_line_count_witness :
    stdLib.Permutes ∧ sampleStart < sampleEnd ∧
    (∀ e ∈ sampleEvents, '\n' ∉ e.Label.data) ∧
    (∃ lines : List String,
      lines.length = 3 + (rowsOf stdLib sampleEvents sampleStart sampleEnd sampleOptions).length ∧
      (∀ l ∈ lines, '\n' ∉ l.data) ∧ lines[2]? = some "" ∧
      sampleText.data = (lines.map fun l => l.data ++ ['\n']).flatten) ∧
    sampleText.data.count '\n' =
      3 + (rowsOf stdLib sampleEvents sampleStart sampleEnd sampleOptions).length :=
  ⟨stdLib_permutes, by decide, by decide,
    RenderTimeline_line_count stdLib stdLib_permutes sampleEvents sampleStart sampleEnd
      sampleOptions sampleText (by decide) (by decide) (by decide) (by decide) (by decide)⟩

/-! ## Binary64 arithmetic -/

theorem log2Loop_spec : ∀ (fuel n : Nat), n ≤ fuel → 1 ≤ n →
    2 ^ log2Loop fuel n ≤ n ∧ n < 2 ^ (log2Loop fuel n + 1) := by
  intro fuel
  induction fuel with
  | zero => intro n h1 h2; omega
  | succ f ih =>
    intro n h1 h2
    unfold log2Loop
    by_cases hn : n < 2
    · rw [if_pos hn]
      have : n = 1 := by omega
      subst this
      simp
    · rw [if_neg hn]
      obtain ⟨h3, h4⟩ := ih (n / 2) (by omega) (by omega)
      rw [pow_succ, pow_succ (n := log2Loop f (n / 2) + 1)]
      constructor <;> omega

theorem ilog2_spec (n : Nat) (h : 1 ≤ n) : 2 ^ ilog2 n ≤ n ∧ n < 2 ^ (ilog2 n + 1) :=
  log2Loop_spec n n (le_refl n) h

/-- The rounding of a quotient to the nearest natural number, ties to even: the result is
within one half of the quotient, and it is even when the quotient is half way. -/
theorem roundEven_spec (n d : Nat) (hd : 0 < d) :
    (2 * (roundEven n d : ℚ) - 1 ≤ 2 * ((n : ℚ) / d) ∧
      2 * ((n : ℚ) / d) ≤ 2 * (roundEven n d : ℚ) + 1) ∧
    (2 * ((n : ℚ) / d) = 2 * (roundEven n d : ℚ) + 1 → roundEven n d % 2 = 0) ∧
    (2 * ((n : ℚ) / d) = 2 * (roundEven n d : ℚ) - 1 → roundEven n d % 2 = 0) := by
  have hdq : (0 : ℚ) < d := by exact_mod_cast hd
  have hn : (n : ℚ) = (d : ℚ) * ((n / d : Nat) : ℚ) + ((n % d : Nat) : ℚ) := by
    exact_mod_cast (Nat.div_add_mod n d).symm
  have hx : (n : ℚ) / d = ((n / d : Nat) : ℚ) + ((n % d : Nat) : ℚ) / d := by
    rw [hn]
    field_simp
    ring
  have hr : (n % d) < d := Nat.mod_lt n hd
  have hf0 : (0 : ℚ) ≤ ((n % d : Nat) : ℚ) / d := by positivity
  unfold roundEven
  by_cases h1 : 2 * (n % d) < d
  · rw [if_pos h1, hx]
    have h1q : 2 * (((n % d : Nat) : ℚ) / d) < 1 := by
      rw [← mul_div_assoc, div_lt_one hdq]
      exact_mod_cast h1
    refine ⟨⟨by linarith, by linarith⟩, fun h => ?_, fun h => ?_⟩ <;> (exfalso; linarith)
  · rw [if_neg h1]
    by_cases h2 : d < 2 * (n % d)
    · rw [if_pos h2, hx]
      have h2q : 1 < 2 * (((n % d : Nat) : ℚ) / d) := by
        rw [← mul_div_assoc, one_lt_div hdq]
        exact_mod_cast h2
      have h3q : ((n % d : Nat) : ℚ) / d < 1 := by
        rw [div_lt_one hdq]
        exact_mod_cast hr
      push_cast
      refine ⟨⟨by linarith, by linarith⟩, fun h => ?_, fun h => ?_⟩ <;> (exfalso; linarith)
    · rw [if_neg h2]
      have h3 : 2 * (n % d) = d := by omega
      have h3q : 2 * (((n % d : Nat) : ℚ) / d) = 1 := by
        rw [← mul_div_assoc, div_eq_one_iff_eq (ne_of_gt hdq)]
        exact_mod_cast h3
      by_cases h4 : (n / d) % 2 = 0
      · rw [if_pos h4, hx]
        refine ⟨⟨by linarith, by linarith⟩, fun _ => h4, fun h => ?_⟩
        exfalso; linarith
      · rw [if_neg h4, hx]
        push_cast
        refine ⟨⟨by linarith, by linarith⟩, fun h => ?_, fun _ => by omega⟩
        exfalso; linarith

/-- The rounding is monotone in the quotient. -/
theorem roundEven_mono (n1 d1 n2 d2 : Nat) (hd1 : 0 < d1) (hd2 : 0 < d2)
    (h : (n1 : ℚ) / d1 ≤ (n2 : ℚ) / d2) : roundEven n1 d1 ≤ roundEven n2 d2 := by
  obtain ⟨⟨a1, _⟩, _, c1⟩ := roundEven_spec n1 d1 hd1
  obtain ⟨⟨_, b2⟩, c2, _⟩ := roundEven_spec n2 d2 hd2
  by_contra hlt
  have hlt2 : roundEven n2 d2 + 1 ≤ roundEven n1 d1 := by omega
  have hq : ((roundEven n2 d2 : ℚ)) + 1 ≤ (roundEven n1 d1 : ℚ) := by exact_mod_cast hlt2
  have e1 : 2 * ((n1 : ℚ) / d1) = 2 * (roundEven n1 d1 : ℚ) - 1 := by linarith
  have e2 : 2 * ((n2 : ℚ) / d2) = 2 * (roundEven n2 d2 : ℚ) + 1 := by linarith
  have e3 : (roundEven n1 d1 : ℚ) = (roundEven n2 d2 : ℚ) + 1 := by linarith
  have e4 : roundEven n1 d1 = roundEven n2 d2 + 1 := by exact_mod_cast e3
  have := c1 e1
  have := c2 e2
  omega

/-- The rounding of an exact quotient. -/
theorem roundEven_mul (m d : Nat) (hd : 0 < d) : roundEven (m * d) d = m := by
  unfold roundEven
  rw [Nat.mul_mod_left, Nat.mul_div_cancel _ hd]
  simp [hd]

theorem scale_aux (n d a b c : ℕ) (ha1 : a ≤ n) (ha2 : n < a * 2) (hb1 : b ≤ d)
    (hb2 : d < b * 2) (hc : 0 < c) :
    (n * (b * (c * 2)) < d * (a * (c * 2)) →
      d * a * c ≤ n * (b * (c * 2)) ∧ n * (b * (c * 2)) < d * a * (c * 2)) ∧
    (¬ n * (b * (c * 2)) < d * (a * (c * 2)) →
      d * (a * 2) * c ≤ n * (b * (c * 2)) ∧ n * (b * (c * 2)) < d * (a * 2) * (c * 2)) := by
  constructor
  · intro h
    constructor
    · have h1 : d * a ≤ b * 2 * n := Nat.mul_le_mul (le_of_lt hb2) ha1
      calc d * a * c ≤ b * 2 * n * c := Nat.mul_le_mul_right _ h1
        _ = n * (b * (c * 2)) := by ring
    · calc n * (b * (c * 2)) < d * (a * (c * 2)) := h
        _ = d * a * (c * 2) := by ring
  · intro h
    rw [not_lt] at h
    constructor
    · calc d * (a * 2) * c = d * (a * (c * 2)) := by ring
        _ ≤ n * (b * (c * 2)) := h
    · have hd : 0 < d := by omega
      have h1 : n * b < a * 2 * d := Nat.mul_lt_mul_of_lt_of_le ha2 hb1 (by omega)
      calc n * (b * (c * 2)) = n * b * (c * 2) := by ring
        _ < a * 2 * d * (c * 2) := Nat.mul_lt_mul_of_pos_right h1 (by omega)
        _ = d * (a * 2) * (c * 2) := by ring

/-- The scaled quotient that `ofRatio` rounds lies in `[2^52, 2^53)`. -/
theorem scale_spec (n d : Nat) (hn : 0 < n) (hd : 0 < d) :
    ∃ c : Nat, (c : ℚ) = 2 ^ 52 ∧
      d * 2 ^ Float64.scale n d * c ≤ n * 2 ^ (ilog2 d + 53) ∧
      n * 2 ^ (ilog2 d + 53) < d * 2 ^ Float64.scale n d * (c * 2) := by
  obtain ⟨hn1, hn2⟩ := ilog2_spec n hn
  obtain ⟨hd1, hd2⟩ := ilog2_spec d hd
  rw [pow_succ] at hn2 hd2
  obtain ⟨c, hc, hcq⟩ : ∃ c : Nat, c = 2 ^ 52 ∧ (c : ℚ) = 2 ^ 52 :=
    ⟨2 ^ 52, rfl, by norm_num⟩
  have hc0 : 0 < c := by rw [hc]; positivity
  have h53 : ∀ j : Nat, (2 : Nat) ^ (j + 53) = 2 ^ j * (c * 2) := by
    intro j
    rw [pow_add, hc]
    norm_num
  clear hc
  refine ⟨c, hcq, ?_⟩
  have haux := scale_aux n d (2 ^ ilog2 n) (2 ^ ilog2 d) c hn1 hn2 hd1 hd2 hc0
  unfold Float64.scale
  rw [h53, h53]
  by_cases h : n * (2 ^ ilog2 d * (c * 2)) < d * (2 ^ ilog2 n * (c * 2))
  · rw [if_pos h]
    exact haux.1 h
  · rw [if_neg h, pow_succ]
    exact haux.2 h


theorem ofRatio_false_eq (n d : Nat) (hn : n ≠ 0) :
    Float64.ofRatio false n d =
      ⟨((roundEven (n * 2 ^ (ilog2 d + 53)) (d * 2 ^ Float64.scale n d) *
          2 ^ (Float64.scale n d - (ilog2 d + 53)) : Nat) : Int),
        2 ^ (ilog2 d + 53 - Float64.scale n d)⟩ := by
  unfold Float64.ofRatio
  rw [if_neg hn]
  rfl


theorem two_zpow_sub (e k : Nat) :
    (2 : ℚ) ^ ((e : ℤ) - (k : ℤ)) = 2 ^ e / 2 ^ k := by
  rw [zpow_sub₀ (by norm_num), zpow_natCast, zpow_natCast]

/-- The value of a significand `m` scaled by `2^k / 2^e`, as `ofRatio` stores it. -/
theorem scaled_toRat (m e k : Nat) :
    Float64.toRat ⟨((m * 2 ^ (k - e) : Nat) : Int), 2 ^ (e - k)⟩ =
      (m : ℚ) / 2 ^ ((e : ℤ) - (k : ℤ)) := by
  unfold Float64.toRat
  rw [two_zpow_sub]
  simp only
  by_cases hke : k ≤ e
  · rw [Nat.sub_eq_zero_of_le hke, pow_zero, mul_one]
    have h2 : (2 : ℚ) ^ e = 2 ^ (e - k) * 2 ^ k := by
      rw [← pow_add, Nat.sub_add_cancel hke]
    rw [h2]
    push_cast
    field_simp
  · have hke2 : e ≤ k := by omega
    rw [Nat.sub_eq_zero_of_le hke2, pow_zero]
    have h2 : (2 : ℚ) ^ k = 2 ^ (k - e) * 2 ^ e := by
      rw [← pow_add, Nat.sub_add_cancel hke2]
    rw [h2]
    push_cast
    field_simp
    ring

theorem ofRatio_num_nonneg (n d : Nat) : 0 ≤ (Float64.ofRatio false n d).num := by
  by_cases hn : n = 0
  · subst hn
    exact le_refl _
  · rw [ofRatio_false_eq n d hn]
    exact Int.natCast_nonneg _

theorem ofRatio_den_pos (b : Bool) (n d : Nat) : 0 < (Float64.ofRatio b n d).den := by
  unfold Float64.ofRatio
  by_cases hn : n = 0
  · rw [if_pos hn]
    decide
  · rw [if_neg hn]
    simp only
    positivity

theorem ofRatio_toRat (n d : Nat) (hn : n ≠ 0) :
    (Float64.ofRatio false n d).toRat =
      (roundEven (n * 2 ^ (ilog2 d + 53)) (d * 2 ^ Float64.scale n d) : ℚ) /
        2 ^ (((ilog2 d + 53 : Nat) : ℤ) - (Float64.scale n d : ℤ)) := by
  rw [ofRatio_false_eq n d hn]
  exact scaled_toRat _ _ _

/-- What `ofRatio` computes for a positive quotient `n / d`: with `j` the exponent that
brings the quotient into `[2^52, 2^53)`, the value is the rounded scaled quotient divided by
`2^j`. -/
theorem ofRatio_spec (n d : Nat) (hn : 0 < n) (hd : 0 < d) :
    ∃ (j : ℤ) (N D : Nat), 0 < D ∧ (N : ℚ) / D = (n : ℚ) / d * 2 ^ j ∧
      (2 : ℚ) ^ 52 ≤ (n : ℚ) / d * 2 ^ j ∧ (n : ℚ) / d * 2 ^ j < 2 ^ 53 ∧
      (Float64.ofRatio false n d).toRat = (roundEven N D : ℚ) / 2 ^ j := by
  obtain ⟨c, hcq, hlo, hhi⟩ := scale_spec n d hn hd
  have hdq : (0 : ℚ) < d := by exact_mod_cast hd
  have hD : 0 < d * 2 ^ Float64.scale n d := by positivity
  have hDq : (0 : ℚ) < ((d * 2 ^ Float64.scale n d : Nat) : ℚ) := by exact_mod_cast hD
  have hx : ((n * 2 ^ (ilog2 d + 53) : Nat) : ℚ) / ((d * 2 ^ Float64.scale n d : Nat) : ℚ) =
      (n : ℚ) / d * 2 ^ (((ilog2 d + 53 : Nat) : ℤ) - (Float64.scale n d : ℤ)) := by
    rw [two_zpow_sub]
    push_cast
    field_simp
  refine ⟨((ilog2 d + 53 : Nat) : ℤ) - (Float64.scale n d : ℤ), n * 2 ^ (ilog2 d + 53),
    d * 2 ^ Float64.scale n d, hD, hx, ?_, ?_, ?_⟩
  · have h1 : ((d * 2 ^ Float64.scale n d : Nat) : ℚ) * (c : ℚ) ≤
        ((n * 2 ^ (ilog2 d + 53) : Nat) : ℚ) := by exact_mod_cast hlo
    rw [← hx, le_div_iff₀ hDq, ← hcq]
    linarith
  · have h1 : ((n * 2 ^ (ilog2 d + 53) : Nat) : ℚ) <
        ((d * 2 ^ Float64.scale n d : Nat) : ℚ) * ((c : ℚ) * 2) := by exact_mod_cast hhi
    have h53 : (2 : ℚ) ^ 53 = c * 2 := by rw [hcq]; norm_num
    rw [← hx, div_lt_iff₀ hDq, h53]
    linarith
  · exact ofRatio_toRat n d (Nat.pos_iff_ne_zero.1 hn)


theorem ofRatio_zero (b : Bool) (d : Nat) : Float64.ofRatio b 0 d = ⟨0, 1⟩ := rfl

theorem ofRatio_toRat_nonneg (n d : Nat) : 0 ≤ (Float64.ofRatio false n d).toRat := by
  unfold Float64.toRat
  have h1 := ofRatio_num_nonneg n d
  have h2 : (0 : ℚ) ≤ ((Float64.ofRatio false n d).num : ℚ) := by exact_mod_cast h1
  positivity

/-- The rounded significand lies in `[2^52, 2^53]`. -/
theorem roundEven_bounds (N D : Nat) (hD : 0 < D) (hlo : (2 : ℚ) ^ 52 ≤ (N : ℚ) / D)
    (hhi : (N : ℚ) / D < 2 ^ 53) :
    (2 : ℚ) ^ 52 ≤ (roundEven N D : ℚ) ∧ (roundEven N D : ℚ) ≤ 2 ^ 53 := by
  have h1 : roundEven (2 ^ 52 * 1) 1 ≤ roundEven N D := by
    apply roundEven_mono _ _ _ _ Nat.one_pos hD
    simpa using hlo
  have h2 : roundEven N D ≤ roundEven (2 ^ 53 * 1) 1 := by
    apply roundEven_mono _ _ _ _ hD Nat.one_pos
    simpa using le_of_lt hhi
  rw [roundEven_mul _ _ Nat.one_pos] at h1 h2
  constructor
  · exact_mod_cast h1
  · exact_mod_cast h2

/-- Rounding to `float64` is monotone. -/
theorem ofRatio_mono (n1 d1 n2 d2 : Nat) (hd1 : 0 < d1) (hd2 : 0 < d2)
    (h : (n1 : ℚ) / d1 ≤ (n2 : ℚ) / d2) :
    (Float64.ofRatio false n1 d1).toRat ≤ (Float64.ofRatio false n2 d2).toRat := by
  have hd1q : (0 : ℚ) < d1 := by exact_mod_cast hd1
  have hd2q : (0 : ℚ) < d2 := by exact_mod_cast hd2
  by_cases hn1 : n1 = 0
  · subst hn1
    rw [ofRatio_zero]
    simpa [Float64.toRat] using ofRatio_toRat_nonneg n2 d2
  have hn1p : 0 < n1 := Nat.pos_of_ne_zero hn1
  have hq1 : (0 : ℚ) < (n1 : ℚ) / d1 := by
    have : (0 : ℚ) < n1 := by exact_mod_cast hn1p
    positivity
  have hn2p : 0 < n2 := by
    rcases Nat.eq_zero_or_pos n2 with h0 | h0
    · subst h0
      simp at h
      linarith
    · exact h0
  obtain ⟨j1, N1, D1, hD1, hx1, hlo1, hhi1, hv1⟩ := ofRatio_spec n1 d1 hn1p hd1
  obtain ⟨j2, N2, D2, hD2, hx2, hlo2, hhi2, hv2⟩ := ofRatio_spec n2 d2 hn2p hd2
  obtain ⟨hm1lo, hm1hi⟩ := roundEven_bounds N1 D1 hD1 (hx1 ▸ hlo1) (hx1 ▸ hhi1)
  obtain ⟨hm2lo, hm2hi⟩ := roundEven_bounds N2 D2 hD2 (hx2 ▸ hlo2) (hx2 ▸ hhi2)
  have hp1 : (0 : ℚ) < 2 ^ j1 := by positivity
  have hp2 : (0 : ℚ) < 2 ^ j2 := by positivity
  rw [hv1, hv2]
  rcases lt_trichotomy j1 j2 with hj | hj | hj
  · exfalso
    have hstep : (2 : ℚ) ^ j1 * 2 ≤ 2 ^ j2 := by
      have : (2 : ℚ) ^ (j1 + 1) ≤ 2 ^ j2 := zpow_le_zpow_right₀ (by norm_num) (by omega)
      rwa [zpow_add_one₀ (by norm_num)] at this
    have h3 : (n1 : ℚ) / d1 * (2 ^ j1 * 2) ≤ (n2 : ℚ) / d2 * 2 ^ j2 :=
      mul_le_mul h hstep (by positivity) (le_trans (le_of_lt hq1) h)
    have h53 : (2 : ℚ) ^ 53 = 2 ^ 52 * 2 := by norm_num
    rw [h53] at hhi2
    nlinarith
  · subst hj
    have hm : roundEven N1 D1 ≤ roundEven N2 D2 := by
      apply roundEven_mono _ _ _ _ hD1 hD2
      rw [hx1, hx2]
      exact mul_le_mul_of_nonneg_right h (le_of_lt hp1)
    have hmq : (roundEven N1 D1 : ℚ) ≤ (roundEven N2 D2 : ℚ) := by exact_mod_cast hm
    exact div_le_div_of_nonneg_right hmq (le_of_lt hp1)
  · have hstep : (2 : ℚ) ^ j2 * 2 ≤ 2 ^ j1 := by
      have : (2 : ℚ) ^ (j2 + 1) ≤ 2 ^ j1 := zpow_le_zpow_right₀ (by norm_num) (by omega)
      rwa [zpow_add_one₀ (by norm_num)] at this
    have h53 : (2 : ℚ) ^ 53 = 2 ^ 52 * 2 := by norm_num
    rw [h53] at hm1hi
    rw [div_le_div_iff₀ hp1 hp2]
    calc (roundEven N1 D1 : ℚ) * 2 ^ j2 ≤ 2 ^ 52 * 2 * 2 ^ j2 :=
          mul_le_mul_of_nonneg_right hm1hi (le_of_lt hp2)
      _ = 2 ^ 52 * (2 ^ j2 * 2) := by ring
      _ ≤ 2 ^ 52 * 2 ^ j1 := mul_le_mul_of_nonneg_left hstep (by positivity)
      _ ≤ (roundEven N2 D2 : ℚ) * 2 ^ j1 := mul_le_mul_of_nonneg_right hm2lo (le_of_lt hp1)


/-- Rounding to `float64` is exact on a quotient whose scaling into `[2^52, 2^53)` is a
natural number. -/
theorem ofRatio_exact (n d : Nat) (hn : 0 < n) (hd : 0 < d)
    (h : ∀ j : ℤ, (2 : ℚ) ^ 52 ≤ (n : ℚ) / d * 2 ^ j → (n : ℚ) / d * 2 ^ j < 2 ^ 53 →
      ∃ M : Nat, (n : ℚ) / d * 2 ^ j = M) :
    (Float64.ofRatio false n d).toRat = (n : ℚ) / d := by
  obtain ⟨j, N, D, hD, hx, hlo, hhi, hv⟩ := ofRatio_spec n d hn hd
  obtain ⟨M, hM⟩ := h j hlo hhi
  obtain ⟨⟨a1, a2⟩, _, _⟩ := roundEven_spec N D hD
  rw [hx, hM] at a1 a2
  have hm : roundEven N D = M := by
    have b1 : 2 * (roundEven N D : ℤ) - 1 ≤ 2 * (M : ℤ) := by exact_mod_cast a1
    have b2 : 2 * (M : ℤ) ≤ 2 * (roundEven N D : ℤ) + 1 := by exact_mod_cast a2
    omega
  have hp : (0 : ℚ) < 2 ^ j := by positivity
  rw [hv, hm, ← hM]
  field_simp
  ring

/-- The relative error of rounding to `float64` is at most `2^(-53)`. -/
theorem ofRatio_err (n d : Nat) (hd : 0 < d) :
    |(Float64.ofRatio false n d).toRat - (n : ℚ) / d| ≤ (n : ℚ) / d / 2 ^ 53 := by
  by_cases hn : n = 0
  · subst hn
    rw [ofRatio_zero]
    simp [Float64.toRat]
  obtain ⟨j, N, D, hD, hx, hlo, hhi, hv⟩ := ofRatio_spec n d (Nat.pos_of_ne_zero hn) hd
  obtain ⟨⟨a1, a2⟩, _, _⟩ := roundEven_spec N D hD
  rw [hx] at a1 a2
  have hp : (0 : ℚ) < 2 ^ j := by positivity
  have hq : (n : ℚ) / d = (n : ℚ) / d * 2 ^ j / 2 ^ j := by
    field_simp
    ring
  rw [hv, hq]
  generalize (n : ℚ) / d * 2 ^ j = x at *
  generalize (2 : ℚ) ^ j = P at *
  generalize (roundEven N D : ℚ) = m at *
  rw [← sub_div, abs_div, abs_of_pos hp, div_div, mul_comm P, ← div_div]
  apply div_le_div_of_nonneg_right _ (le_of_lt hp)
  rw [abs_le]
  have h53 : (2 : ℚ) ^ 53 = 2 ^ 52 * 2 := by norm_num
  have hx2 : (1 : ℚ) / 2 ≤ x / 2 ^ 53 := by
    rw [le_div_iff₀ (by positivity), h53]
    linarith
  constructor <;> linarith

/-- The conversion to `float64` of a natural number below `2^53` is exact. -/
theorem ofRatio_nat_exact (w : Nat) (hw : w < 2 ^ 53) :
    (Float64.ofRatio false w 1).toRat = w := by
  by_cases hw0 : w = 0
  · subst hw0
    simp [ofRatio_zero, Float64.toRat]
  have h := ofRatio_exact w 1 (Nat.pos_of_ne_zero hw0) Nat.one_pos ?_
  · simpa using h
  intro j hlo hhi
  simp only [Nat.cast_one, div_one] at hlo hhi ⊢
  have hwq : (w : ℚ) < 2 ^ 53 := by exact_mod_cast hw
  have hw0q : (0 : ℚ) < w := by exact_mod_cast Nat.pos_of_ne_zero hw0
  have hj : 0 ≤ j := by
    by_contra hneg
    have hle : (2 : ℚ) ^ j ≤ 2 ^ (-1 : ℤ) := zpow_le_zpow_right₀ (by norm_num) (by omega)
    have h2 : (2 : ℚ) ^ (-1 : ℤ) = 1 / 2 := by norm_num
    rw [h2] at hle
    have h53 : (2 : ℚ) ^ 53 = 2 ^ 52 * 2 := by norm_num
    rw [h53] at hwq
    have : (w : ℚ) * 2 ^ j ≤ w * (1 / 2) := mul_le_mul_of_nonneg_left hle (le_of_lt hw0q)
    linarith
  refine ⟨w * 2 ^ j.toNat, ?_⟩
  have hjn : j = (j.toNat : ℤ) := (Int.toNat_of_nonneg hj).symm
  rw [hjn, zpow_natCast]
  push_cast
  rw [Int.toNat_of_nonneg hj]

/-! ## The column mapper -/

theorem ofInt_of_nonneg (i : Int) (h : 0 ≤ i) :
    Float64.ofInt i = Float64.ofRatio false i.toNat 1 := by
  unfold Float64.ofInt
  have h1 : decide (i < 0) = false := by simpa using h
  have h2 : i.natAbs = i.toNat := by omega
  rw [h1, h2]

theorem div_of_nonneg (a b : Float64) (ha : 0 ≤ a.num) (hb : 0 ≤ b.num) :
    Float64.div a b = Float64.ofRatio false (a.num.toNat * b.den) (a.den * b.num.toNat) := by
  unfold Float64.div
  have h1 : decide (a.num < 0) = false := by simpa using ha
  have h2 : decide (b.num < 0) = false := by simpa using hb
  have h3 : a.num.natAbs = a.num.toNat := by omega
  have h4 : b.num.natAbs = b.num.toNat := by omega
  rw [h1, h2, h3, h4]
  rfl

theorem mul_of_nonneg (a b : Float64) (ha : 0 ≤ a.num) (hb : 0 ≤ b.num) :
    Float64.mul a b =
      Float64.ofRatio false (a.num.toNat * b.num.toNat) (a.den * b.den) := by
  unfold Float64.mul
  have h1 : decide (a.num < 0) = false := by simpa using ha
  have h2 : decide (b.num < 0) = false := by simpa using hb
  have h3 : a.num.natAbs = a.num.toNat := by omega
  have h4 : b.num.natAbs = b.num.toNat := by omega
  rw [h1, h2, h3, h4]
  rfl

theorem toRat_of_nonneg (a : Float64) (ha : 0 ≤ a.num) :
    a.toRat = (a.num.toNat : ℚ) / a.den := by
  unfold Float64.toRat
  have h : ((a.num.toNat : ℤ) : ℚ) = (a.num : ℚ) := by rw [Int.toNat_of_nonneg ha]
  rw [← h, Int.cast_natCast]

/-- The conversion `int(math.Round(f))` of a non-negative value is the floor of the value
plus one half. -/
theorem roundToInt_eq_floor (f : Float64) (hn : 0 ≤ f.num) (hd : 0 < f.den) :
    f.roundToInt = ⌊f.toRat + 1 / 2⌋ := by
  unfold Float64.roundToInt
  rw [if_neg (by omega)]
  have h3 : f.num.natAbs = f.num.toNat := by omega
  have hdq : (0 : ℚ) < f.den := by exact_mod_cast hd
  have hq : f.toRat + 1 / 2 =
      (((2 * f.num.toNat + f.den : Nat) : ℤ) : ℚ) / ((2 * f.den : Nat) : ℚ) := by
    rw [toRat_of_nonneg f hn]
    push_cast
    field_simp
    ring
  rw [hq, Rat.floor_intCast_div_natCast, h3]
  norm_cast

theorem ofRatio_toRat_pos (n d : Nat) (hn : 0 < n) (hd : 0 < d) :
    0 < (Float64.ofRatio false n d).toRat := by
  obtain ⟨j, N, D, hD, hx, hlo, hhi, hv⟩ := ofRatio_spec n d hn hd
  obtain ⟨hm, _⟩ := roundEven_bounds N D hD (hx ▸ hlo) (hx ▸ hhi)
  rw [hv]
  have : (0 : ℚ) < (roundEven N D : ℚ) := lt_of_lt_of_le (by positivity) hm
  positivity

/-- Four roundings of relative error `u` in a row: the conversions of `a` and `s`, the
quotient and the product by `W`. -/
theorem err_chain (a s W Av Sv Rv Pv u : ℚ) (ha : 0 ≤ a) (hs : 0 < s) (hW : 0 ≤ W)
    (hu0 : 0 ≤ u) (hu1 : u < 1)
    (hA : |Av - a| ≤ a * u) (hS : |Sv - s| ≤ s * u)
    (hR : |Rv - Av / Sv| ≤ Av / Sv * u) (hP : |Pv - Rv * W| ≤ Rv * W * u) :
    a * W / s * ((1 - u) ^ 3 / (1 + u)) ≤ Pv ∧ Pv ≤ a * W / s * ((1 + u) ^ 3 / (1 - u)) := by
  rw [abs_le] at hA hS hR hP
  have h1u : 0 < 1 - u := by linarith
  have h1v : 0 < 1 + u := by linarith
  have hSlo : s * (1 - u) ≤ Sv := by linarith
  have hShi : Sv ≤ s * (1 + u) := by linarith
  have hSpos : 0 < Sv := lt_of_lt_of_le (by positivity) hSlo
  have hAlo : a * (1 - u) ≤ Av := by linarith
  have hAhi : Av ≤ a * (1 + u) := by linarith
  have hA0 : 0 ≤ Av := le_trans (by positivity) hAlo
  have hQ0 : 0 ≤ Av / Sv := by positivity
  have hQhi : Av / Sv ≤ a * (1 + u) / (s * (1 - u)) :=
    div_le_div₀ (by positivity) hAhi (by positivity) hSlo
  have hQlo : a * (1 - u) / (s * (1 + u)) ≤ Av / Sv :=
    div_le_div₀ hA0 hAlo hSpos hShi
  have hRhi : Rv ≤ Av / Sv * (1 + u) := by linarith
  have hRlo : Av / Sv * (1 - u) ≤ Rv := by linarith
  have hR0 : 0 ≤ Rv := le_trans (by positivity) hRlo
  have hPhi : Pv ≤ Rv * W * (1 + u) := by linarith
  have hPlo : Rv * W * (1 - u) ≤ Pv := by linarith
  constructor
  · have e : a * W / s * ((1 - u) ^ 3 / (1 + u)) =
        a * (1 - u) / (s * (1 + u)) * (1 - u) * W * (1 - u) := by
      field_simp
      ring
    rw [e]
    refine le_trans ?_ hPlo
    apply mul_le_mul_of_nonneg_right _ (le_of_lt h1u)
    apply mul_le_mul_of_nonneg_right _ hW
    refine le_trans ?_ hRlo
    exact mul_le_mul_of_nonneg_right hQlo (le_of_lt h1u)
  · have e : a * W / s * ((1 + u) ^ 3 / (1 - u)) =
        a * (1 + u) / (s * (1 - u)) * (1 + u) * W * (1 + u) := by
      field_simp
      ring
    rw [e]
    refine le_trans hPhi ?_
    apply mul_le_mul_of_nonneg_right _ (le_of_lt h1v)
    apply mul_le_mul_of_nonneg_right _ hW
    refine le_trans hRhi ?_
    exact mul_le_mul_of_nonneg_right hQhi (le_of_lt h1v)

theorem err_factor_hi :
    (1 + 1 / (2 : ℚ) ^ 53) ^ 3 / (1 - 1 / (2 : ℚ) ^ 53) ≤ 1 + 5 / 2 ^ 53 := by
  norm_num

theorem err_factor_lo :
    1 - 5 / (2 : ℚ) ^ 53 ≤ (1 - 1 / (2 : ℚ) ^ 53) ^ 3 / (1 + 1 / (2 : ℚ) ^ 53) := by
  norm_num


/-- The `float64` computation of `toX` for a time inside the window: the integer returned
is the floor of `p + 1/2` for a value `p` in `[0, W]` whose relative distance to the exact
quotient `a * W / s` is at most `5 / 2^53`. -/
theorem column_spec (a s W : Int) (ha : 0 ≤ a) (has : a ≤ s) (hs : 0 < s) (hW : 0 < W)
    (hW53 : W < 2 ^ 53) :
    ∃ p : ℚ,
      Float64.roundToInt (Float64.mul (Float64.div (Float64.ofInt a) (Float64.ofInt s))
        (Float64.ofInt W)) = ⌊p + 1 / 2⌋ ∧
      0 ≤ p ∧ p ≤ W ∧
      |p - (a : ℚ) * W / s| ≤ (a : ℚ) * W / s * (5 / 2 ^ 53) := by
  rw [ofInt_of_nonneg a ha, ofInt_of_nonneg s (le_of_lt hs), ofInt_of_nonneg W (le_of_lt hW)]
  have hA0 := ofRatio_num_nonneg a.toNat 1
  have hS0 := ofRatio_num_nonneg s.toNat 1
  have hW0 := ofRatio_num_nonneg W.toNat 1
  have hAd := ofRatio_den_pos false a.toNat 1
  have hSd := ofRatio_den_pos false s.toNat 1
  have hWd := ofRatio_den_pos false W.toNat 1
  have haq : ((a.toNat : ℕ) : ℚ) = (a : ℚ) := by
    have : ((a.toNat : ℤ) : ℚ) = (a : ℚ) := by rw [Int.toNat_of_nonneg ha]
    rwa [Int.cast_natCast] at this
  have hsq : ((s.toNat : ℕ) : ℚ) = (s : ℚ) := by
    have : ((s.toNat : ℤ) : ℚ) = (s : ℚ) := by rw [Int.toNat_of_nonneg (le_of_lt hs)]
    rwa [Int.cast_natCast] at this
  have hWq : ((W.toNat : ℕ) : ℚ) = (W : ℚ) := by
    have : ((W.toNat : ℤ) : ℚ) = (W : ℚ) := by rw [Int.toNat_of_nonneg (le_of_lt hW)]
    rwa [Int.cast_natCast] at this
  have haq0 : (0 : ℚ) ≤ (a : ℚ) := by exact_mod_cast ha
  have hsq0 : (0 : ℚ) < (s : ℚ) := by exact_mod_cast hs
  have hWq0 : (0 : ℚ) < (W : ℚ) := by exact_mod_cast hW
  have hasq : (a : ℚ) ≤ (s : ℚ) := by exact_mod_cast has
  have hAerr := ofRatio_err a.toNat 1 Nat.one_pos
  have hSerr := ofRatio_err s.toNat 1 Nat.one_pos
  have hAS := ofRatio_mono a.toNat 1 s.toNat 1 Nat.one_pos Nat.one_pos
    (by simpa [haq, hsq] using hasq)
  have hSpos := ofRatio_toRat_pos s.toNat 1 (by omega) Nat.one_pos
  have hWex := ofRatio_nat_exact W.toNat (by omega)
  generalize Float64.ofRatio false a.toNat 1 = A at *
  generalize Float64.ofRatio false s.toNat 1 = S at *
  generalize hWf : Float64.ofRatio false W.toNat 1 = Wf at *
  simp only [Nat.cast_one, div_one, haq, hsq, hWq] at hAerr hSerr hWex
  have hAv := toRat_of_nonneg A hA0
  have hSv := toRat_of_nonneg S hS0
  have hWv := toRat_of_nonneg Wf hW0
  have hAdq : (0 : ℚ) < (A.den : ℚ) := by exact_mod_cast hAd
  have hSdq : (0 : ℚ) < (S.den : ℚ) := by exact_mod_cast hSd
  have hWdq : (0 : ℚ) < (Wf.den : ℚ) := by exact_mod_cast hWd
  have hSn : 0 < S.num.toNat := by
    rcases Nat.eq_zero_or_pos S.num.toNat with h0 | h0
    · rw [hSv, h0] at hSpos
      simp at hSpos
    · exact h0
  have hSnq : (0 : ℚ) < (S.num.toNat : ℚ) := by exact_mod_cast hSn
  rw [div_of_nonneg A S hA0 hS0]
  have hRq : ((A.num.toNat * S.den : ℕ) : ℚ) / ((A.den * S.num.toNat : ℕ) : ℚ) =
      A.toRat / S.toRat := by
    rw [hAv, hSv]
    push_cast
    field_simp
  have hRd : 0 < A.den * S.num.toNat := Nat.mul_pos hAd hSn
  have hRerr := ofRatio_err (A.num.toNat * S.den) (A.den * S.num.toNat) hRd
  have hR1 := ofRatio_mono (A.num.toNat * S.den) (A.den * S.num.toNat) 1 1 hRd Nat.one_pos
    (by rw [hRq]; simpa using (div_le_one hSpos).2 hAS)
  have h11 : (Float64.ofRatio false 1 1).toRat = 1 := by
    simpa using ofRatio_nat_exact 1 (by norm_num)
  have hR0 := ofRatio_num_nonneg (A.num.toNat * S.den) (A.den * S.num.toNat)
  have hRden := ofRatio_den_pos false (A.num.toNat * S.den) (A.den * S.num.toNat)
  rw [hRq] at hRerr
  rw [h11] at hR1
  generalize Float64.ofRatio false (A.num.toNat * S.den) (A.den * S.num.toNat) = R at *
  have hRv := toRat_of_nonneg R hR0
  have hRdq : (0 : ℚ) < (R.den : ℚ) := by exact_mod_cast hRden
  have hRnn : 0 ≤ R.toRat := by rw [hRv]; positivity
  rw [mul_of_nonneg R Wf hR0 hW0]
  have hPq : ((R.num.toNat * Wf.num.toNat : ℕ) : ℚ) / ((R.den * Wf.den : ℕ) : ℚ) =
      R.toRat * (W : ℚ) := by
    rw [← hWex, hRv, hWv]
    push_cast
    field_simp
  have hPd : 0 < R.den * Wf.den := Nat.mul_pos hRden hWd
  have hPerr := ofRatio_err (R.num.toNat * Wf.num.toNat) (R.den * Wf.den) hPd
  have hPW := ofRatio_mono (R.num.toNat * Wf.num.toNat) (R.den * Wf.den) W.toNat 1 hPd
    Nat.one_pos (by
      rw [hPq]
      simp only [Nat.cast_one, div_one, hWq]
      calc R.toRat * (W : ℚ) ≤ 1 * (W : ℚ) := mul_le_mul_of_nonneg_right hR1 (le_of_lt hWq0)
        _ = W := one_mul _)
  have hP0 := ofRatio_num_nonneg (R.num.toNat * Wf.num.toNat) (R.den * Wf.den)
  have hPden := ofRatio_den_pos false (R.num.toNat * Wf.num.toNat) (R.den * Wf.den)
  have hPnn := ofRatio_toRat_nonneg (R.num.toNat * Wf.num.toNat) (R.den * Wf.den)
  rw [hPq] at hPerr
  generalize Float64.ofRatio false (R.num.toNat * Wf.num.toNat) (R.den * Wf.den) = P at *
  refine ⟨P.toRat, roundToInt_eq_floor P hP0 hPden, hPnn, ?_, ?_⟩
  · rw [hWf, hWex] at hPW
    exact hPW
  · have hch := err_chain (a : ℚ) s W A.toRat S.toRat R.toRat P.toRat (1 / 2 ^ 53) haq0 hsq0
      (le_of_lt hWq0) (by positivity) (by norm_num)
      (by rw [mul_one_div]; exact hAerr) (by rw [mul_one_div]; exact hSerr)
      (by rw [mul_one_div]; exact hRerr) (by rw [mul_one_div]; exact hPerr)
    have hx0 : (0 : ℚ) ≤ (a : ℚ) * W / s := by positivity
    have hhi := mul_le_mul_of_nonneg_left err_factor_hi hx0
    have hlo := mul_le_mul_of_nonneg_left err_factor_lo hx0
    rw [abs_le]
    constructor <;> linarith [hch.1, hch.2]

theorem Sub_nonneg_iff (t u : Int) : 0 ≤ Sub t u ↔ u ≤ t := by
  unfold Sub minDuration maxDuration
  split_ifs <;> omega

theorem Sub_mono (t u v : Int) (h : t ≤ u) : Sub t v ≤ Sub u v := by
  unfold Sub minDuration maxDuration
  split_ifs <;> omega

theorem Sub_eq (t u : Int) (h1 : 0 ≤ t - u) (h2 : t - u ≤ maxDuration) : Sub t u = t - u := by
  unfold Sub minDuration
  unfold maxDuration at h2 ⊢
  split_ifs <;> omega

/-- A width whose buffer `make` accepts is below `2^46`. -/
theorem width_lt_of_alloc (Width : Int) (c : Char)
    (halloc : (makeRunes (Width + 1) c).isSome = true) : Width < 2 ^ 46 := by
  unfold makeRunes maxAlloc at halloc
  split_ifs at halloc with h1 h2
  · simp at halloc
  · simp at halloc
  · omega

theorem toX_before (start end_ span Width t : Int) (h : t < start) :
    toX start end_ span Width t = 0 := by
  simp [toX, Before, h]

theorem toX_after (start end_ span Width t : Int) (h1 : ¬ t < start) (h : end_ < t) :
    toX start end_ span Width t = Width := by
  simp [toX, Before, After, h1, h]

theorem toX_inside (start end_ span Width t : Int) (h1 : ¬ t < start) (h2 : ¬ end_ < t) :
    toX start end_ span Width t =
      Float64.roundToInt (Float64.mul
        (Float64.div (Float64.ofInt (Sub t start)) (Float64.ofInt span))
        (Float64.ofInt Width)) := by
  simp [toX, Before, After, h1, h2]

/-- Inside a render, the column mapper returns an integer of `[0, width]`. -/
theorem toX_mem_range (start end_ Width t : Int) (hwin : start < end_) (hW : 0 < Width)
    (halloc : (makeRunes (Width + 1) ' ').isSome = true) :
    0 ≤ toX start end_ (Sub end_ start) Width t ∧
      toX start end_ (Sub end_ start) Width t ≤ Width := by
  have hW46 := width_lt_of_alloc Width _ halloc
  by_cases h1 : t < start
  · rw [toX_before _ _ _ _ _ h1]
    omega
  by_cases h2 : end_ < t
  · rw [toX_after _ _ _ _ _ h1 h2]
    omega
  rw [toX_inside _ _ _ _ _ h1 h2]
  have hs : 0 < Sub end_ start := (Sub_pos_iff _ _).2 hwin
  have ha : 0 ≤ Sub t start := (Sub_nonneg_iff _ _).2 (by omega)
  obtain ⟨p, hp, hp0, hpW, _⟩ := column_spec (Sub t start) (Sub end_ start) Width ha
    (Sub_mono _ _ _ (by omega)) hs hW (by omega)
  rw [hp]
  constructor
  · exact Int.floor_nonneg.2 (by linarith)
  · have : ⌊p + 1 / 2⌋ < Width + 1 := by
      rw [Int.floor_lt]
      push_cast
      linarith
    omega

/-- C5: in a render with `end` after `start` and a positive width whose buffer of
`width + 1` runes `make` accepts (the call of line 60, which comes before any call of `toX`),
the column mapper returns an integer of `[0, width]` for every time: 0 for a time before
`start`, `width` for a time after `end`. So do the columns of the ticks and of the events. -/
theorem toX_range (start end_ Width t : Int) (hwin : start < end_) (hW : 0 < Width)
    (halloc : (makeRunes (Width + 1) ' ').isSome = true) :
    (0 ≤ toX start end_ (Sub end_ start) Width t ∧
      toX start end_ (Sub end_ start) Width t ≤ Width) ∧
    (t < start → toX start end_ (Sub end_ start) Width t = 0) ∧
    (end_ < t → toX start end_ (Sub end_ start) Width t = Width) :=
  ⟨toX_mem_range start end_ Width t hwin hW halloc, toX_before _ _ _ _ _,
    fun h => toX_after _ _ _ _ _ (by omega) h⟩

/-- A witness of C5: the column of the event of the sample render. -/
theorem toX_range_witness :
    sampleStart < sampleEnd ∧ (0 : Int) < 20 ∧ (makeRunes (20 + 1) ' ').isSome = true ∧
    (0 ≤ toX sampleStart sampleEnd (Sub sampleEnd sampleStart) 20 63885141000000000000 ∧
      toX sampleStart sampleEnd (Sub sampleEnd sampleStart) 20 63885141000000000000 ≤ 20) ∧
    (63885141000000000000 < sampleStart →
      toX sampleStart sampleEnd (Sub sampleEnd sampleStart) 20 63885141000000000000 = 0) ∧
    (sampleEnd < 63885141000000000000 →
      toX sampleStart sampleEnd (Sub sampleEnd sampleStart) 20 63885141000000000000 = 20) :=
  ⟨by decide, by decide, by decide,
    toX_range sampleStart sampleEnd 20 63885141000000000000 (by decide) (by decide)
      (by decide)⟩

/-! ## The column mapper and the exact quotient -/

/-- C6 fails as stated: in the window from 08:00 to 09:00 on 2025-06-10 with width 100, the
time 08:08:42 is 522 seconds after `start`, the exact quotient is 14.5, which rounds to 15,
and `toX` returns 14. -/
theorem toX_differs_from_exactColumn :
    sampleStart ≤ 63885139722000000000 ∧ 63885139722000000000 ≤ 63885142800000000000 ∧
    toX sampleStart 63885142800000000000 (Sub 63885142800000000000 sampleStart) 100
      63885139722000000000 = 14 ∧
    exactColumn sampleStart 63885142800000000000 100 63885139722000000000 = 15 := by
  decide

theorem floor_half_quot (a s W : Int) (hs : 0 < s) :
    (2 * a * W + s) / (2 * s) = ⌊(a : ℚ) * (W : ℚ) / (s : ℚ) + 1 / 2⌋ := by
  have hsq : (0 : ℚ) < (s : ℚ) := by exact_mod_cast hs
  have hd : ((2 * s).toNat : Int) = 2 * s := Int.toNat_of_nonneg (by omega)
  have hdq : (((2 * s).toNat : Nat) : ℚ) = 2 * (s : ℚ) := by
    have : ((((2 * s).toNat : Nat) : Int) : ℚ) = ((2 * s : Int) : ℚ) := by rw [hd]
    rw [Int.cast_natCast] at this
    rw [this]
    push_cast
    rfl
  have hq : (a : ℚ) * (W : ℚ) / (s : ℚ) + 1 / 2 =
      ((2 * a * W + s : Int) : ℚ) / (((2 * s).toNat : Nat) : ℚ) := by
    rw [hdq]
    push_cast
    field_simp
    ring
  rw [hq, Rat.floor_intCast_div_natCast, hd]

/-- The column of the specification is the floor of the exact quotient plus one half. -/
theorem exactColumn_eq_floor (start end_ Width t : Int) (hwin : start < end_) :
    exactColumn start end_ Width t =
      ⌊((t - start : Int) : ℚ) * (Width : ℚ) / ((end_ - start : Int) : ℚ) + 1 / 2⌋ :=
  floor_half_quot (t - start) (end_ - start) Width (by omega)

/-- C6, as amended: for a window shorter than `2^63` nanoseconds, a positive width whose
buffer `make` accepts and a time `t` of the window, the column `toX(t)`, which is computed
in `float64`, differs by at most 1 from the exact quotient `(t - start) * width / (end - start)`
rounded to the nearest integer, halves away from zero; the two are equal when the exact
quotient is farther than `5 * width / 2^53` from every half-integer. -/
theorem toX_near_exactColumn (start end_ Width t : Int) (hwin : start < end_)
    (hspan : end_ - start ≤ maxDuration) (hW : 0 < Width)
    (halloc : (makeRunes (Width + 1) ' ').isSome = true) (h1 : start ≤ t) (h2 : t ≤ end_) :
    |toX start end_ (Sub end_ start) Width t - exactColumn start end_ Width t| ≤ 1 ∧
    ((∀ k : Int, 5 * (Width : ℚ) / 2 ^ 53 <
        |((t - start : Int) : ℚ) * (Width : ℚ) / ((end_ - start : Int) : ℚ) - ((k : ℚ) + 1 / 2)|) →
      toX start end_ (Sub end_ start) Width t = exactColumn start end_ Width t) := by
  have hW46 := width_lt_of_alloc Width _ halloc
  rw [toX_inside _ _ _ _ _ (by omega) (by omega), exactColumn_eq_floor _ _ _ _ hwin]
  have hs : Sub end_ start = end_ - start := Sub_eq _ _ (by omega) hspan
  have ha : Sub t start = t - start := Sub_eq _ _ (by omega) (by omega)
  rw [hs, ha]
  obtain ⟨p, hp, hp0, hpW, herr⟩ := column_spec (t - start) (end_ - start) Width (by omega)
    (by omega) (by omega) hW (by omega)
  rw [hp]
  have hsq : (0 : ℚ) < ((end_ - start : Int) : ℚ) := by
    have : 0 < end_ - start := by omega
    exact_mod_cast this
  have haq : (0 : ℚ) ≤ ((t - start : Int) : ℚ) := by
    have : 0 ≤ t - start := by omega
    exact_mod_cast this
  have hasq : ((t - start : Int) : ℚ) ≤ ((end_ - start : Int) : ℚ) := by
    have : t - start ≤ end_ - start := by omega
    exact_mod_cast this
  have hWq : (0 : ℚ) < (Width : ℚ) := by exact_mod_cast hW
  have hWq46 : (Width : ℚ) < 2 ^ 46 := by exact_mod_cast hW46
  have hx0 : 0 ≤ ((t - start : Int) : ℚ) * (Width : ℚ) / ((end_ - start : Int) : ℚ) := by
    positivity
  have hxW : ((t - start : Int) : ℚ) * (Width : ℚ) / ((end_ - start : Int) : ℚ) ≤ Width := by
    rw [div_le_iff₀ hsq]
    rw [mul_comm]
    exact mul_le_mul_of_nonneg_left hasq (le_of_lt hWq)
  generalize ((t - start : Int) : ℚ) * (Width : ℚ) / ((end_ - start : Int) : ℚ) = x at *
  have h53 : (0 : ℚ) < 5 / 2 ^ 53 := by positivity
  have he1 : x * (5 / 2 ^ 53) ≤ 5 * (Width : ℚ) / 2 ^ 53 := by
    have := mul_le_mul_of_nonneg_right hxW (le_of_lt h53)
    linarith
  have he2 : 5 * (Width : ℚ) / 2 ^ 53 < 1 / 2 := by
    rw [div_lt_iff₀ (by positivity)]
    have : (2 : ℚ) ^ 53 = 2 ^ 46 * 128 := by norm_num
    rw [this]
    linarith
  rw [abs_le] at herr
  constructor
  · rw [abs_le]
    constructor
    · have : ⌊x + 1 / 2⌋ - 1 ≤ ⌊p + 1 / 2⌋ := by
        rw [← Int.floor_sub_one]
        exact Int.floor_le_floor (by linarith)
      omega
    · have : ⌊p + 1 / 2⌋ ≤ ⌊x + 1 / 2⌋ + 1 := by
        rw [← Int.floor_add_one]
        exact Int.floor_le_floor (by linarith)
      omega
  · intro hfar
    have hk1 := hfar (⌊x + 1 / 2⌋ - 1)
    have hk2 := hfar ⌊x + 1 / 2⌋
    have hf1 := Int.floor_le (x + 1 / 2)
    have hf2 := Int.lt_floor_add_one (x + 1 / 2)
    push_cast at hk1
    rw [abs_of_nonneg (by linarith)] at hk1
    rw [abs_of_neg (by linarith)] at hk2
    rw [Int.floor_eq_iff]
    constructor <;> linarith

/-- A witness of C6 as amended: the time 08:08:42 of the window from 08:00 to 09:00. -/
theorem toX_near_exactColumn_witness :
    sampleStart < 63885142800000000000 ∧
    63885142800000000000 - sampleStart ≤ maxDuration ∧ (0 : Int) < 100 ∧
    (makeRunes (100 + 1) ' ').isSome = true ∧
    sampleStart ≤ 63885139722000000000 ∧ 63885139722000000000 ≤ 63885142800000000000 ∧
    |toX sampleStart 63885142800000000000 (Sub 63885142800000000000 sampleStart) 100
        63885139722000000000 -
      exactColumn sampleStart 63885142800000000000 100 63885139722000000000| ≤ 1 ∧
    ((∀ k : Int, 5 * ((100 : Int) : ℚ) / 2 ^ 53 <
        |((63885139722000000000 - sampleStart : Int) : ℚ) * ((100 : Int) : ℚ) /
          ((63885142800000000000 - sampleStart : Int) : ℚ) - ((k : ℚ) + 1 / 2)|) →
      toX sampleStart 63885142800000000000 (Sub 63885142800000000000 sampleStart) 100
          63885139722000000000 =
        exactColumn sampleStart 63885142800000000000 100 63885139722000000000) :=
  ⟨by decide, by decide, by decide, by decide, by decide, by decide,
    toX_near_exactColumn sampleStart 63885142800000000000 100 63885139722000000000
      (by decide) (by decide) (by decide) (by decide) (by decide) (by decide)⟩

/-! ## Renders that do not panic -/

theorem rangeRunes_lt (cs : List Char) (k i : Nat) (c : Char)
    (h : (i, c) ∈ rangeRunes k cs) : i < k + String.utf8ByteSize.go cs := by
  induction cs generalizing k with
  | nil => simp [rangeRunes] at h
  | cons a as ih =>
    simp only [rangeRunes, List.mem_cons, Prod.mk.injEq] at h
    have ha := Char.utf8Size_pos a
    simp only [String.utf8ByteSize.go]
    rcases h with ⟨rfl, _⟩ | h
    · omega
    · have := ih _ h
      omega

theorem writeLabel_isSome (pos : Int) (bufLen : Nat) (hpos : 0 ≤ pos) :
    ∀ (prs : List (Nat × Char)) (buf : List Char), buf.length = bufLen →
      (∀ pr ∈ prs, pos + (pr.1 : Int) < (bufLen : Int)) →
      ∃ b, writeLabel pos prs buf = some b := by
  intro prs
  induction prs with
  | nil => intro buf _ _; exact ⟨buf, rfl⟩
  | cons pr prs ih =>
    intro buf hlen h
    obtain ⟨i, r⟩ := pr
    have hi := h (i, r) (List.mem_cons_self _ _)
    simp only at hi
    have hset : setRune buf (pos + (i : Int)) r = some (buf.set (pos + (i : Int)).toNat r) := by
      unfold setRune
      rw [if_pos ⟨by omega, by omega⟩]
    obtain ⟨b, hb⟩ := ih (buf.set (pos + (i : Int)).toNat r) (by simpa using hlen)
      fun pr hpr => h pr (List.mem_cons_of_mem _ hpr)
    exact ⟨b, by simp [writeLabel, hset, hb]⟩

theorem writeTicks_isSome (lib : Lib) (start end_ span : Int) (opt : Options) (bufLen : Nat) :
    ∀ (ts : List Int) (buf : List Char), buf.length = bufLen →
      (∀ t ∈ ts, len (lib.format opt.TimeFormat t) ≤ bufLen) →
      ∃ b, writeTicks lib start end_ span opt ts buf = some b := by
  intro ts
  induction ts with
  | nil => intro buf _ _; exact ⟨buf, rfl⟩
  | cons t ts ih =>
    intro buf hlen h
    have ht := h t (List.mem_cons_self _ _)
    have hp := labelPos_range (toX start end_ span opt.Width t)
      (len (lib.format opt.TimeFormat t)) bufLen ht
    obtain ⟨b1, hb1⟩ := writeLabel_isSome
      (labelPos (toX start end_ span opt.Width t) (len (lib.format opt.TimeFormat t)) bufLen)
      bufLen hp.1 (rangeRunes 0 (lib.format opt.TimeFormat t).data) buf hlen (by
        intro pr hpr
        have := rangeRunes_lt _ _ pr.1 pr.2 hpr
        have hl : len (lib.format opt.TimeFormat t) =
            String.utf8ByteSize.go (lib.format opt.TimeFormat t).data := rfl
        omega)
    have hlen1 := (writeLabel_spec _ _ _ _ hb1).1
    obtain ⟨b, hb⟩ := ih b1 (hlen1.trans hlen) fun u hu => h u (List.mem_cons_of_mem _ hu)
    refine ⟨b, ?_⟩
    simp only [writeTicks, writeTick, hlen, hb1, Option.some_bind, hb]

theorem markTicks_isSome (start end_ span W : Int) (bufLen : Nat) :
    ∀ (ts : List Int) (axis : List Char), axis.length = bufLen →
      (∀ t ∈ ts, 0 ≤ toX start end_ span W t ∧ toX start end_ span W t < (bufLen : Int)) →
      ∃ a, markTicks start end_ span W ts axis = some a := by
  intro ts
  induction ts with
  | nil => intro axis _ _; exact ⟨axis, rfl⟩
  | cons t ts ih =>
    intro axis hlen h
    have ht := h t (List.mem_cons_self _ _)
    have hset : setRune axis (toX start end_ span W t) '|' =
        some (axis.set (toX start end_ span W t).toNat '|') := by
      unfold setRune
      rw [if_pos ⟨ht.1, by omega⟩]
    obtain ⟨a, ha⟩ := ih (axis.set (toX start end_ span W t).toNat '|') (by simpa using hlen)
      fun u hu => h u (List.mem_cons_of_mem _ hu)
    exact ⟨a, by simp [markTicks, hset, ha]⟩

theorem len_space : len " " = 1 := by decide

theorem Repeat_space_isSome (count : Int) (h0 : 0 ≤ count) (h1 : count ≤ (maxAlloc : Int)) :
    ∃ m, Repeat " " count = some m := by
  unfold Repeat
  rw [if_neg (by omega), len_space, if_neg (by omega)]
  exact ⟨_, rfl⟩

theorem writeRow_isSome (lib : Lib) (layout : String) (W : Int) (hW : W ≤ (maxAlloc : Int)) :
    ∀ (row : List slot) (pos : Int), 0 ≤ pos →
      (∀ s ∈ row, 0 ≤ s.x ∧ s.x ≤ W ∧ 0 ≤ s.w) →
      ∃ body, writeRow lib layout row pos = some body := by
  intro row
  induction row with
  | nil => intro pos _ _; exact ⟨"", rfl⟩
  | cons s rest ih =>
    intro pos hpos h
    have hs := h s (List.mem_cons_self _ _)
    obtain ⟨tail, htail⟩ := ih (s.x + s.w) (by omega)
      fun t ht => h t (List.mem_cons_of_mem _ ht)
    have hgap : ∃ gap, (if pos < s.x then Repeat " " (s.x - pos) else some "") = some gap := by
      split_ifs with hlt
      · exact Repeat_space_isSome _ (by omega) (by omega)
      · exact ⟨"", rfl⟩
    obtain ⟨gap, hgap⟩ := hgap
    exact ⟨_, by simp only [writeRow, hgap, htail, Option.some_bind]; rfl⟩

theorem renderRows_isSome (lib : Lib) (hlib : lib.Permutes) (layout margin : String) (W : Int)
    (hW : W ≤ (maxAlloc : Int)) :
    ∀ rows : List (List slot),
      (∀ row ∈ rows, ∀ s ∈ row, 0 ≤ s.x ∧ s.x ≤ W ∧ 0 ≤ s.w) →
      ∃ body, renderRows lib layout margin rows = some body := by
  intro rows
  induction rows with
  | nil => intro _; exact ⟨"", rfl⟩
  | cons row rest ih =>
    intro h
    obtain ⟨tail, htail⟩ := ih fun r hr => h r (List.mem_cons_of_mem _ hr)
    obtain ⟨body, hbody⟩ := writeRow_isSome lib layout W hW
      (lib.sortSlice slot row fun a b => decide (a.x < b.x)) 0 (le_refl _)
      fun s hs => h row (List.mem_cons_self _ _) s ((hlib slot row _).subset hs)
    exact ⟨_, by simp only [renderRows, renderRow, hbody, htail, Option.some_bind]; rfl⟩

/-- A render returns a text when the left margin is not negative, the margin and the two
buffers are within the largest allocation, and every tick label has at most `width + 1`
bytes. -/
theorem RenderTimeline_returns (lib : Lib) (hlib : lib.Permutes) (events : List Event)
    (start end_ : Int) (opt : Options)
    (hmargin : 0 ≤ opt.LeftMargin ∧ opt.LeftMargin ≤ (maxAlloc : Int))
    (halloc : (makeRunes ((withDefaults opt).Width + 1) ' ').isSome = true)
    (hlabels : ∀ t ∈ ticks start end_ (withDefaults opt).TickEvery,
      (len (lib.format (withDefaults opt).TimeFormat t) : Int) ≤ (withDefaults opt).Width + 1) :
    ∃ out, (RenderTimeline lib events start end_ opt).2 = some out := by
  by_cases hwin : start < end_
  swap
  · have hs : Sub end_ start ≤ 0 := (Sub_nonpos_iff end_ start).2 (by omega)
    exact ⟨"", by simp [RenderTimeline, hs]⟩
  obtain ⟨hW, _, _, hL⟩ := withDefaults_spec opt
  have hW46 := width_lt_of_alloc _ _ halloc
  have hs : ¬ Sub end_ start ≤ 0 := by
    rw [Sub_nonpos_iff]
    omega
  have hx : ∀ t, 0 ≤ toX start end_ (Sub end_ start) (withDefaults opt).Width t ∧
      toX start end_ (Sub end_ start) (withDefaults opt).Width t ≤ (withDefaults opt).Width :=
    fun t => toX_mem_range start end_ _ t hwin hW halloc
  obtain ⟨margin, hm⟩ := Repeat_space_isSome (withDefaults opt).LeftMargin
    (by rw [hL]; exact hmargin.1) (by rw [hL]; exact hmargin.2)
  have hmk : ∀ c, makeRunes ((withDefaults opt).Width + 1) c =
      some (List.replicate ((withDefaults opt).Width + 1).toNat c) := by
    intro c
    unfold makeRunes maxAlloc
    rw [if_neg (by omega), if_neg (by omega)]
  obtain ⟨tickLine, ht⟩ := writeTicks_isSome lib start end_ (Sub end_ start) (withDefaults opt)
    ((withDefaults opt).Width + 1).toNat (ticks start end_ (withDefaults opt).TickEvery)
    (List.replicate ((withDefaults opt).Width + 1).toNat ' ') (List.length_replicate _ _)
    (fun t ht => by have := hlabels t ht; omega)
  obtain ⟨axis, ha⟩ := markTicks_isSome start end_ (Sub end_ start) (withDefaults opt).Width
    ((withDefaults opt).Width + 1).toNat (ticks start end_ (withDefaults opt).TickEvery)
    (((List.replicate ((withDefaults opt).Width + 1).toNat '-').set (0 : Int).toNat '|').set
      (withDefaults opt).Width.toNat '|') (by simp)
    (fun t _ => ⟨(hx t).1, by have := (hx t).2; omega⟩)
  obtain ⟨body, hb⟩ := renderRows_isSome lib hlib (withDefaults opt).TimeFormat margin
    (withDefaults opt).Width (by unfold maxAlloc; omega) (rowsOf lib events start end_ opt)
    (by
      intro row hrow s hsr
      have hmem := mem_of_mem_packRows hrow hsr
      rcases List.mem_map.1 hmem with ⟨e, _, rfl⟩
      exact ⟨(hx e.At).1, (hx e.At).2, len_nonneg _⟩)
  have hset0 : setRune (List.replicate ((withDefaults opt).Width + 1).toNat '-') 0 '|' =
      some ((List.replicate ((withDefaults opt).Width + 1).toNat '-').set (0 : Int).toNat '|') := by
    unfold setRune
    rw [if_pos ⟨le_refl _, by rw [List.length_replicate]; omega⟩]
  have hsetW : setRune ((List.replicate ((withDefaults opt).Width + 1).toNat '-').set
      (0 : Int).toNat '|') (withDefaults opt).Width '|' =
      some (((List.replicate ((withDefaults opt).Width + 1).toNat '-').set (0 : Int).toNat '|').set
        (withDefaults opt).Width.toNat '|') := by
    unfold setRune
    rw [if_pos ⟨by omega, by rw [List.length_set, List.length_replicate]; omega⟩]
  refine ⟨margin ++ String.mk tickLine ++ "\n" ++ margin ++ String.mk axis ++ "\n\n" ++ body,
    ?_⟩
  unfold rowsOf at hb
  simp only [RenderTimeline, hs, if_false, renderBody, hm, tickLabelLine, axisLine, hmk, ht,
    hset0, hsetW, ha, hb, Option.some_bind]


/-- Writing a label that is longer than the line panics. -/
theorem writeTick_long_label (lib : Lib) (start end_ span : Int) (opt : Options)
    (buf : List Char) (t : Int) (h : buf.length < len (lib.format opt.TimeFormat t)) :
    writeTick lib start end_ span opt buf t = none := by
  unfold writeTick
  simp only
  have hneg := labelPos_neg (toX start end_ span opt.Width t) _ _ h
  cases hd : (lib.format opt.TimeFormat t).data with
  | nil =>
    have hl : len (lib.format opt.TimeFormat t) =
        String.utf8ByteSize.go (lib.format opt.TimeFormat t).data := rfl
    rw [hd] at hl
    simp only [String.utf8ByteSize.go] at hl
    omega
  | cons c cs =>
    simp only [rangeRunes, writeLabel]
    have : setRune buf (labelPos (toX start end_ span opt.Width t)
        (len (lib.format opt.TimeFormat t)) buf.length + ((0 : Nat) : Int)) c = none := by
      unfold setRune
      rw [if_neg (by omega)]
    rw [this]
    rfl

theorem writeTicks_long_label (lib : Lib) (start end_ span : Int) (opt : Options) :
    ∀ (ts : List Int) (buf : List Char),
      (∃ t ∈ ts, buf.length < len (lib.format opt.TimeFormat t)) →
      writeTicks lib start end_ span opt ts buf = none := by
  intro ts
  induction ts with
  | nil => intro buf h; simp at h
  | cons t ts ih =>
    intro buf h
    simp only [writeTicks]
    cases hw : writeTick lib start end_ span opt buf t with
    | none => rfl
    | some b1 =>
      have hlen := (writeLabel_spec _ _ _ _ hw).1
      obtain ⟨u, hu, hlong⟩ := h
      rcases List.mem_cons.1 hu with rfl | hu
      · rw [writeTick_long_label _ _ _ _ _ _ _ hlong] at hw
        exact absurd hw (by simp)
      · simp only [Option.some_bind]
        exact ih b1 ⟨u, hu, by omega⟩

/-- A render with `end` after `start` panics when a tick label has more than `width + 1`
bytes, however the other inputs are chosen. -/
theorem RenderTimeline_panics_of_long_label (lib : Lib) (events : List Event)
    (start end_ : Int) (opt : Options) (hwin : start < end_)
    (hlong : ∃ t ∈ ticks start end_ (withDefaults opt).TickEvery,
      (withDefaults opt).Width + 1 < (len (lib.format (withDefaults opt).TimeFormat t) : Int)) :
    (RenderTimeline lib events start end_ opt).2 = none := by
  have hs : ¬ Sub end_ start ≤ 0 := by
    rw [Sub_nonpos_iff]
    omega
  have htl : tickLabelLine lib start end_ (Sub end_ start) (withDefaults opt) = none := by
    unfold tickLabelLine
    cases hmk : makeRunes ((withDefaults opt).Width + 1) ' ' with
    | none => rfl
    | some buf =>
      obtain ⟨hn, _, rfl⟩ := makeRunes_eq_some hmk
      simp only [Option.some_bind]
      apply writeTicks_long_label
      obtain ⟨t, ht, hl⟩ := hlong
      refine ⟨t, ht, ?_⟩
      rw [List.length_replicate]
      omega
  simp only [RenderTimeline, hs, if_false, renderBody, htl]
  cases Repeat " " (withDefaults opt).LeftMargin <;> rfl

/-- A render with `end` after `start` panics when the left margin is negative. -/
theorem RenderTimeline_panics_of_negative_margin (lib : Lib) (events : List Event)
    (start end_ : Int) (opt : Options) (hwin : start < end_) (hneg : opt.LeftMargin < 0) :
    (RenderTimeline lib events start end_ opt).2 = none := by
  have hs : ¬ Sub end_ start ≤ 0 := by
    rw [Sub_nonpos_iff]
    omega
  have hL := (withDefaults_spec opt).2.2.2
  have hr : Repeat " " (withDefaults opt).LeftMargin = none := by
    unfold Repeat
    rw [if_pos (by omega)]
  simp only [RenderTimeline, hs, if_false, renderBody, hr]
  rfl

theorem rowsOf_eq (lib : Lib) (events : List Event) (start end_ : Int) (opt : Options) :
    rowsOf lib events start end_ opt = packRows (slotsOf lib events start end_ opt) := rfl

/-! ## The sample scenario -/

/-- C11 fails as stated: in the scenario the tick at 09:00 is at column 10, not at column
5. -/
theorem tick_0900_not_at_column_5 :
    (63885142800000000000 : Int) ∈ ticks sampleStart sampleEnd 3600000000000 ∧
    toX sampleStart sampleEnd (Sub sampleEnd sampleStart) 20 63885142800000000000 = 10 ∧
    toX sampleStart sampleEnd (Sub sampleEnd sampleStart) 20 63885142800000000000 ≠ 5 := by
  decide

/-- C11, as amended: in the scenario (08:00 to 10:00 on 2025-06-10, width 20, hourly ticks,
default time format, the event A at 08:30 with depth 0) the ticks are 08:00, 09:00 and 10:00,
the tick at 09:00 maps to column 10 and the tick at 10:00 to column 20, and the text has
exactly one body row, which holds the marker `^ A (08:30)` from column 5 on. -/
theorem sample_scenario :
    ticks sampleStart sampleEnd (withDefaults ⟨20, 0, 3600000000000, ""⟩).TickEvery =
      [63885139200000000000, 63885142800000000000, 63885146400000000000] ∧
    toX sampleStart sampleEnd (Sub sampleEnd sampleStart) 20 63885142800000000000 = 10 ∧
    toX sampleStart sampleEnd (Sub sampleEnd sampleStart) 20 63885146400000000000 = 20 ∧
    rowsOf stdLib sampleEvents sampleStart sampleEnd ⟨20, 0, 3600000000000, ""⟩ =
      [[⟨⟨"A", 63885141000000000000, 0⟩, 5, 11⟩]] ∧
    (RenderTimeline stdLib sampleEvents sampleStart sampleEnd
      ⟨20, 0, 3600000000000, ""⟩).2 =
      some "08:00   09:00   10:00\n|---------|---------|\n\n     ^ A (08:30)\n" := by
  decide

/-! ## Option defaults -/

theorem withDefaults_width (opt : Options) (h : opt.Width ≤ 0) :
    withDefaults { opt with Width := 100 } = withDefaults opt := by
  unfold withDefaults
  simp [h]

theorem withDefaults_tickEvery (opt : Options) (h : opt.TickEvery ≤ 0) :
    withDefaults { opt with TickEvery := Hour } = withDefaults opt := by
  unfold withDefaults Hour
  simp only [h, if_true]
  split_ifs <;> simp_all

theorem withDefaults_timeFormat (opt : Options) (h : opt.TimeFormat = "") :
    withDefaults { opt with TimeFormat := "15:04" } = withDefaults opt := by
  unfold withDefaults
  simp only [h, if_true]
  split_ifs <;> simp_all

/-- The render depends on the options through their defaulted values only. -/
theorem RenderTimeline_congr_defaults (lib : Lib) (events : List Event) (start end_ : Int)
    (opt opt' : Options) (h : withDefaults opt' = withDefaults opt) :
    RenderTimeline lib events start end_ opt' = RenderTimeline lib events start end_ opt := by
  unfold RenderTimeline
  rw [h]

/-- C14: a render with a width that is not positive returns what the render with width 100
returns, a render with a tick period that is not positive what the render with the period of
one hour returns, and a render with an empty time format what the render with the format
`15:04` returns, the other options held fixed. -/
theorem option_defaults (lib : Lib) (events : List Event) (start end_ : Int) (opt : Options) :
    (opt.Width ≤ 0 →
      RenderTimeline lib events start end_ opt =
        RenderTimeline lib events start end_ { opt with Width := 100 }) ∧
    (opt.TickEvery ≤ 0 →
      RenderTimeline lib events start end_ opt =
        RenderTimeline lib events start end_ { opt with TickEvery := Hour }) ∧
    (opt.TimeFormat = "" →
      RenderTimeline lib events start end_ opt =
        RenderTimeline lib events start end_ { opt with TimeFormat := "15:04" }) :=
  ⟨fun h => (RenderTimeline_congr_defaults _ _ _ _ _ _ (withDefaults_width opt h)).symm,
    fun h => (RenderTimeline_congr_defaults _ _ _ _ _ _ (withDefaults_tickEvery opt h)).symm,
    fun h => (RenderTimeline_congr_defaults _ _ _ _ _ _ (withDefaults_timeFormat opt h)).symm⟩


/-- A witness of C14: options in which nothing is set. -/
theorem option_defaults_witness :
    ((0 : Int) ≤ 0 →
      RenderTimeline stdLib sampleEvents sampleStart sampleEnd ⟨0, 0, 0, ""⟩ =
        RenderTimeline stdLib sampleEvents sampleStart sampleEnd ⟨100, 0, 0, ""⟩) ∧
    ((0 : Int) ≤ 0 →
      RenderTimeline stdLib sampleEvents sampleStart sampleEnd ⟨0, 0, 0, ""⟩ =
        RenderTimeline stdLib sampleEvents sampleStart sampleEnd ⟨0, 0, Hour, ""⟩) ∧
    (("" : String) = "" →
      RenderTimeline stdLib sampleEvents sampleStart sampleEnd ⟨0, 0, 0, ""⟩ =
        RenderTimeline stdLib sampleEvents sampleStart sampleEnd ⟨0, 0, 0, "15:04"⟩) :=
  option_defaults stdLib sampleEvents sampleStart sampleEnd ⟨0, 0, 0, ""⟩

/-! ## The event order -/

/-- The comparison of the events fails exactly when the second event is not after the first
in the order by depth, then time. -/
theorem eventLess_eq_false_iff (a b : Event) :
    eventLess b a = false ↔ a.Depth < b.Depth ∨ (a.Depth = b.Depth ∧ a.At ≤ b.At) := by
  unfold eventLess Before
  split_ifs with h
  · simp only [decide_eq_false_iff_not, not_lt]
    omega
  · simp only [decide_eq_false_iff_not, not_lt]
    push_neg at h
    omega

theorem eventLess_asymm (a b : Event) (h : eventLess a b = true) : eventLess b a = false := by
  rw [eventLess_eq_false_iff]
  have h2 : ¬ eventLess a b = false := by simp [h]
  rw [eventLess_eq_false_iff] at h2
  omega

theorem eventLess_negTrans (a b c : Event) (h1 : eventLess b a = false)
    (h2 : eventLess c b = false) : eventLess c a = false := by
  rw [eventLess_eq_false_iff] at *
  omega

/-- The library instance sorts. -/
theorem stdLib_sorts : stdLib.Sorts := by
  intro α l less hasym htrans
  have htot : IsTotal α (fun a b => less b a = false) := ⟨fun a b => by
    cases h : less b a with
    | false => exact Or.inl rfl
    | true => exact Or.inr (hasym b a h)⟩
  have htr : IsTrans α (fun a b => less b a = false) := ⟨fun a b c h1 h2 => htrans a b c h1 h2⟩
  exact List.sorted_insertionSort (fun a b => less b a = false) l

/-- The caller's slice after a call, under the guarantees of `sort.Slice`: a rearrangement
in the order by depth, then time. -/
theorem sortedEvents_spec (lib : Lib) (hperm : lib.Permutes) (hsorts : lib.Sorts)
    (events : List Event) :
    (sortedEvents lib events).Perm events ∧
    (sortedEvents lib events).Pairwise fun a b =>
      a.Depth < b.Depth ∨ (a.Depth = b.Depth ∧ a.At ≤ b.At) := by
  refine ⟨hperm Event events eventLess, ?_⟩
  have h := hsorts Event events eventLess eventLess_asymm eventLess_negTrans
  exact h.imp fun hab => (eventLess_eq_false_iff _ _).1 hab


/-- The library instance keeps a slice that is in order. -/
theorem stdLib_keepsSorted : stdLib.KeepsSorted := by
  intro α l less h
  exact List.Sorted.insertionSort_eq h

theorem RenderTimeline_fst (lib : Lib) (events : List Event) (start end_ : Int)
    (opt : Options) : (RenderTimeline lib events start end_ opt).1 = sortedEvents lib events := by
  unfold RenderTimeline
  simp only
  split_ifs <;> rfl

/-- C12 fails as stated: the event B at 09:00 before the event A at 08:30. After the call
the caller's slice holds A before B, also when the window is empty. -/
theorem caller_slice_reordered :
    (RenderTimeline stdLib [⟨"B", 63885142800000000000, 0⟩, ⟨"A", 63885141000000000000, 0⟩]
      sampleStart sampleEnd sampleOptions).1 =
      [⟨"A", 63885141000000000000, 0⟩, ⟨"B", 63885142800000000000, 0⟩] ∧
    (RenderTimeline stdLib [⟨"B", 63885142800000000000, 0⟩, ⟨"A", 63885141000000000000, 0⟩]
      sampleStart sampleEnd sampleOptions).1 ≠
      [⟨"B", 63885142800000000000, 0⟩, ⟨"A", 63885141000000000000, 0⟩] ∧
    (RenderTimeline stdLib [⟨"B", 63885142800000000000, 0⟩, ⟨"A", 63885141000000000000, 0⟩]
      sampleEnd sampleStart sampleOptions).1 ≠
      [⟨"B", 63885142800000000000, 0⟩, ⟨"A", 63885141000000000000, 0⟩] := by
  decide

/-- C12, as amended: the one effect of `RenderTimeline` on its arguments is that it sorts
the caller's event sequence in place. After the call, whatever the window, the sequence is a
rearrangement of the sequence before the call, in the order by depth, then time; it is the
sequence before the call when that one was in this order already and `sort.Slice` leaves
such a slice as it is. -/
theorem caller_slice_sorted (lib : Lib) (hperm : lib.Permutes) (hsorts : lib.Sorts)
    (events : List Event) (start end_ : Int) (opt : Options) :
    (RenderTimeline lib events start end_ opt).1 = lib.sortSlice Event events eventLess ∧
    ((RenderTimeline lib events start end_ opt).1).Perm events ∧
    ((RenderTimeline lib events start end_ opt).1).Pairwise
      (fun a b => a.Depth < b.Depth ∨ (a.Depth = b.Depth ∧ a.At ≤ b.At)) ∧
    (lib.KeepsSorted →
      (events.Pairwise fun a b => a.Depth < b.Depth ∨ (a.Depth = b.Depth ∧ a.At ≤ b.At)) →
      (RenderTimeline lib events start end_ opt).1 = events) := by
  rw [RenderTimeline_fst]
  obtain ⟨h1, h2⟩ := sortedEvents_spec lib hperm hsorts events
  refine ⟨rfl, h1, h2, fun hkeep hsorted => ?_⟩
  exact hkeep Event events eventLess (hsorted.imp fun hab => (eventLess_eq_false_iff _ _).2 hab)

/-- A witness of C12 as amended. -/
theorem caller_slice_sorted_witness :
    stdLib.Permutes ∧ stdLib.Sorts ∧
    (RenderTimeline stdLib [⟨"B", 63885142800000000000, 0⟩, ⟨"A", 63885141000000000000, 0⟩]
      sampleStart sampleEnd sampleOptions).1 =
      stdLib.sortSlice Event
        [⟨"B", 63885142800000000000, 0⟩, ⟨"A", 63885141000000000000, 0⟩] eventLess :=
  ⟨stdLib_permutes, stdLib_sorts,
    (caller_slice_sorted stdLib stdLib_permutes stdLib_sorts _ sampleStart sampleEnd
      sampleOptions).1⟩

/-! ## The rows hold the events -/

theorem place_ne_nil (rows : List (List slot)) (p : slot)
    (h : ∀ row ∈ rows, row ≠ []) : ∀ row ∈ place rows p, row ≠ [] := by
  intro row hrow
  rcases mem_place hrow with h1 | h1 | ⟨r, _, _, h1⟩
  · exact h row h1
  · subst h1
    simp
  · subst h1
    simp

theorem foldl_place_ne_nil (slots : List slot) (rows : List (List slot))
    (h : ∀ row ∈ rows, row ≠ []) : ∀ row ∈ slots.foldl place rows, row ≠ [] := by
  induction slots generalizing rows with
  | nil => simpa using h
  | cons p ps ih =>
    rw [List.foldl_cons]
    exact ih _ (place_ne_nil rows p h)

/-- No row of the packing loop is empty. -/
theorem packRows_ne_nil (slots : List slot) : ∀ row ∈ packRows slots, row ≠ [] :=
  foldl_place_ne_nil slots [] (by simp)

theorem length_le_length_flatten (rows : List (List slot)) (h : ∀ row ∈ rows, row ≠ []) :
    rows.length ≤ rows.flatten.length := by
  induction rows with
  | nil => simp
  | cons r rest ih =>
    have hr : r ≠ [] := h r (List.mem_cons_self _ _)
    have hlen : 0 < r.length := List.length_pos.2 hr
    have := ih fun row hrow => h row (List.mem_cons_of_mem _ hrow)
    simp only [List.flatten_cons, List.length_append, List.length_cons]
    omega

/-- The packing loop makes at most one row for each slot. -/
theorem length_packRows_le (slots : List slot) : (packRows slots).length ≤ slots.length := by
  have h := length_le_length_flatten _ (packRows_ne_nil slots)
  rw [(flatten_packRows_perm slots).length_eq] at h
  exact h

/-- C20: the packing rows of a render hold the events of the list, each in one row and once
(the rows put end to end are a rearrangement of the list), no row is empty, there are at most
as many rows as events, and no row at all for an empty list. -/
theorem packing_conserves_events (lib : Lib) (hlib : lib.Permutes) (events : List Event)
    (start end_ : Int) (opt : Options) :
    ((rowsOf lib events start end_ opt).flatten.map slot.e).Perm events ∧
    (∀ row ∈ rowsOf lib events start end_ opt, row ≠ []) ∧
    (rowsOf lib events start end_ opt).length ≤ events.length ∧
    (events = [] → rowsOf lib events start end_ opt = []) := by
  have hperm : ((rowsOf lib events start end_ opt).flatten.map slot.e).Perm events := by
    rw [rowsOf_eq]
    refine ((flatten_packRows_perm _).map slot.e).trans ?_
    unfold slotsOf
    rw [List.map_map]
    have hid : slot.e ∘ mkSlot lib start end_ (Sub end_ start) (withDefaults opt) = id := by
      funext e
      rfl
    rw [hid, List.map_id]
    exact hlib Event events eventLess
  have hlen : (rowsOf lib events start end_ opt).length ≤ events.length := by
    rw [rowsOf_eq]
    refine le_trans (length_packRows_le _) ?_
    unfold slotsOf
    rw [List.length_map]
    exact le_of_eq (hlib Event events eventLess).length_eq
  refine ⟨hperm, packRows_ne_nil _, hlen, fun h => ?_⟩
  subst h
  exact List.eq_nil_of_length_eq_zero (by simpa using hlen)

/-- A witness of C20: the sample render. -/
theorem packing_conserves_events_witness :
    stdLib.Permutes ∧
    ((rowsOf stdLib sampleEvents sampleStart sampleEnd sampleOptions).flatten.map
      slot.e).Perm sampleEvents ∧
    (∀ row ∈ rowsOf stdLib sampleEvents sampleStart sampleEnd sampleOptions, row ≠ []) ∧
    (rowsOf stdLib sampleEvents sampleStart sampleEnd sampleOptions).length ≤
      sampleEvents.length ∧
    (sampleEvents = [] → rowsOf stdLib sampleEvents sampleStart sampleEnd sampleOptions = []) :=
  ⟨stdLib_permutes,
    packing_conserves_events stdLib stdLib_permutes sampleEvents sampleStart sampleEnd
      sampleOptions⟩

/-! ## First fit -/

theorem not_fits_iff (x w : Int) (row : List slot) :
    fits x w row = false ↔ ∃ q ∈ row, x < q.x + q.w + 1 ∧ q.x < x + w + 1 := by
  have h := fits_iff x w row
  constructor
  · intro hf
    by_contra hne
    have : fits x w row = true := h.2 fun s hs hc => hne ⟨s, hs, hc⟩
    rw [hf] at this
    exact absurd this (by decide)
  · rintro ⟨q, hq, hc⟩
    cases hf : fits x w row with
    | false => rfl
    | true => exact absurd hc (h.1 hf q hq)

/-- One iteration of the packing loop: with `r` the index of the first row that fits the
slot, or the number of rows when none fits, the slot is appended to the row `r` (a new row in
the second case) and the other rows stay as they are. -/
theorem place_spec (rows : List (List slot)) (p : slot) :
    (findTarget p.x p.w rows).getD rows.length ≤ rows.length ∧
    (∀ row, rows[(findTarget p.x p.w rows).getD rows.length]? = some row →
      fits p.x p.w row = true) ∧
    (∀ r' : Nat, r' < (findTarget p.x p.w rows).getD rows.length →
      ∃ row, rows[r']? = some row ∧ fits p.x p.w row = false) ∧
    (∀ r' : Nat, (place rows p)[r']? =
      if r' = (findTarget p.x p.w rows).getD rows.length then
        some ((rows[r']?).getD [] ++ [p])
      else rows[r']?) := by
  induction rows with
  | nil =>
    refine ⟨le_refl _, fun row h => by simp at h, fun r' h => by simp [findTarget] at h, ?_⟩
    intro r'
    rw [place_nil]
    cases r' with
    | zero => simp [findTarget]
    | succ n => simp [findTarget]
  | cons row rest ih =>
    obtain ⟨ih1, ih2, ih3, ih4⟩ := ih
    rw [place_cons]
    by_cases hf : fits p.x p.w row = true
    · have hft : findTarget p.x p.w (row :: rest) = some 0 := by simp [findTarget, hf]
      rw [hft]
      simp only [Option.getD_some, if_pos hf]
      refine ⟨Nat.zero_le _, ?_, fun r' h => by omega, ?_⟩
      · intro row' h
        simp only [List.getElem?_cons_zero, Option.some.injEq] at h
        rw [← h]
        exact hf
      · intro r'
        cases r' with
        | zero => simp
        | succ n => simp
    · have hff : fits p.x p.w row = false := by simpa using hf
      have hft : (findTarget p.x p.w (row :: rest)).getD (row :: rest).length =
          (findTarget p.x p.w rest).getD rest.length + 1 := by
        simp only [findTarget, hff, Bool.false_eq_true, if_false, List.length_cons]
        cases findTarget p.x p.w rest <;> simp
      rw [hft, if_neg hf]
      refine ⟨by simpa using ih1, ?_, ?_, ?_⟩
      · intro row' h
        rw [List.getElem?_cons_succ] at h
        exact ih2 row' h
      · intro r' h
        cases r' with
        | zero => exact ⟨row, by simp, hff⟩
        | succ n =>
          obtain ⟨row', h1, h2⟩ := ih3 n (by omega)
          exact ⟨row', by simpa using h1, h2⟩
      · intro r'
        cases r' with
        | zero => simp
        | succ n =>
          simp only [List.getElem?_cons_succ, ih4 n, Nat.add_right_cancel_iff]

theorem packRows_append_singleton (pre : List slot) (p : slot) :
    packRows (pre ++ [p]) = place (packRows pre) p := by
  simp [packRows, List.foldl_append]

/-- The rows only grow: a row of `place rows p` begins with the row it was. -/
theorem place_prefix (rows : List (List slot)) (p : slot) (r' : Nat) (row : List slot)
    (h : rows[r']? = some row) : ∃ row', (place rows p)[r']? = some row' ∧ row <+: row' := by
  have h4 := (place_spec rows p).2.2.2 r'
  by_cases hr : r' = (findTarget p.x p.w rows).getD rows.length
  · rw [if_pos hr, h] at h4
    exact ⟨_, h4, by simp⟩
  · rw [if_neg hr, h] at h4
    exact ⟨row, h4, List.prefix_refl _⟩

theorem foldl_place_prefix (slots : List slot) :
    ∀ (rows : List (List slot)) (r' : Nat) (row : List slot), rows[r']? = some row →
      ∃ row', (slots.foldl place rows)[r']? = some row' ∧ row <+: row' := by
  induction slots with
  | nil => intro rows r' row h; exact ⟨row, h, List.prefix_refl _⟩
  | cons p ps ih =>
    intro rows r' row h
    obtain ⟨row1, h1, hp1⟩ := place_prefix rows p r' row h
    obtain ⟨row2, h2, hp2⟩ := ih (place rows p) r' row1 h1
    exact ⟨row2, h2, hp1.trans hp2⟩

/-- The rows after a part of the slots begin the rows after all of them. -/
theorem packRows_prefix (pre post : List slot) (r' : Nat) (row : List slot)
    (h : (packRows pre)[r']? = some row) :
    ∃ row', (packRows (pre ++ post))[r']? = some row' ∧ row <+: row' := by
  have := foldl_place_prefix post (packRows pre) r' row h
  simpa [packRows, List.foldl_append] using this

/-- C16: the packing loop is first fit. When the slot `p` of an event is taken, after the
slots `pre` of the events before it in the sorted order, it is appended to the row of index
`r`, the lowest index of a row none of whose slots collides with it, or the number of rows
when there is none, which starts a new row; every row of a lower index holds a slot, placed
earlier, that collides with `p`; the other rows stay as they are, and in the end the row `r`
holds `p` and every row begins with what it held before. -/
theorem packing_is_first_fit (lib : Lib) (events : List Event) (start end_ : Int)
    (opt : Options) (pre post : List slot) (p : slot)
    (hsplit : slotsOf lib events start end_ opt = pre ++ p :: post) :
    (findTarget p.x p.w (packRows pre)).getD (packRows pre).length ≤ (packRows pre).length ∧
    (∀ row, (packRows pre)[(findTarget p.x p.w (packRows pre)).getD (packRows pre).length]? =
        some row →
      ∀ q ∈ row, ¬ (p.x < q.x + q.w + 1 ∧ q.x < p.x + p.w + 1)) ∧
    (∀ r' : Nat, r' < (findTarget p.x p.w (packRows pre)).getD (packRows pre).length →
      ∃ row, (packRows pre)[r']? = some row ∧
        ∃ q ∈ row, p.x < q.x + q.w + 1 ∧ q.x < p.x + p.w + 1) ∧
    (∀ r' : Nat, (packRows (pre ++ [p]))[r']? =
      if r' = (findTarget p.x p.w (packRows pre)).getD (packRows pre).length then
        some (((packRows pre)[r']?).getD [] ++ [p])
      else (packRows pre)[r']?) ∧
    (∃ row, (rowsOf lib events start end_ opt)[(findTarget p.x p.w (packRows pre)).getD
        (packRows pre).length]? = some row ∧ p ∈ row) ∧
    (∀ (r' : Nat) (row : List slot), (packRows pre)[r']? = some row →
      ∃ row', (rowsOf lib events start end_ opt)[r']? = some row' ∧ row <+: row') := by
  obtain ⟨h1, h2, h3, h4⟩ := place_spec (packRows pre) p
  have hrows : rowsOf lib events start end_ opt = packRows ((pre ++ [p]) ++ post) := by
    rw [rowsOf_eq, hsplit]
    simp
  refine ⟨h1, ?_, ?_, ?_, ?_, ?_⟩
  · intro row hrow
    exact (fits_iff _ _ _).1 (h2 row hrow)
  · intro r' hr'
    obtain ⟨row, hrow, hf⟩ := h3 r' hr'
    exact ⟨row, hrow, (not_fits_iff _ _ _).1 hf⟩
  · intro r'
    rw [packRows_append_singleton]
    exact h4 r'
  · have h5 := h4 ((findTarget p.x p.w (packRows pre)).getD (packRows pre).length)
    rw [if_pos rfl, ← packRows_append_singleton] at h5
    obtain ⟨row', hrow', hpre⟩ := packRows_prefix (pre ++ [p]) post _ _ h5
    rw [hrows]
    exact ⟨row', hrow', hpre.subset (by simp)⟩
  · intro r' row hrow
    rw [hrows, List.append_assoc]
    exact packRows_prefix pre ([p] ++ post) r' row hrow


theorem packing_is_first_fit_witness :
    slotsOf stdLib threeEvents sampleStart sampleEnd wideOptions = [slotA] ++ slotC :: [slotB] ∧
    (findTarget slotC.x slotC.w (packRows [slotA])).getD (packRows [slotA]).length = 1 ∧
    (∃ q ∈ [slotA], slotC.x < q.x + q.w + 1 ∧ q.x < slotC.x + slotC.w + 1) ∧
    rowsOf stdLib threeEvents sampleStart sampleEnd wideOptions = [[slotA, slotB], [slotC]] ∧
    ((findTarget slotC.x slotC.w (packRows [slotA])).getD (packRows [slotA]).length ≤
        (packRows [slotA]).length ∧
      (∀ row, (packRows [slotA])[(findTarget slotC.x slotC.w (packRows [slotA])).getD
          (packRows [slotA]).length]? = some row →
        ∀ q ∈ row, ¬ (slotC.x < q.x + q.w + 1 ∧ q.x < slotC.x + slotC.w + 1)) ∧
      (∀ r' : Nat, r' < (findTarget slotC.x slotC.w (packRows [slotA])).getD
          (packRows [slotA]).length →
        ∃ row, (packRows [slotA])[r']? = some row ∧
          ∃ q ∈ row, slotC.x < q.x + q.w + 1 ∧ q.x < slotC.x + slotC.w + 1) ∧
      (∀ r' : Nat, (packRows ([slotA] ++ [slotC]))[r']? =
        if r' = (findTarget slotC.x slotC.w (packRows [slotA])).getD (packRows [slotA]).length
        then some (((packRows [slotA])[r']?).getD [] ++ [slotC])
        else (packRows [slotA])[r']?) ∧
      (∃ row, (rowsOf stdLib threeEvents sampleStart sampleEnd wideOptions)[
          (findTarget slotC.x slotC.w (packRows [slotA])).getD (packRows [slotA]).length]? =
            some row ∧ slotC ∈ row) ∧
      (∀ (r' : Nat) (row : List slot), (packRows [slotA])[r']? = some row →
        ∃ row', (rowsOf stdLib threeEvents sampleStart sampleEnd wideOptions)[r']? = some row' ∧
          row <+: row')) :=
  ⟨by decide, by decide, by decide, by decide,
    packing_is_first_fit stdLib threeEvents sampleStart sampleEnd wideOptions [slotA] [slotB]
      slotC (by decide)⟩

/-! ## The tick-label line: the last write wins -/

theorem utf8Size_of_ascii (c : Char) (h : c.toNat < 128) : c.utf8Size = 1 := by
  unfold Char.utf8Size
  have h1 : c.val ≤ UInt32.ofNatCore 127 (by decide) := by
    show c.val.toNat ≤ 127
    have : c.val.toNat = c.toNat := rfl
    omega
  simp only
  rw [if_pos h1]

theorem utf8ByteSize_go_ascii (cs : List Char) (h : ∀ c ∈ cs, c.toNat < 128) :
    String.utf8ByteSize.go cs = cs.length := by
  induction cs with
  | nil => rfl
  | cons c cs ih =>
    simp only [String.utf8ByteSize.go, List.length_cons]
    rw [ih fun d hd => h d (List.mem_cons_of_mem _ hd),
      utf8Size_of_ascii c (h c (List.mem_cons_self _ _))]

theorem len_ascii (s : String) (h : ∀ c ∈ s.data, c.toNat < 128) : len s = s.data.length :=
  utf8ByteSize_go_ascii s.data h

/-- Writing an ASCII label from the position `pos + k` on: the line afterwards. -/
theorem writeLabel_ascii (pos : Int) :
    ∀ (cs : List Char) (k : Nat) (buf b : List Char), (∀ c ∈ cs, c.toNat < 128) →
      writeLabel pos (rangeRunes k cs) buf = some b →
      ∀ i : Nat, b[i]? =
        if pos + (k : Int) ≤ (i : Int) ∧ (i : Int) < pos + (k : Int) + (cs.length : Int) then
          cs[((i : Int) - (pos + (k : Int))).toNat]?
        else buf[i]? := by
  intro cs
  induction cs with
  | nil =>
    intro k buf b _ h i
    simp only [rangeRunes, writeLabel, Option.some.injEq] at h
    subst h
    rw [if_neg (by simp)]
  | cons c cs ih =>
    intro k buf b hascii h i
    have hc := utf8Size_of_ascii c (hascii c (List.mem_cons_self _ _))
    simp only [rangeRunes, writeLabel, Option.bind_eq_some, hc] at h
    obtain ⟨b1, h1, h2⟩ := h
    obtain ⟨hp0, hp1, rfl⟩ := setRune_eq_some h1
    have hi := ih (k + 1) _ b (fun d hd => hascii d (List.mem_cons_of_mem _ hd)) h2 i
    rw [hi]
    simp only [List.length_cons, Nat.cast_add, Nat.cast_one]
    by_cases hlate : pos + ((k : Int) + 1) ≤ (i : Int) ∧
        (i : Int) < pos + ((k : Int) + 1) + (cs.length : Int)
    · rw [if_pos hlate, if_pos ⟨by omega, by omega⟩]
      have e : ((i : Int) - (pos + (k : Int))).toNat =
          ((i : Int) - (pos + ((k : Int) + 1))).toNat + 1 := by omega
      rw [e, List.getElem?_cons_succ]
    · rw [if_neg hlate, List.getElem?_set]
      by_cases hik : (pos + (k : Int)).toNat = i
      · rw [if_pos hik, if_pos (by omega), if_pos ⟨by omega, by omega⟩]
        have e : ((i : Int) - (pos + (k : Int))).toNat = 0 := by omega
        rw [e, List.getElem?_cons_zero]
      · rw [if_neg hik, if_neg (by omega)]

/-- The body of the tick-label loop for a tick with an ASCII label: the line afterwards. -/
theorem writeTick_ascii (lib : Lib) (start end_ : Int) (opt : Options) (buf b : List Char)
    (t : Int) (hlen : buf.length = (opt.Width + 1).toNat)
    (hascii : ∀ c ∈ (lib.format opt.TimeFormat t).data, c.toNat < 128)
    (h : writeTick lib start end_ (Sub end_ start) opt buf t = some b) :
    b.length = buf.length ∧
    ∀ i : Nat, b[i]? =
      if (tickLabelPos lib start end_ opt t ≤ (i : Int) ∧
          (i : Int) < tickLabelPos lib start end_ opt t +
            (len (lib.format opt.TimeFormat t) : Int)) then
        (lib.format opt.TimeFormat t).data[((i : Int) - tickLabelPos lib start end_ opt t).toNat]?
      else buf[i]? := by
  unfold writeTick at h
  simp only at h
  refine ⟨(writeLabel_spec _ _ _ _ h).1, fun i => ?_⟩
  have hw := writeLabel_ascii _ _ 0 buf b hascii h i
  rw [hlen] at hw
  simp only [Nat.cast_zero, add_zero] at hw
  rw [len_ascii _ hascii]
  rw [len_ascii _ hascii] at hw
  unfold tickLabelPos
  rw [len_ascii _ hascii]
  exact hw

/-- The tick-label loop over ticks with ASCII labels: a position holds the rune of the last
tick whose write range holds it, or what it held before the loop. -/
theorem writeTicks_ascii (lib : Lib) (start end_ : Int) (opt : Options) :
    ∀ (ts : List Int) (buf b : List Char), buf.length = (opt.Width + 1).toNat →
      (∀ t ∈ ts, ∀ c ∈ (lib.format opt.TimeFormat t).data, c.toNat < 128) →
      writeTicks lib start end_ (Sub end_ start) opt ts buf = some b →
      ∀ i : Nat,
        (∀ (pre post : List Int) (t : Int), ts = pre ++ t :: post →
          coversTick lib start end_ opt t i →
          (∀ u ∈ post, ¬ coversTick lib start end_ opt u i) →
          b[i]? = (lib.format opt.TimeFormat t).data[
            ((i : Int) - tickLabelPos lib start end_ opt t).toNat]?) ∧
        ((∀ t ∈ ts, ¬ coversTick lib start end_ opt t i) → b[i]? = buf[i]?) := by
  intro ts
  induction ts with
  | nil =>
    intro buf b _ _ h i
    simp only [writeTicks, Option.some.injEq] at h
    subst h
    exact ⟨fun pre post t hsplit => by simp at hsplit, fun _ => rfl⟩
  | cons t ts ih =>
    intro buf b hlen hascii h i
    simp only [writeTicks, Option.bind_eq_some] at h
    obtain ⟨b1, h1, h2⟩ := h
    obtain ⟨hlen1, hb1⟩ := writeTick_ascii lib start end_ opt buf b1 t hlen
      (hascii t (List.mem_cons_self _ _)) h1
    obtain ⟨ih1, ih2⟩ := ih b1 b (hlen1.trans hlen)
      (fun u hu => hascii u (List.mem_cons_of_mem _ hu)) h2 i
    constructor
    · intro pre post u hsplit hcov hlast
      cases pre with
      | nil =>
        simp only [List.nil_append, List.cons.injEq] at hsplit
        obtain ⟨rfl, rfl⟩ := hsplit
        rw [ih2 hlast, hb1 i]
        exact if_pos hcov
      | cons v pre' =>
        simp only [List.cons_append, List.cons.injEq] at hsplit
        exact ih1 pre' post u hsplit.2 hcov hlast
    · intro hnone
      rw [ih2 fun u hu => hnone u (List.mem_cons_of_mem _ hu), hb1 i]
      exact if_neg (hnone t (List.mem_cons_self _ _))

/-- C18: in a render with `end` after `start` that returns a text and whose tick labels are
all ASCII, the tick-label line, which follows the margin, has `Width + 1` characters, and at
every position `i` from 0 to `Width` it holds the character of the label of the latest tick
whose write range `[p, p + len)` holds `i`, taken at the offset `i - p` of that label, or a
space when the write range of no tick holds `i`: the last write wins. -/
theorem tick_label_line_last_write_wins (lib : Lib) (events : List Event) (start end_ : Int)
    (opt : Options) (out : String) (hwin : start < end_)
    (hascii : ∀ t ∈ ticks start end_ (withDefaults opt).TickEvery,
      ∀ c ∈ (lib.format (withDefaults opt).TimeFormat t).data, c.toNat < 128)
    (hout : (RenderTimeline lib events start end_ opt).2 = some out) :
    ∃ (margin body : String) (tickLine axis : List Char),
      out = margin ++ String.mk tickLine ++ "\n" ++ margin ++ String.mk axis ++ "\n\n" ++ body ∧
      margin.data = List.replicate opt.LeftMargin.toNat ' ' ∧
      tickLine.length = (withDefaults opt).Width.toNat + 1 ∧
      (ticks start end_ (withDefaults opt).TickEvery).Sorted (· < ·) ∧
      ∀ i : Nat, i ≤ (withDefaults opt).Width.toNat →
        (∀ t ∈ ticks start end_ (withDefaults opt).TickEvery,
          coversTick lib start end_ (withDefaults opt) t i →
          (∀ u ∈ ticks start end_ (withDefaults opt).TickEvery, t < u →
            ¬ coversTick lib start end_ (withDefaults opt) u i) →
          ((i : Int) - tickLabelPos lib start end_ (withDefaults opt) t).toNat <
            (lib.format (withDefaults opt).TimeFormat t).data.length ∧
          tickLine[i]? = (lib.format (withDefaults opt).TimeFormat t).data[
            ((i : Int) - tickLabelPos lib start end_ (withDefaults opt) t).toNat]?) ∧
        ((∀ t ∈ ticks start end_ (withDefaults opt).TickEvery,
          ¬ coversTick lib start end_ (withDefaults opt) t i) → tickLine[i]? = some ' ') := by
  obtain ⟨margin, body, tickLine, axis, hm, ht, _, _, hout⟩ :=
    RenderTimeline_eq_some lib events start end_ opt out hwin hout
  obtain ⟨hW, hT, _, hL⟩ := withDefaults_spec opt
  obtain ⟨htl, _⟩ := tickLabelLine_spec _ _ _ _ _ _ ht
  have hmd := (Repeat_space_eq_some hm).2
  rw [hL] at hmd
  have hsorted := (ticks_spec start end_ _ hT).2.1
  refine ⟨margin, body, tickLine, axis, hout, hmd, by omega, hsorted, fun i hi => ?_⟩
  simp only [tickLabelLine, Option.bind_eq_some] at ht
  obtain ⟨b0, h0, h1⟩ := ht
  obtain ⟨_, _, rfl⟩ := makeRunes_eq_some h0
  obtain ⟨hsplit, hnone⟩ := writeTicks_ascii lib start end_ (withDefaults opt) _ _ _
    (List.length_replicate _ _) hascii h1 i
  constructor
  · intro t htm hcov hlast
    obtain ⟨pre, post, hpp⟩ := List.append_of_mem htm
    have hpost : ∀ u ∈ post, ¬ coversTick lib start end_ (withDefaults opt) u i := by
      intro u hu
      have hs := hsorted
      rw [hpp] at hs
      have hlt : t < u := List.rel_of_sorted_cons
        (List.Pairwise.sublist (List.sublist_append_right pre (t :: post)) hs) u hu
      exact hlast u (by rw [hpp]; simp [hu]) hlt
    refine ⟨?_, hsplit pre post t hpp hcov hpost⟩
    have hl := len_ascii _ (hascii t htm)
    obtain ⟨hc1, hc2⟩ := hcov
    rw [hl] at hc2
    omega
  · intro hno
    rw [hnone hno, List.getElem?_replicate, if_pos (by omega)]

theorem tick_label_line_last_write_wins_witness :
    sampleStart < sampleEnd ∧
    (∀ t ∈ ticks sampleStart sampleEnd (withDefaults sampleOptions).TickEvery,
      ∀ c ∈ (stdLib.format (withDefaults sampleOptions).TimeFormat t).data, c.toNat < 128) ∧
    ∃ (margin body : String) (tickLine axis : List Char),
      sampleText =
        margin ++ String.mk tickLine ++ "\n" ++ margin ++ String.mk axis ++ "\n\n" ++ body ∧
      margin.data = List.replicate sampleOptions.LeftMargin.toNat ' ' ∧
      tickLine.length = (withDefaults sampleOptions).Width.toNat + 1 ∧
      (ticks sampleStart sampleEnd (withDefaults sampleOptions).TickEvery).Sorted (· < ·) ∧
      ∀ i : Nat, i ≤ (withDefaults sampleOptions).Width.toNat →
        (∀ t ∈ ticks sampleStart sampleEnd (withDefaults sampleOptions).TickEvery,
          coversTick stdLib sampleStart sampleEnd (withDefaults sampleOptions) t i →
          (∀ u ∈ ticks sampleStart sampleEnd (withDefaults sampleOptions).TickEvery, t < u →
            ¬ coversTick stdLib sampleStart sampleEnd (withDefaults sampleOptions) u i) →
          ((i : Int) - tickLabelPos stdLib sampleStart sampleEnd (withDefaults sampleOptions)
              t).toNat <
            (stdLib.format (withDefaults sampleOptions).TimeFormat t).data.length ∧
          tickLine[i]? = (stdLib.format (withDefaults sampleOptions).TimeFormat t).data[
            ((i : Int) - tickLabelPos stdLib sampleStart sampleEnd (withDefaults sampleOptions)
              t).toNat]?) ∧
        ((∀ t ∈ ticks sampleStart sampleEnd (withDefaults sampleOptions).TickEvery,
          ¬ coversTick stdLib sampleStart sampleEnd (withDefaults sampleOptions) t i) →
          tickLine[i]? = some ' ') :=
  ⟨by decide, by decide,
    tick_label_line_last_write_wins stdLib sampleEvents sampleStart sampleEnd sampleOptions
      sampleText (by decide) (by decide) (by decide)⟩

/-! ## The body lines -/

theorem utf8ByteSize_go_append (a b : List Char) :
    String.utf8ByteSize.go (a ++ b) = String.utf8ByteSize.go a + String.utf8ByteSize.go b := by
  induction a with
  | nil => simp [String.utf8ByteSize.go]
  | cons c cs ih =>
    rw [List.cons_append]
    simp only [String.utf8ByteSize.go]
    rw [ih]
    omega

theorem len_append (a b : String) : len (a ++ b) = len a + len b := by
  show String.utf8ByteSize.go (a ++ b).data = _
  rw [String.data_append]
  exact utf8ByteSize_go_append a.data b.data

theorem len_spaces (n : Nat) : len (String.mk (List.replicate n ' ')) = n := by
  show String.utf8ByteSize.go (List.replicate n ' ') = n
  induction n with
  | zero => rfl
  | succ n ih =>
    rw [List.replicate_succ]
    simp only [String.utf8ByteSize.go, ih]
    rfl

theorem Repeat_space_eq_mk {count : Int} {s : String} (h : Repeat " " count = some s) :
    s = String.mk (List.replicate count.toNat ' ') :=
  String.ext (Repeat_space_eq_some h).2

theorem markerText_eq (lib : Lib) (layout : String) (s : slot) (g tail : String) :
    g ++ "^ " ++ s.e.Label ++ " (" ++ lib.format layout s.e.At ++ ")" ++ tail =
      g ++ markerText lib layout s.e ++ tail := by
  unfold markerText
  simp only [String.append_assoc]

/-- The text written by the loop over the slots of a row whose columns are in ascending
order, each slot beginning at or after the end of the slot before it. -/
theorem writeRow_shape (lib : Lib) (layout : String) :
    ∀ (l : List slot) (pos : Int) (text : String),
      (∀ s ∈ l, pos ≤ s.x) → l.Pairwise (fun a b => a.x + a.w ≤ b.x) →
      (∀ s ∈ l, (len (markerText lib layout s.e) : Int) = s.w) →
      writeRow lib layout l pos = some text →
      (l = [] → text = "") ∧
      (∀ q, l.getLast? = some q → pos + (len text : Int) = q.x + q.w) ∧
      ∀ (pre : List slot) (s : slot) (post : List slot), l = pre ++ s :: post →
        ∃ (before after : String) (gap : Nat),
          text = before ++ String.mk (List.replicate gap ' ') ++ markerText lib layout s.e ++
            after ∧
          pos + (len before : Int) + (gap : Int) = s.x ∧
          (pre = [] → before = "") ∧
          (∀ q, pre.getLast? = some q → pos + (len before : Int) = q.x + q.w) ∧
          (post = [] → after = "") := by
  intro l
  induction l with
  | nil =>
    intro pos text _ _ _ h
    simp only [writeRow, Option.some.injEq] at h
    subst h
    refine ⟨fun _ => rfl, fun q hq => by simp at hq, fun pre s post hsplit => ?_⟩
    simp at hsplit
  | cons s rest ih =>
    intro pos text hpos hpw hw h
    simp only [writeRow, Option.bind_eq_some, Option.some.injEq] at h
    obtain ⟨g, hg, tail, htail, rfl⟩ := h
    have hsx := hpos s (List.mem_cons_self _ _)
    have hsw := hw s (List.mem_cons_self _ _)
    have hg' : g = String.mk (List.replicate (s.x - pos).toNat ' ') := by
      split_ifs at hg with hlt
      · exact Repeat_space_eq_mk hg
      · have h0 : (s.x - pos).toNat = 0 := by omega
        rw [h0]
        exact (Option.some.inj hg).symm
    have hlg : (len g : Int) = s.x - pos := by
      rw [hg', len_spaces]
      omega
    rw [List.pairwise_cons] at hpw
    obtain ⟨ih0, ih1, ih2⟩ := ih (s.x + s.w) tail hpw.1 hpw.2
      (fun t ht => hw t (List.mem_cons_of_mem _ ht)) htail
    rw [markerText_eq]
    have hlen : (len (g ++ markerText lib layout s.e ++ tail) : Int) =
        s.x - pos + s.w + (len tail : Int) := by
      rw [len_append, len_append]
      push_cast
      rw [hlg, hsw]
    refine ⟨fun hnil => by simp at hnil, ?_, ?_⟩
    · intro q hq
      rw [hlen]
      cases rest with
      | nil =>
        simp only [List.getLast?_singleton, Option.some.injEq] at hq
        subst hq
        rw [ih0 rfl]
        have : len "" = 0 := rfl
        rw [this]
        push_cast
        omega
      | cons t rest' =>
        rw [List.getLast?_cons_cons] at hq
        have := ih1 q hq
        omega
    · intro pre u post hsplit
      cases pre with
      | nil =>
        simp only [List.nil_append, List.cons.injEq] at hsplit
        obtain ⟨rfl, rfl⟩ := hsplit
        refine ⟨"", tail, (s.x - pos).toNat, ?_, ?_, fun _ => rfl, fun q hq => by simp at hq,
          fun hnil => ih0 hnil⟩
        · rw [String.empty_append, ← hg']
        · have : len "" = 0 := rfl
          rw [this]
          push_cast
          omega
      | cons v pre' =>
        simp only [List.cons_append, List.cons.injEq] at hsplit
        obtain ⟨rfl, hrest⟩ := hsplit
        obtain ⟨before, after, gap, htext, hoff, hb0, hb1, ha⟩ := ih2 pre' u post hrest
        have hlb : (len (g ++ markerText lib layout s.e ++ before) : Int) =
            s.x - pos + s.w + (len before : Int) := by
          rw [len_append, len_append]
          push_cast
          rw [hlg, hsw]
        refine ⟨g ++ markerText lib layout s.e ++ before, after, gap, ?_, ?_,
          fun hnil => by simp at hnil, ?_, ha⟩
        · rw [htext]
          simp only [String.append_assoc]
        · rw [hlb]
          omega
        · intro q hq
          rw [hlb]
          cases pre' with
          | nil =>
            simp only [List.getLast?_singleton, Option.some.injEq] at hq
            subst hq
            rw [hb0 rfl]
            have : len "" = 0 := rfl
            rw [this]
            push_cast
            omega
          | cons t pre'' =>
            rw [List.getLast?_cons_cons] at hq
            have := hb1 q hq
            omega


theorem join_cons (line : String) (lines : List String) :
    String.join (line :: lines) = line ++ String.join lines := by
  apply String.ext
  unfold String.join
  rw [List.foldl_cons, foldl_append_data, String.data_append, String.data_append,
    foldl_append_data]
  simp

/-- The body is its lines put end to end, one line for each row. -/
theorem renderRows_line_of_row (lib : Lib) (layout margin : String) :
    ∀ (rows : List (List slot)) (body : String), renderRows lib layout margin rows = some body →
      ∃ lines : List String, body = String.join lines ∧
        List.Forall₂ (fun row line => renderRow lib layout margin row = some line) rows lines := by
  intro rows
  induction rows with
  | nil =>
    intro body h
    simp only [renderRows, Option.some.injEq] at h
    subst h
    exact ⟨[], rfl, List.Forall₂.nil⟩
  | cons row rest ih =>
    intro body h
    simp only [renderRows, Option.bind_eq_some, Option.some.injEq] at h
    obtain ⟨line, hline, tail, htail, rfl⟩ := h
    obtain ⟨lines, rfl, hall⟩ := ih tail htail
    exact ⟨line :: lines, (join_cons line lines).symm, List.Forall₂.cons hline hall⟩

theorem forall2_imp_of_mem {α β : Type} {R S : α → β → Prop} :
    ∀ {l : List α} {m : List β}, (∀ a ∈ l, ∀ b, R a b → S a b) → List.Forall₂ R l m →
      List.Forall₂ S l m := by
  intro l m h hall
  induction hall with
  | nil => exact List.Forall₂.nil
  | cons hab _ ih =>
    exact List.Forall₂.cons (h _ (List.mem_cons_self _ _) _ hab)
      (ih fun a ha b hb => h a (List.mem_cons_of_mem _ ha) b hb)

/-- C17: in a render with `end` after `start` that returns a text, the left margin is not
negative and the body is made of one line for each packing row. A line is the margin, that
is `LeftMargin` spaces, then a text, then a newline; the text holds the markers of the row in
strictly ascending order of their columns, each marker beginning after the end of the one
before it. The text of every marker `^ label (time)` begins at the byte offset `x`, its
column, of the text: what stands before it is what was written up to the end of the marker
before it (nothing for the first marker) followed by spaces only. The text ends with the
last marker: its length in bytes is `x + w` of the last marker. -/
theorem body_line_shape (lib : Lib) (hperm : lib.Permutes) (hsorts : lib.Sorts)
    (events : List Event) (start end_ : Int) (opt : Options) (out : String)
    (hwin : start < end_) (hout : (RenderTimeline lib events start end_ opt).2 = some out) :
    ∃ (margin body : String) (tickLine axis : List Char) (lines : List String),
      out = margin ++ String.mk tickLine ++ "\n" ++ margin ++ String.mk axis ++ "\n\n" ++ body ∧
      0 ≤ opt.LeftMargin ∧ margin = String.mk (List.replicate opt.LeftMargin.toNat ' ') ∧
      body = String.join lines ∧
      List.Forall₂ (fun row line =>
        ∃ (markers : List slot) (text : String),
          line = margin ++ text ++ "\n" ∧
          markers.Perm row ∧ markers ≠ [] ∧
          markers.Pairwise (fun a b => a.x + a.w < b.x) ∧
          (∀ s ∈ markers,
            s.x = toX start end_ (Sub end_ start) (withDefaults opt).Width s.e.At ∧
            s.w = (len (markerText lib (withDefaults opt).TimeFormat s.e) : Int)) ∧
          (∀ q, markers.getLast? = some q → (len text : Int) = q.x + q.w) ∧
          ∀ (pre : List slot) (s : slot) (post : List slot), markers = pre ++ s :: post →
            ∃ (before after : String) (gap : Nat),
              text = before ++ String.mk (List.replicate gap ' ') ++
                markerText lib (withDefaults opt).TimeFormat s.e ++ after ∧
              (len before : Int) + (gap : Int) = s.x ∧
              (pre = [] → before = "") ∧
              (∀ q, pre.getLast? = some q → (len before : Int) = q.x + q.w) ∧
              (post = [] → after = ""))
        (rowsOf lib events start end_ opt) lines := by
  obtain ⟨margin, body, tickLine, axis, hm, ht, _, hb, hout⟩ :=
    RenderTimeline_eq_some lib events start end_ opt out hwin hout
  obtain ⟨hW, _, _, hL⟩ := withDefaults_spec opt
  have halloc : (makeRunes ((withDefaults opt).Width + 1) ' ').isSome = true := by
    simp only [tickLabelLine, Option.bind_eq_some] at ht
    obtain ⟨b0, h0, _⟩ := ht
    rw [h0]
    rfl
  have hm0 := (Repeat_space_eq_some hm).1
  have hmk := Repeat_space_eq_mk hm
  rw [hL] at hm0 hmk
  obtain ⟨lines, hbody, hall⟩ := renderRows_line_of_row lib _ margin _ body hb
  refine ⟨margin, body, tickLine, axis, lines, hout, hm0, hmk, hbody, ?_⟩
  refine forall2_imp_of_mem ?_ hall
  intro row hrow line hline
  simp only [renderRow, Option.bind_eq_some, Option.some.injEq] at hline
  obtain ⟨text, htext, rfl⟩ := hline
  have hp := hperm slot row fun a b => decide (a.x < b.x)
  have hslot : ∀ s ∈ lib.sortSlice slot row (fun a b => decide (a.x < b.x)),
      s.x = toX start end_ (Sub end_ start) (withDefaults opt).Width s.e.At ∧
      s.w = (len (markerText lib (withDefaults opt).TimeFormat s.e) : Int) := by
    intro s hs
    have hmem := mem_of_mem_packRows hrow (hp.subset hs)
    obtain ⟨e, _, rfl⟩ := List.mem_map.1 hmem
    exact ⟨rfl, rfl⟩
  have hx0 : ∀ s ∈ lib.sortSlice slot row (fun a b => decide (a.x < b.x)), 0 ≤ s.x := by
    intro s hs
    rw [(hslot s hs).1]
    exact (toX_mem_range start end_ _ _ hwin hW halloc).1
  have hw0 : ∀ s ∈ lib.sortSlice slot row (fun a b => decide (a.x < b.x)), 0 ≤ s.w := by
    intro s hs
    rw [(hslot s hs).2]
    exact len_nonneg _
  have hsorted := hsorts slot row (fun a b => decide (a.x < b.x))
    (fun a b h => by
      simp only [decide_eq_true_eq] at h
      simp only [decide_eq_false_iff_not, not_lt]
      omega)
    (fun a b c h1 h2 => by
      simp only [decide_eq_false_iff_not, not_lt] at h1 h2 ⊢
      omega)
  have hfree : (lib.sortSlice slot row (fun a b => decide (a.x < b.x))).Pairwise
      fun a b => ¬ (a.x < b.x + b.w + 1 ∧ b.x < a.x + a.w + 1) :=
    hp.symm.pairwise (packing_rows_never_collide_aux lib events start end_ opt row hrow)
      (fun {a b} h hc => h ⟨hc.2, hc.1⟩)
  have hasc : (lib.sortSlice slot row (fun a b => decide (a.x < b.x))).Pairwise
      fun a b => a.x + a.w < b.x := by
    refine List.Pairwise.imp_of_mem ?_ (hsorted.and hfree)
    intro a b _ hbm hab
    obtain ⟨h1, h2⟩ := hab
    simp only [decide_eq_false_iff_not, not_lt] at h1
    have := hw0 b hbm
    by_contra hcon
    exact h2 ⟨by omega, by omega⟩
  obtain ⟨_, hlast, hsplit⟩ := writeRow_shape lib (withDefaults opt).TimeFormat _ 0 text hx0
    (hasc.imp fun h => le_of_lt h) (fun s hs => (hslot s hs).2.symm) htext
  refine ⟨_, text, rfl, hp, ?_, hasc, hslot, ?_, ?_⟩
  · intro hnil
    rw [hnil] at hp
    exact packRows_ne_nil _ row hrow hp.symm.eq_nil
  · intro q hq
    have := hlast q hq
    omega
  · intro pre s post hsp
    obtain ⟨before, after, gap, h1, h2, h3, h4, h5⟩ := hsplit pre s post hsp
    exact ⟨before, after, gap, h1, by omega, h3, fun q hq => by have := h4 q hq; omega, h5⟩


theorem body_line_shape_witness :
    stdLib.Permutes ∧ stdLib.Sorts ∧ sampleStart < sampleEnd ∧
    (RenderTimeline stdLib threeEvents sampleStart sampleEnd wideOptions).2 = some threeText ∧
    ∃ (margin body : String) (tickLine axis : List Char) (lines : List String),
      threeText =
        margin ++ String.mk tickLine ++ "\n" ++ margin ++ String.mk axis ++ "\n\n" ++ body ∧
      0 ≤ wideOptions.LeftMargin ∧
      margin = String.mk (List.replicate wideOptions.LeftMargin.toNat ' ') ∧
      body = String.join lines ∧
      List.Forall₂ (fun row line =>
        ∃ (markers : List slot) (text : String),
          line = margin ++ text ++ "\n" ∧
          markers.Perm row ∧ markers ≠ [] ∧
          markers.Pairwise (fun a b => a.x + a.w < b.x) ∧
          (∀ s ∈ markers,
            s.x = toX sampleStart sampleEnd (Sub sampleEnd sampleStart)
              (withDefaults wideOptions).Width s.e.At ∧
            s.w = (len (markerText stdLib (withDefaults wideOptions).TimeFormat s.e) : Int)) ∧
          (∀ q, markers.getLast? = some q → (len text : Int) = q.x + q.w) ∧
          ∀ (pre : List slot) (s : slot) (post : List slot), markers = pre ++ s :: post →
            ∃ (before after : String) (gap : Nat),
              text = before ++ String.mk (List.replicate gap ' ') ++
                markerText stdLib (withDefaults wideOptions).TimeFormat s.e ++ after ∧
              (len before : Int) + (gap : Int) = s.x ∧
              (pre = [] → before = "") ∧
              (∀ q, pre.getLast? = some q → (len before : Int) = q.x + q.w) ∧
              (post = [] → after = ""))
        (rowsOf stdLib threeEvents sampleStart sampleEnd wideOptions) lines :=
  ⟨stdLib_permutes, stdLib_sorts, by decide, by decide,
    body_line_shape stdLib stdLib_permutes stdLib_sorts threeEvents sampleStart sampleEnd
      wideOptions threeText (by decide) (by decide)⟩

/-! ## The number of rows -/

/-- An iteration of the packing loop keeps the number of rows, or adds one row when no row
fits the slot. -/
theorem length_place (rows : List (List slot)) (p : slot) :
    (place rows p).length = rows.length ∨
    ((place rows p).length = rows.length + 1 ∧ ∀ row ∈ rows, fits p.x p.w row = false) := by
  induction rows with
  | nil =>
    right
    exact ⟨rfl, fun row h => by simp at h⟩
  | cons row rest ih =>
    rw [place_cons]
    by_cases hf : fits p.x p.w row = true
    · rw [if_pos hf]
      left
      rfl
    · rw [if_neg hf]
      rcases ih with h | ⟨h1, h2⟩
      · left
        simp [h]
      · right
        refine ⟨by simp [h1], fun r hr => ?_⟩
        rcases List.mem_cons.1 hr with h | h
        · subst h
          simpa using hf
        · exact h2 r h

/-- One slot of each row, taken among those that have a given property. -/
theorem exists_one_of_each_row (P : slot → Prop) :
    ∀ rows : List (List slot), (∀ row ∈ rows, ∃ q ∈ row, P q) →
      ∃ c : List slot, c.length = rows.length ∧ c.Sublist rows.flatten ∧ ∀ q ∈ c, P q := by
  intro rows
  induction rows with
  | nil => intro _; exact ⟨[], rfl, by simp, by simp⟩
  | cons row rest ih =>
    intro h
    obtain ⟨q, hq, hP⟩ := h row (List.mem_cons_self _ _)
    obtain ⟨c, hlen, hsub, hc⟩ := ih fun r hr => h r (List.mem_cons_of_mem _ hr)
    refine ⟨q :: c, by simp [hlen], ?_, ?_⟩
    · rw [List.flatten_cons]
      have h1 : [q].Sublist row := List.singleton_sublist.2 hq
      exact h1.append hsub
    · intro s hs
      rcases List.mem_cons.1 hs with h | h
      · exact h ▸ hP
      · exact hc s h

/-- When the slots come in non-decreasing order of their columns, as many of them as there
are rows collide pairwise. -/
theorem packRows_clique (slots : List slot) (hmono : slots.Pairwise fun a b => a.x ≤ b.x) :
    ∃ c : List slot, c.Subperm slots ∧
      (c.Pairwise fun a b => a.x < b.x + b.w + 1 ∧ b.x < a.x + a.w + 1) ∧
      c.length = (packRows slots).length := by
  induction slots using List.reverseRecOn with
  | nil => exact ⟨[], List.nil_subperm, List.Pairwise.nil, rfl⟩
  | append_singleton pre p ih =>
    rw [List.pairwise_append] at hmono
    obtain ⟨hpre, _, hlast⟩ := hmono
    obtain ⟨c, hsub, hclique, hlen⟩ := ih hpre
    rw [packRows_append_singleton]
    rcases length_place (packRows pre) p with h | ⟨h1, h2⟩
    · exact ⟨c, hsub.trans (List.sublist_append_left pre [p]).subperm, hclique, by rw [h, hlen]⟩
    · obtain ⟨c2, hlen2, hsub2, hc2⟩ := exists_one_of_each_row
        (fun q => p.x < q.x + q.w + 1 ∧ q.x < p.x + p.w + 1) (packRows pre)
        (fun row hrow => (not_fits_iff _ _ _).1 (h2 row hrow))
      have hsp : c2.Subperm pre :=
        hsub2.subperm.trans (flatten_packRows_perm pre).subperm
      have hx : ∀ q ∈ c2, q.x ≤ p.x := fun q hq =>
        hlast q (hsp.subset hq) p (List.mem_singleton_self p)
      refine ⟨c2 ++ [p], (List.subperm_append_right [p]).2 hsp, ?_, by simp [hlen2, h1]⟩
      rw [List.pairwise_append]
      refine ⟨List.pairwise_of_forall_mem_list fun a ha b hb => ?_, List.pairwise_singleton _ _,
        fun a ha b hb => ?_⟩
      · have h3 := hc2 a ha
        have h4 := hc2 b hb
        have h5 := hx a ha
        have h6 := hx b hb
        constructor <;> omega
      · rw [List.mem_singleton] at hb
        subst hb
        have h3 := hc2 a ha
        exact ⟨h3.2, h3.1⟩

/-- Slots that collide pairwise lie in different rows of an assignment without collision in
a row: there are at most as many of them as rows. -/
theorem clique_le_rows :
    ∀ (rows : List (List slot)) (c : List slot), c.Sublist rows.flatten →
      (c.Pairwise fun a b => a.x < b.x + b.w + 1 ∧ b.x < a.x + a.w + 1) →
      (∀ row ∈ rows, row.Pairwise fun a b => ¬ (a.x < b.x + b.w + 1 ∧ b.x < a.x + a.w + 1)) →
      c.length ≤ rows.length := by
  intro rows
  induction rows with
  | nil =>
    intro c hsub _ _
    rw [List.flatten_nil, List.sublist_nil] at hsub
    rw [hsub]
    exact le_refl _
  | cons row rest ih =>
    intro c hsub hclique hrows
    rw [List.flatten_cons, List.sublist_append_iff] at hsub
    obtain ⟨l1, l2, rfl, h1, h2⟩ := hsub
    rw [List.pairwise_append] at hclique
    obtain ⟨hc1, hc2, _⟩ := hclique
    have hl2 := ih l2 h2 hc2 fun r hr => hrows r (List.mem_cons_of_mem _ hr)
    have hfree := (hrows row (List.mem_cons_self _ _)).sublist h1
    have hl1 : l1.length ≤ 1 := by
      match l1, hc1, hfree with
      | [], _, _ => simp
      | [_], _, _ => simp
      | a :: b :: _, hc1, hfree =>
        rw [List.pairwise_cons] at hc1 hfree
        exact absurd (hc1.1 b (List.mem_cons_self _ _)) (hfree.1 b (List.mem_cons_self _ _))
    simp only [List.length_append, List.length_cons]
    omega

/-- The same for slots taken among those of the rows in any order. -/
theorem clique_le_rows_of_subperm (rows : List (List slot)) (c : List slot)
    (hsub : c.Subperm rows.flatten)
    (hclique : c.Pairwise fun a b => a.x < b.x + b.w + 1 ∧ b.x < a.x + a.w + 1)
    (hrows : ∀ row ∈ rows,
      row.Pairwise fun a b => ¬ (a.x < b.x + b.w + 1 ∧ b.x < a.x + a.w + 1)) :
    c.length ≤ rows.length := by
  obtain ⟨c', hperm, hsub'⟩ := hsub
  rw [← hperm.length_eq]
  exact clique_le_rows rows c' hsub'
    (hperm.symm.pairwise hclique fun {a b} h => ⟨h.2, h.1⟩) hrows

/-- Slots in non-decreasing order of their columns: no assignment of them to rows without
collision in a row has fewer rows than the packing loop makes. -/
theorem packRows_minimal (slots : List slot) (hmono : slots.Pairwise fun a b => a.x ≤ b.x)
    (rows : List (List slot)) (hperm : rows.flatten.Perm slots)
    (hrows : ∀ row ∈ rows,
      row.Pairwise fun a b => ¬ (a.x < b.x + b.w + 1 ∧ b.x < a.x + a.w + 1)) :
    (packRows slots).length ≤ rows.length := by
  obtain ⟨c, hsub, hclique, hlen⟩ := packRows_clique slots hmono
  rw [← hlen]
  exact clique_le_rows_of_subperm rows c (hsub.trans hperm.symm.subperm) hclique hrows

/-! ## The column mapper is monotone -/

theorem toRat_div_mono (A B S : Float64) (hA0 : 0 ≤ A.num) (hB0 : 0 ≤ B.num) (hS0 : 0 ≤ S.num)
    (hAd : 0 < A.den) (hBd : 0 < B.den) (hSd : 0 < S.den) (hSpos : 0 < S.toRat)
    (h : A.toRat ≤ B.toRat) : (Float64.div A S).toRat ≤ (Float64.div B S).toRat := by
  have hAv := toRat_of_nonneg A hA0
  have hBv := toRat_of_nonneg B hB0
  have hSv := toRat_of_nonneg S hS0
  have hAdq : (0 : ℚ) < (A.den : ℚ) := by exact_mod_cast hAd
  have hBdq : (0 : ℚ) < (B.den : ℚ) := by exact_mod_cast hBd
  have hSdq : (0 : ℚ) < (S.den : ℚ) := by exact_mod_cast hSd
  have hSn : 0 < S.num.toNat := by
    rcases Nat.eq_zero_or_pos S.num.toNat with h0 | h0
    · rw [hSv, h0] at hSpos
      simp at hSpos
    · exact h0
  have hSnq : (0 : ℚ) < (S.num.toNat : ℚ) := by exact_mod_cast hSn
  rw [div_of_nonneg A S hA0 hS0, div_of_nonneg B S hB0 hS0]
  have hRA : ((A.num.toNat * S.den : ℕ) : ℚ) / ((A.den * S.num.toNat : ℕ) : ℚ) =
      A.toRat / S.toRat := by
    rw [hAv, hSv]
    push_cast
    field_simp
  have hRB : ((B.num.toNat * S.den : ℕ) : ℚ) / ((B.den * S.num.toNat : ℕ) : ℚ) =
      B.toRat / S.toRat := by
    rw [hBv, hSv]
    push_cast
    field_simp
  apply ofRatio_mono _ _ _ _ (Nat.mul_pos hAd hSn) (Nat.mul_pos hBd hSn)
  rw [hRA, hRB]
  exact div_le_div_of_nonneg_right h (le_of_lt hSpos)

theorem toRat_mul_mono (A B W : Float64) (hA0 : 0 ≤ A.num) (hB0 : 0 ≤ B.num) (hW0 : 0 ≤ W.num)
    (hAd : 0 < A.den) (hBd : 0 < B.den) (hWd : 0 < W.den)
    (h : A.toRat ≤ B.toRat) : (Float64.mul A W).toRat ≤ (Float64.mul B W).toRat := by
  have hAv := toRat_of_nonneg A hA0
  have hBv := toRat_of_nonneg B hB0
  have hWv := toRat_of_nonneg W hW0
  have hAdq : (0 : ℚ) < (A.den : ℚ) := by exact_mod_cast hAd
  have hBdq : (0 : ℚ) < (B.den : ℚ) := by exact_mod_cast hBd
  have hWdq : (0 : ℚ) < (W.den : ℚ) := by exact_mod_cast hWd
  have hWnn : 0 ≤ W.toRat := by rw [hWv]; positivity
  rw [mul_of_nonneg A W hA0 hW0, mul_of_nonneg B W hB0 hW0]
  have hPA : ((A.num.toNat * W.num.toNat : ℕ) : ℚ) / ((A.den * W.den : ℕ) : ℚ) =
      A.toRat * W.toRat := by
    rw [hAv, hWv]
    push_cast
    field_simp
  have hPB : ((B.num.toNat * W.num.toNat : ℕ) : ℚ) / ((B.den * W.den : ℕ) : ℚ) =
      B.toRat * W.toRat := by
    rw [hBv, hWv]
    push_cast
    field_simp
  apply ofRatio_mono _ _ _ _ (Nat.mul_pos hAd hWd) (Nat.mul_pos hBd hWd)
  rw [hPA, hPB]
  exact mul_le_mul_of_nonneg_right h hWnn

/-- The float64 expression of the column mapper does not decrease with the elapsed time. -/
theorem column_mono (a b s W : Int) (ha : 0 ≤ a) (hab : a ≤ b) (hs : 0 < s) (hW : 0 ≤ W) :
    Float64.roundToInt (Float64.mul (Float64.div (Float64.ofInt a) (Float64.ofInt s))
        (Float64.ofInt W)) ≤
      Float64.roundToInt (Float64.mul (Float64.div (Float64.ofInt b) (Float64.ofInt s))
        (Float64.ofInt W)) := by
  rw [ofInt_of_nonneg a ha, ofInt_of_nonneg b (by omega), ofInt_of_nonneg s (le_of_lt hs),
    ofInt_of_nonneg W hW]
  have hAB := ofRatio_mono a.toNat 1 b.toNat 1 Nat.one_pos Nat.one_pos (by
    have : a.toNat ≤ b.toNat := by omega
    have hq : (a.toNat : ℚ) ≤ (b.toNat : ℚ) := by exact_mod_cast this
    simpa using hq)
  have hSpos := ofRatio_toRat_pos s.toNat 1 (by omega) Nat.one_pos
  have hR := toRat_div_mono _ _ _ (ofRatio_num_nonneg a.toNat 1) (ofRatio_num_nonneg b.toNat 1)
    (ofRatio_num_nonneg s.toNat 1) (ofRatio_den_pos false a.toNat 1)
    (ofRatio_den_pos false b.toNat 1) (ofRatio_den_pos false s.toNat 1) hSpos hAB
  rw [div_of_nonneg _ _ (ofRatio_num_nonneg a.toNat 1) (ofRatio_num_nonneg s.toNat 1),
    div_of_nonneg _ _ (ofRatio_num_nonneg b.toNat 1) (ofRatio_num_nonneg s.toNat 1)] at hR ⊢
  have hP := toRat_mul_mono _ _ (Float64.ofRatio false W.toNat 1)
    (ofRatio_num_nonneg _ _) (ofRatio_num_nonneg _ _) (ofRatio_num_nonneg W.toNat 1)
    (ofRatio_den_pos false _ _) (ofRatio_den_pos false _ _) (ofRatio_den_pos false W.toNat 1) hR
  rw [mul_of_nonneg _ _ (ofRatio_num_nonneg _ _) (ofRatio_num_nonneg W.toNat 1),
    mul_of_nonneg _ _ (ofRatio_num_nonneg _ _) (ofRatio_num_nonneg W.toNat 1)] at hP ⊢
  rw [roundToInt_eq_floor _ (ofRatio_num_nonneg _ _) (ofRatio_den_pos false _ _),
    roundToInt_eq_floor _ (ofRatio_num_nonneg _ _) (ofRatio_den_pos false _ _)]
  exact Int.floor_le_floor (by linarith)

/-- Inside a render, a later time is mapped to the same column or to a column further
right. -/
theorem toX_mono (start end_ Width t u : Int) (hwin : start < end_) (hW : 0 < Width)
    (halloc : (makeRunes (Width + 1) ' ').isSome = true) (htu : t ≤ u) :
    toX start end_ (Sub end_ start) Width t ≤ toX start end_ (Sub end_ start) Width u := by
  have hrt := toX_mem_range start end_ Width t hwin hW halloc
  have hru := toX_mem_range start end_ Width u hwin hW halloc
  by_cases h1 : t < start
  · rw [toX_before _ _ _ _ _ h1]
    exact hru.1
  by_cases h2 : end_ < u
  · rw [toX_after _ _ _ _ u (by omega) h2]
    exact hrt.2
  rw [toX_inside _ _ _ _ t h1 (by omega), toX_inside _ _ _ _ u (by omega) h2]
  exact column_mono _ _ _ _ ((Sub_nonneg_iff _ _).2 (by omega)) (Sub_mono _ _ _ htu)
    ((Sub_pos_iff _ _).2 hwin) (le_of_lt hW)


/-- The packing rows are an assignment of the slots to rows without collision in a row. -/
theorem rowsOf_assignment (lib : Lib) (events : List Event) (start end_ : Int)
    (opt : Options) :
    (rowsOf lib events start end_ opt).flatten.Perm (slotsOf lib events start end_ opt) ∧
    ∀ row ∈ rowsOf lib events start end_ opt,
      row.Pairwise fun a b => ¬ (a.x < b.x + b.w + 1 ∧ b.x < a.x + a.w + 1) :=
  ⟨by rw [rowsOf_eq]; exact flatten_packRows_perm _,
    packing_rows_never_collide_aux lib events start end_ opt⟩

/-- C13 fails as stated: four events on two depths, from 08:00 to 09:00 in 60 columns. The
events are packed in the order a, d, b, c: the render has three body rows, while the rows
`[a, c]` and `[b, d]` hold the same markers at the same columns without a collision. -/
theorem greedy_rows_not_minimal :
    (RenderTimeline stdLib fourEvents sampleStart nineOClock wideOptions).2 = some fourText ∧
    (rowsOf stdLib fourEvents sampleStart nineOClock wideOptions).length = 3 ∧
    ∃ rows : List (List slot),
      rows.flatten.Perm (slotsOf stdLib fourEvents sampleStart nineOClock wideOptions) ∧
      (∀ row ∈ rows,
        row.Pairwise fun a b => ¬ (a.x < b.x + b.w + 1 ∧ b.x < a.x + a.w + 1)) ∧
      rows.length = 2 ∧
      rows.length < (rowsOf stdLib fourEvents sampleStart nineOClock wideOptions).length :=
  ⟨by decide, by decide,
    [[⟨⟨"a", 63885139200000000000, 0⟩, 0, 11⟩, ⟨⟨"c", 63885140160000000000, 1⟩, 16, 11⟩],
      [⟨⟨"b", 63885139680000000000, 1⟩, 8, 11⟩, ⟨⟨"d", 63885140640000000000, 0⟩, 24, 11⟩]],
    by decide, by decide, by decide, by decide⟩

/-- C13, as amended: when the columns of the markers never decrease along the order in which
the events are packed (the order by depth, then time), the number of packing rows, which is
the number of body rows of the render, is the minimum: the packing rows are an assignment of
the markers to rows without collision in a row, and no such assignment of the same markers,
with the same columns and widths, has fewer rows. -/
theorem rows_minimal_of_ascending_columns (lib : Lib) (events : List Event)
    (start end_ : Int) (opt : Options)
    (hmono : (slotsOf lib events start end_ opt).Pairwise fun a b => a.x ≤ b.x) :
    (rowsOf lib events start end_ opt).flatten.Perm (slotsOf lib events start end_ opt) ∧
    (∀ row ∈ rowsOf lib events start end_ opt,
      row.Pairwise fun a b => ¬ (a.x < b.x + b.w + 1 ∧ b.x < a.x + a.w + 1)) ∧
    ∀ rows : List (List slot),
      rows.flatten.Perm (slotsOf lib events start end_ opt) →
      (∀ row ∈ rows,
        row.Pairwise fun a b => ¬ (a.x < b.x + b.w + 1 ∧ b.x < a.x + a.w + 1)) →
      (rowsOf lib events start end_ opt).length ≤ rows.length := by
  obtain ⟨h1, h2⟩ := rowsOf_assignment lib events start end_ opt
  refine ⟨h1, h2, fun rows hperm hrows => ?_⟩
  rw [rowsOf_eq]
  exact packRows_minimal _ hmono rows hperm hrows

theorem rows_minimal_of_ascending_columns_witness :
    ((slotsOf stdLib threeEvents sampleStart sampleEnd wideOptions).Pairwise
      fun a b => a.x ≤ b.x) ∧
    (rowsOf stdLib threeEvents sampleStart sampleEnd wideOptions).length = 2 ∧
    (rowsOf stdLib threeEvents sampleStart sampleEnd wideOptions).flatten.Perm
      (slotsOf stdLib threeEvents sampleStart sampleEnd wideOptions) ∧
    (∀ row ∈ rowsOf stdLib threeEvents sampleStart sampleEnd wideOptions,
      row.Pairwise fun a b => ¬ (a.x < b.x + b.w + 1 ∧ b.x < a.x + a.w + 1)) ∧
    ∀ rows : List (List slot),
      rows.flatten.Perm (slotsOf stdLib threeEvents sampleStart sampleEnd wideOptions) →
      (∀ row ∈ rows,
        row.Pairwise fun a b => ¬ (a.x < b.x + b.w + 1 ∧ b.x < a.x + a.w + 1)) →
      (rowsOf stdLib threeEvents sampleStart sampleEnd wideOptions).length ≤ rows.length :=
  ⟨by decide, by decide,
    rows_minimal_of_ascending_columns stdLib threeEvents sampleStart sampleEnd wideOptions
      (by decide)⟩

/-- C19: in a render with `end` after `start` of events that all have the same depth, the
events are packed in ascending order of their timestamps and so, the column mapper being
monotone, in non-decreasing order of their columns. The number of packing rows is then
optimal: the packing rows are an assignment of the markers to rows without collision in a
row, no such assignment of the same markers has fewer rows, and the number of rows is the
largest number of markers that collide pairwise: as many markers as there are rows collide
pairwise, and no more do. -/
theorem same_depth_rows_optimal (lib : Lib) (hperm : lib.Permutes) (hsorts : lib.Sorts)
    (events : List Event) (start end_ : Int) (opt : Options) (hwin : start < end_)
    (halloc : (makeRunes ((withDefaults opt).Width + 1) ' ').isSome = true)
    (hdepth : ∀ a ∈ events, ∀ b ∈ events, a.Depth = b.Depth) :
    ((sortedEvents lib events).Pairwise fun a b => a.At ≤ b.At) ∧
    ((slotsOf lib events start end_ opt).Pairwise fun a b => a.x ≤ b.x) ∧
    (rowsOf lib events start end_ opt).flatten.Perm (slotsOf lib events start end_ opt) ∧
    (∀ row ∈ rowsOf lib events start end_ opt,
      row.Pairwise fun a b => ¬ (a.x < b.x + b.w + 1 ∧ b.x < a.x + a.w + 1)) ∧
    (∀ rows : List (List slot),
      rows.flatten.Perm (slotsOf lib events start end_ opt) →
      (∀ row ∈ rows,
        row.Pairwise fun a b => ¬ (a.x < b.x + b.w + 1 ∧ b.x < a.x + a.w + 1)) →
      (rowsOf lib events start end_ opt).length ≤ rows.length) ∧
    (∃ c : List slot, c.Subperm (slotsOf lib events start end_ opt) ∧
      (c.Pairwise fun a b => a.x < b.x + b.w + 1 ∧ b.x < a.x + a.w + 1) ∧
      c.length = (rowsOf lib events start end_ opt).length) ∧
    ∀ c : List slot, c.Subperm (slotsOf lib events start end_ opt) →
      (c.Pairwise fun a b => a.x < b.x + b.w + 1 ∧ b.x < a.x + a.w + 1) →
      c.length ≤ (rowsOf lib events start end_ opt).length := by
  obtain ⟨hW, _, _, _⟩ := withDefaults_spec opt
  obtain ⟨hp, hs⟩ := sortedEvents_spec lib hperm hsorts events
  have htime : (sortedEvents lib events).Pairwise fun a b => a.At ≤ b.At := by
    refine List.Pairwise.imp_of_mem ?_ hs
    intro a b ha hb hab
    have hd := hdepth a (hp.subset ha) b (hp.subset hb)
    rcases hab with h | h
    · omega
    · exact h.2
  have hmono : (slotsOf lib events start end_ opt).Pairwise fun a b => a.x ≤ b.x := by
    unfold slotsOf
    rw [List.pairwise_map]
    exact htime.imp fun {a b} hab => toX_mono start end_ _ a.At b.At hwin hW halloc hab
  obtain ⟨h1, h2⟩ := rowsOf_assignment lib events start end_ opt
  refine ⟨htime, hmono, h1, h2, fun rows hperm hrows => ?_, ?_, fun c hsub hclique => ?_⟩
  · rw [rowsOf_eq]
    exact packRows_minimal _ hmono rows hperm hrows
  · rw [rowsOf_eq]
    exact packRows_clique _ hmono
  · exact clique_le_rows_of_subperm _ c (hsub.trans h1.symm.subperm) hclique h2

theorem same_depth_rows_optimal_witness :
    stdLib.Permutes ∧ stdLib.Sorts ∧ sampleStart < sampleEnd ∧
    (makeRunes ((withDefaults wideOptions).Width + 1) ' ').isSome = true ∧
    (∀ a ∈ threeEvents, ∀ b ∈ threeEvents, a.Depth = b.Depth) ∧
    (rowsOf stdLib threeEvents sampleStart sampleEnd wideOptions).length = 2 ∧
    ((sortedEvents stdLib threeEvents).Pairwise fun a b => a.At ≤ b.At) ∧
    ((slotsOf stdLib threeEvents sampleStart sampleEnd wideOptions).Pairwise
      fun a b => a.x ≤ b.x) ∧
    (rowsOf stdLib threeEvents sampleStart sampleEnd wideOptions).flatten.Perm
      (slotsOf stdLib threeEvents sampleStart sampleEnd wideOptions) ∧
    (∀ row ∈ rowsOf stdLib threeEvents sampleStart sampleEnd wideOptions,
      row.Pairwise fun a b => ¬ (a.x < b.x + b.w + 1 ∧ b.x < a.x + a.w + 1)) ∧
    (∀ rows : List (List slot),
      rows.flatten.Perm (slotsOf stdLib threeEvents sampleStart sampleEnd wideOptions) →
      (∀ row ∈ rows,
        row.Pairwise fun a b => ¬ (a.x < b.x + b.w + 1 ∧ b.x < a.x + a.w + 1)) →
      (rowsOf stdLib threeEvents sampleStart sampleEnd wideOptions).length ≤ rows.length) ∧
    (∃ c : List slot,
      c.Subperm (slotsOf stdLib threeEvents sampleStart sampleEnd wideOptions) ∧
      (c.Pairwise fun a b => a.x < b.x + b.w + 1 ∧ b.x < a.x + a.w + 1) ∧
      c.length = (rowsOf stdLib threeEvents sampleStart sampleEnd wideOptions).length) ∧
    ∀ c : List slot,
      c.Subperm (slotsOf stdLib threeEvents sampleStart sampleEnd wideOptions) →
      (c.Pairwise fun a b => a.x < b.x + b.w + 1 ∧ b.x < a.x + a.w + 1) →
      c.length ≤ (rowsOf stdLib threeEvents sampleStart sampleEnd wideOptions).length :=
  ⟨stdLib_permutes, stdLib_sorts, by decide, by decide, by decide, by decide,
    same_depth_rows_optimal stdLib stdLib_permutes stdLib_sorts threeEvents sampleStart
      sampleEnd wideOptions (by decide) (by decide) (by decide)⟩

/-! ## Rendering twice -/

/-- Two arrangements of the same elements, both in an order that is antisymmetric on them,
are the same list. -/
theorem eq_of_perm_of_pairwise {α : Type} (R : α → α → Prop) :
    ∀ (l1 l2 : List α), l1.Perm l2 → l1.Pairwise R → l2.Pairwise R →
      (∀ a ∈ l1, ∀ b ∈ l1, R a b → R b a → a = b) → l1 = l2 := by
  intro l1
  induction l1 with
  | nil =>
    intro l2 hperm _ _ _
    exact hperm.nil_eq
  | cons a l1 ih =>
    intro l2 hperm h1 h2 hanti
    cases l2 with
    | nil => exact absurd hperm.symm.nil_eq (by simp)
    | cons b l2 =>
      rw [List.pairwise_cons] at h1 h2
      have hab : a = b := by
        by_contra hne
        have ha : a ∈ l2 := by
          rcases List.mem_cons.1 (hperm.subset (List.mem_cons_self a l1)) with h | h
          · exact absurd h hne
          · exact h
        have hb : b ∈ l1 := by
          rcases List.mem_cons.1 (hperm.symm.subset (List.mem_cons_self b l2)) with h | h
          · exact absurd h.symm hne
          · exact h
        exact hne (hanti a (List.mem_cons_self _ _) b (List.mem_cons_of_mem _ hb)
          (h1.1 b hb) (h2.1 a ha))
      subst hab
      rw [ih l2 (List.Perm.cons_inv hperm) h1.2 h2.2
        fun x hx y hy => hanti x (List.mem_cons_of_mem _ hx) y (List.mem_cons_of_mem _ hy)]

/-- The text and the caller's slice depend on the events through the sorted slice only. -/
theorem RenderTimeline_congr_sorted (lib : Lib) (events events' : List Event)
    (start end_ : Int) (opt : Options)
    (h : sortedEvents lib events' = sortedEvents lib events) :
    RenderTimeline lib events' start end_ opt = RenderTimeline lib events start end_ opt := by
  unfold RenderTimeline
  simp only [h]

theorem revLib_permutes : revLib.Permutes := by
  intro α l less
  exact (List.perm_insertionSort _ l.reverse).trans (List.reverse_perm l)

theorem revLib_sorts : revLib.Sorts := by
  intro α l less hasym htrans
  have htot : IsTotal α (fun a b => less b a = false) := ⟨fun a b => by
    cases h : less b a with
    | false => exact Or.inl rfl
    | true => exact Or.inr (hasym b a h)⟩
  have htr : IsTrans α (fun a b => less b a = false) := ⟨fun a b c h1 h2 => htrans a b c h1 h2⟩
  exact List.sorted_insertionSort (fun a b => less b a = false) l.reverse

/-- C15 fails as stated: two events at the same instant and depth, and a sort routine that
does what `sort.Slice` promises (it rearranges the slice into order) and resolves ties the
other way round. The first call prints A above B and leaves the list as A, B; the second
call, on that list, prints B above A. -/
theorem render_twice_differs_on_ties :
    revLib.Permutes ∧ revLib.Sorts ∧
    (RenderTimeline revLib tiedEvents sampleStart sampleEnd sampleOptions).1 =
      [⟨"A", 63885141000000000000, 0⟩, ⟨"B", 63885141000000000000, 0⟩] ∧
    (RenderTimeline revLib tiedEvents sampleStart sampleEnd sampleOptions).2 =
      some ("08:00   09:00   10:00\n|---------|---------|\n\n" ++
        "     ^ A (08:30)\n     ^ B (08:30)\n") ∧
    (RenderTimeline revLib (RenderTimeline revLib tiedEvents sampleStart sampleEnd
        sampleOptions).1 sampleStart sampleEnd sampleOptions).2 =
      some ("08:00   09:00   10:00\n|---------|---------|\n\n" ++
        "     ^ B (08:30)\n     ^ A (08:30)\n") ∧
    (RenderTimeline revLib (RenderTimeline revLib tiedEvents sampleStart sampleEnd
        sampleOptions).1 sampleStart sampleEnd sampleOptions).2 ≠
      (RenderTimeline revLib tiedEvents sampleStart sampleEnd sampleOptions).2 :=
  ⟨revLib_permutes, revLib_sorts, by decide, by decide, by decide, by decide⟩

/-- C15, as amended: a second call of `RenderTimeline` on the event list as the first call
left it, with the same window and options, returns the same text as the first call and
leaves the list as it was, when `sort.Slice` leaves a slice that is in order as it is (the
ties are resolved the same way in both calls), or when no two events have the same depth and
timestamp. -/
theorem render_twice_same_text (lib : Lib) (hperm : lib.Permutes) (hsorts : lib.Sorts)
    (events : List Event) (start end_ : Int) (opt : Options)
    (hties : lib.KeepsSorted ∨
      events.Pairwise fun a b => ¬ (a.Depth = b.Depth ∧ a.At = b.At)) :
    (RenderTimeline lib (RenderTimeline lib events start end_ opt).1 start end_ opt).2 =
      (RenderTimeline lib events start end_ opt).2 ∧
    (RenderTimeline lib (RenderTimeline lib events start end_ opt).1 start end_ opt).1 =
      (RenderTimeline lib events start end_ opt).1 := by
  obtain ⟨hp, hs⟩ := sortedEvents_spec lib hperm hsorts events
  have hkey : sortedEvents lib (sortedEvents lib events) = sortedEvents lib events := by
    rcases hties with hkeep | hdistinct
    · exact hkeep Event _ eventLess (hs.imp fun hab => (eventLess_eq_false_iff _ _).2 hab)
    · obtain ⟨hp2, hs2⟩ := sortedEvents_spec lib hperm hsorts (sortedEvents lib events)
      have hd : (sortedEvents lib events).Pairwise
          fun a b => ¬ (a.Depth = b.Depth ∧ a.At = b.At) :=
        hp.symm.pairwise hdistinct fun {a b} h hc => h ⟨hc.1.symm, hc.2.symm⟩
      refine (eq_of_perm_of_pairwise _ _ _ hp2.symm hs hs2 ?_).symm
      intro a ha b hb hab hba
      by_contra hne
      have hsym : Symmetric fun a b : Event => ¬ (a.Depth = b.Depth ∧ a.At = b.At) :=
        fun a b h hc => h ⟨hc.1.symm, hc.2.symm⟩
      have := hd.forall hsym ha hb hne
      apply this
      constructor <;> omega
  rw [RenderTimeline_fst]
  rw [RenderTimeline_congr_sorted lib events (sortedEvents lib events) start end_ opt hkey]
  exact ⟨rfl, RenderTimeline_fst lib events start end_ opt⟩

theorem render_twice_same_text_witness :
    stdLib.Permutes ∧ stdLib.Sorts ∧
    (stdLib.KeepsSorted ∨
      tiedEvents.Pairwise fun a b => ¬ (a.Depth = b.Depth ∧ a.At = b.At)) ∧
    (RenderTimeline stdLib tiedEvents sampleStart sampleEnd sampleOptions).2 =
      some ("08:00   09:00   10:00\n|---------|---------|\n\n" ++
        "     ^ B (08:30)\n     ^ A (08:30)\n") ∧
    (RenderTimeline stdLib (RenderTimeline stdLib tiedEvents sampleStart sampleEnd
        sampleOptions).1 sampleStart sampleEnd sampleOptions).2 =
      (RenderTimeline stdLib tiedEvents sampleStart sampleEnd sampleOptions).2 ∧
    (RenderTimeline stdLib (RenderTimeline stdLib tiedEvents sampleStart sampleEnd
        sampleOptions).1 sampleStart sampleEnd sampleOptions).1 =
      (RenderTimeline stdLib tiedEvents sampleStart sampleEnd sampleOptions).1 :=
  ⟨stdLib_permutes, stdLib_sorts, Or.inl stdLib_keepsSorted, by decide,
    render_twice_same_text stdLib stdLib_permutes stdLib_sorts tiedEvents sampleStart sampleEnd
      sampleOptions (Or.inl stdLib_keepsSorted)⟩

end Termline
